import Mathlib

/-! Verification of libedit file-name completion (`src/lib/libedit/filecomplete.c`), of the
interval tree shim (`src/sys/external/bsd/drm2/include/linux/interval_tree.h`)
and of the thread-specific data stubs (`src/lib/libc/thread-stub/thread-stub.c`).

A shallow embedding of the completion engine of NetBSD libedit (namespace
`Filecomplete`), of `interval_tree_iter_first` (namespace `IntervalTree`) and of
the key stubs (namespace `ThreadStub`), and the properties checked against
them.

Conventions of the embedding

* A C string (`char *`, `wchar_t *`) is the list of its characters before the
  terminating NUL (`CStr`).  Reading `s[i]` is `cget s i`: the character, or
  the terminator when `i` is the length.
* The line buffer is the character array `el_line.buffer[0 .. lastchar)`
  together with the cursor offset; it is an array, not a C string.
* A `NULL` pointer result is `none`.
* `ct_encode_string` / `ct_decode_string` (wide/multibyte conversion) are the
  identity on characters.
* Loops driven by a caller-supplied generator carry a fuel argument: `none` at
  the outer level means the generator did not finish within the fuel.
* Counts, offsets and lengths are natural numbers; the casts between `size_t`
  and `int` of the source are exact on the values that occur (below `2^31`).
-/

namespace Filecomplete

/-- Content of a C string: the characters before the terminating NUL. -/
abbrev CStr := List Char

/-- The NUL character. -/
def NUL : Char := Char.ofNat 0

/-- Reading `s[i]` of a C string: a character of the string, or the terminating NUL. -/
def cget (s : CStr) (i : Nat) : Char := s.getD i NUL

/-- The C string denoted by an array: its content up to the first NUL. -/
def cstr (a : List Char) : CStr := a.takeWhile (fun c => c != NUL)

/-! ## completion_matches -/

/-- Capacity growth: `while (matches + 3 >= match_list_len) match_list_len <<= 1;`. -/
def grow_match_list_len (nmatches : Nat) : Nat → Nat → Nat
  | 0, match_list_len => match_list_len
  | fuel + 1, match_list_len =>
    if nmatches + 3 ≥ match_list_len then
      grow_match_list_len nmatches fuel (match_list_len <<< 1)
    else match_list_len

/-- The generator loop of `completion_matches` (lines 474-492).  State: the number
`nmatches` of matches so far (the source's `matches`), the capacity
`match_list_len`, and the candidates stored in `match_list[1 .. matches]`.
Result: `none` when the fuel runs out,
`some none` when `el_realloc` fails (the function returns NULL),
`some (some (candidates, match_list_len))` when the generator returned NULL. -/
def completion_matches_loop (alloc_ok : Bool) (text : CStr)
    (genfunc : CStr → Nat → Option CStr) :
    Nat → Nat → Nat → List CStr → Option (Option (List CStr × Nat))
  | 0, _, _, _ => none
  | fuel + 1, nmatches, match_list_len, match_list =>
    match genfunc text nmatches with
    | none => some (some (match_list, match_list_len))
    | some retstr =>
      if nmatches + 3 ≥ match_list_len then
        if alloc_ok then
          completion_matches_loop alloc_ok text genfunc fuel (nmatches + 1)
            (grow_match_list_len nmatches (nmatches + 4) match_list_len)
            (match_list ++ [retstr])
        else some none
      else
        completion_matches_loop alloc_ok text genfunc fuel (nmatches + 1)
          match_list_len (match_list ++ [retstr])

/-- The inner comparison loop (lines 502-504):
`for (i = 0; i < max_equal && prevstr[i] == match_list[which][i]; i++)`,
started at index `i` with `fuel` iterations left; the value is the final `i`. -/
def equal_run (prevstr cand : CStr) (max_equal : Nat) : Nat → Nat → Nat
  | 0, i => i
  | fuel + 1, i =>
    if i < max_equal ∧ cget prevstr i = cget cand i then
      equal_run prevstr cand max_equal fuel (i + 1)
    else i

/-- The outer loop (lines 501-506) over `match_list[2 .. matches]`, updating `max_equal`. -/
def least_denominator (prevstr : CStr) : List CStr → Nat → Nat
  | [], max_equal => max_equal
  | cand :: rest, max_equal =>
    least_denominator prevstr rest (equal_run prevstr cand max_equal max_equal 0)

/-- The function `completion_matches` (lines 467-520).  The returned array is the list of its
entries before the NULL terminator: entry 0 is the common prefix and the
candidates follow.  `alloc_ok` tells whether the allocations succeed. -/
def completion_matches (alloc_ok : Bool) (text : CStr)
    (genfunc : CStr → Nat → Option CStr) (fuel : Nat) : Option (Option (List CStr)) :=
  match completion_matches_loop alloc_ok text genfunc fuel 0 1 [] with
  | none => none
  | some none => some none
  | some (some (match_list, _)) =>
    match match_list with
    | [] => some none
    | prevstr :: rest =>
      let max_equal := least_denominator prevstr rest prevstr.length
      if alloc_ok then some (some (prevstr.take max_equal :: prevstr :: rest))
      else some none

/-- The generator called with states 0, 1, 2, ... yields exactly `cands` and then NULL. -/
def yields (genfunc : CStr → Nat → Option CStr) (text : CStr) (cands : List CStr) : Prop :=
  (∀ i, i < cands.length → genfunc text i = cands.get? i) ∧ genfunc text cands.length = none

/-- A generator that yields the given list whatever the text. -/
def gen_of_list (cands : List CStr) : CStr → Nat → Option CStr :=
  fun _ state => cands.get? state



/-! ## Escaping -/

/-- The function `needs_escaping` (lines 129-160). -/
def needs_escaping (c : Char) : Bool :=
  match c with
  | '\'' | '"' | '(' | ')' | '\\' | '<' | '>' | '$' | '#' | ' ' | '\n' | '\t' | '?' | ';'
  | '`' | '@' | '=' | '|' | '{' | '}' | '&' | '*' | '[' => true
  | _ => false

/-- The function `needs_dquote_escaping` (lines 162-174). -/
def needs_dquote_escaping (c : Char) : Bool :=
  match c with
  | '"' | '\\' | '`' | '$' => true
  | _ => false

/-- The function `unescape_string` (lines 177-192): copies `string[0 .. length)` without its
backslashes.  NULL (`none`) when `el_calloc` fails. -/
def unescape_string (alloc_ok : Bool) (string : List Char) (length : Nat) : Option CStr :=
  if alloc_ok then some (cstr ((string.take length).filter (fun c => c != '\\')))
  else none

/-- What the completion code sends to the terminal: `el_beep`, the `"\n"` lines, the
`Display all %zu possibilities? (y or n) ` prompt, and a call of
`fn_display_match_list(el, matches, num, width, app_func)`. -/
inductive Output where
  | beep
  | newline
  | query (matches_num : Nat)
  | match_list (list : List CStr) (num width : Nat)
  deriving DecidableEq, Repr

/-- The editor state the completion code touches: the line buffer
`el_line.buffer[0 .. lastchar)`, the cursor offset, the last and current editor
commands, and the two streams: what was sent to the terminal and what
`getc(stdin)` will read. -/
structure EditLine where
  buffer : List Char
  cursor : Nat
  lastcmd : Nat
  thiscmd : Nat
  outfile : List Output
  stdin : List Char
  deriving DecidableEq, Repr

/-- One step of the quote scan of `escape_filename` (lines 218-225) at offset `temp`. -/
def quote_step (buffer : List Char) (q : Bool × Bool) (temp : Nat) : Bool × Bool :=
  let s_quoted := q.1
  let d_quoted := q.2
  if buffer.getD temp NUL = '\'' ∧ d_quoted = false ∧
      (temp = 0 ∨ buffer.getD (temp - 1) NUL ≠ '\\') then
    (!s_quoted, d_quoted)
  else if buffer.getD temp NUL = '"' ∧ s_quoted = false then
    (s_quoted, !d_quoted)
  else (s_quoted, d_quoted)

/-- The quote scan of `escape_filename` (lines 213-227): `temp` runs from the start of
the buffer to the cursor; the value is `(s_quoted, d_quoted)`. -/
def quote_scan (buffer : List Char) (cursor : Nat) : Bool × Bool :=
  (List.range cursor).foldl (quote_step buffer) (false, false)

/-- The counting loop of `escape_filename` (lines 232-246): the value of
`escaped_character_count`. -/
def escaped_character_count (s_quoted d_quoted : Bool) : CStr → Nat
  | [] => 0
  | c :: s =>
    (if s_quoted ∧ c = '\'' then 3
     else if d_quoted ∧ needs_dquote_escaping c then 1
     else if !s_quoted ∧ !d_quoted ∧ needs_escaping c then 1
     else 0) + escaped_character_count s_quoted d_quoted s

/-- The size `newlen` that `escape_filename` allocates (lines 248-253). -/
def escape_newlen (s_quoted d_quoted : Bool) (filename : CStr) (single_match : Bool)
    (has_app_func : Bool) : Nat :=
  filename.length + escaped_character_count s_quoted d_quoted filename + 1
    + (if s_quoted ∨ d_quoted then 1 else 0)
    + (if single_match ∧ has_app_func then 1 else 0)

/-- The copy loop of `escape_filename` (lines 258-292): the characters written for the file name. -/
def escape_loop (s_quoted d_quoted : Bool) : CStr → List Char
  | [] => []
  | c :: s =>
    (if !needs_escaping c then [c]
     else if c = '\'' ∧ s_quoted then ['\'', '\\', '\'', '\'']
     else if s_quoted then [c]
     else if d_quoted ∧ !needs_dquote_escaping c then [c]
     else ['\\', c]) ++ escape_loop s_quoted d_quoted s

/-- The suffix part of `escape_filename` (lines 294-311), for `single_match` set and an
`app_func` given: what is written after the file name when the probe returned
`append_char`.  An empty `append_char` has the terminator as its first
character, which ends the output string there. -/
def escape_suffix (s_quoted d_quoted : Bool) (append_char : CStr) : List Char :=
  match append_char with
  | [] => []
  | c :: _ =>
    (if c = ' ' then (if !s_quoted ∧ !d_quoted then [c] else []) else [c])
    ++ (if c = ' ' then (if s_quoted then ['\''] else if d_quoted then ['"'] else [])
        else [])

/-- The function `escape_filename` (lines 194-315).  NULL (`none`) when `filename` is NULL or
`el_malloc` fails. -/
def escape_filename (alloc_ok : Bool) (el : EditLine) (filename : Option CStr)
    (single_match : Bool) (app_func : Option (CStr → CStr)) : Option CStr :=
  match filename with
  | none => none
  | some filename =>
    let q := quote_scan el.buffer el.cursor
    if !alloc_ok then none
    else
      some (escape_loop q.1 q.2 filename ++
        (match single_match, app_func with
         | true, some f => escape_suffix q.1 q.2 (f filename)
         | _, _ => []))

/-! ## Word extraction -/

/-- The libc function `wcschr(s, c) != NULL`: `c` occurs in the string, its terminator included. -/
def wcschr (s : List Char) (c : Char) : Bool := s.contains c || c == NUL

/-- The backward walk of `find_word_to_complete` (lines 612-625) on the offset `ctemp`; the
value is the offset at which the loop is left.  Each iteration lowers `ctemp`,
so `fuel = ctemp` iterations always suffice. -/
def find_word_loop (buffer word_break : List Char) (special_prefixes : Option (List Char)) :
    Nat → Nat → Nat
  | 0, ctemp => ctemp
  | fuel + 1, ctemp =>
    if ctemp ≤ 0 then ctemp
    else if wcschr word_break (buffer.getD (ctemp - 1) NUL) then
      if ctemp ≥ 2 ∧ buffer.getD (ctemp - 2) NUL = '\\' then
        find_word_loop buffer word_break special_prefixes fuel (ctemp - 2)
      else ctemp
    else if (match special_prefixes with
        | none => false
        | some sp => wcschr sp (buffer.getD (ctemp - 1) NUL)) then ctemp
    else find_word_loop buffer word_break special_prefixes fuel (ctemp - 1)

/-- The start offset and length of the word of `find_word_to_complete` (lines 593-632):
the pair `(ctemp, len)` after the bare-quote adjustment. -/
def find_word_span (cursor : Nat) (buffer word_break : List Char)
    (special_prefixes : Option (List Char)) : Nat × Nat :=
  let ctemp0 :=
    if cursor > 0 ∧ (buffer.getD (cursor - 1) NUL = '\\' ∨ buffer.getD (cursor - 1) NUL = '\''
        ∨ buffer.getD (cursor - 1) NUL = '"') then cursor - 1
    else cursor
  let ctemp := find_word_loop buffer word_break special_prefixes ctemp0 ctemp0
  let len := cursor - ctemp
  if len = 1 ∧ (buffer.getD ctemp NUL = '\'' ∨ buffer.getD ctemp NUL = '"') then (ctemp + 1, 0)
  else (ctemp, len)

/-- The function `find_word_to_complete` (lines 587-643): the returned word (NULL when the
allocation in `unescape_string` fails) and the value stored in `*length`. -/
def find_word_to_complete (alloc_ok : Bool) (cursor : Nat) (buffer word_break : List Char)
    (special_prefixes : Option (List Char)) (do_unescape : Bool) : Option CStr × Nat :=
  let span := find_word_span cursor buffer word_break special_prefixes
  if do_unescape then (unescape_string alloc_ok (buffer.drop span.1) span.2, span.2)
  else (some (cstr ((buffer.drop span.1).take span.2)), span.2)

/-! ## The completion controller -/

/-- The return codes of `fn_complete2` that the function uses. -/
inductive CC where
  | CC_NORM
  | CC_REFRESH
  | CC_REDISPLAY
  deriving DecidableEq, Repr

/-- Modelled from the spec: `el_deletestr` is libedit code outside this source tree; the
spec has the controller "replace the word span in the buffer".  It deletes the
`n` characters before the cursor and moves the cursor back by `n`; it does
nothing when `n <= 0` or when fewer than `n` characters precede the cursor. -/
def el_deletestr (el : EditLine) (n : Int) : EditLine :=
  if n ≤ 0 then el
  else if el.cursor < n.toNat then el
  else
    { el with
      buffer := el.buffer.take (el.cursor - n.toNat) ++ el.buffer.drop el.cursor
      cursor := el.cursor - n.toNat }

/-- Modelled from the spec: `el_winsertstr` is libedit code outside this source tree; the
spec has the controller "replace the word span in the buffer".  It inserts the
string at the cursor and leaves the cursor after the inserted text.  The
capacity of the line buffer is not modelled: there is always room. -/
def el_winsertstr (el : EditLine) (s : CStr) : EditLine :=
  { el with
    buffer := el.buffer.take el.cursor ++ s ++ el.buffer.drop el.cursor
    cursor := el.cursor + s.length }

/-- Modelled from the spec: `el_beep` is libedit code outside this source tree; the spec
calls it "an audible/visual alert".  It is recorded in the terminal output. -/
def el_beep (el : EditLine) : EditLine :=
  { el with outfile := el.outfile ++ [Output.beep] }

/-- Which of the checked allocations succeed during one call of `fn_complete2`: the one of
`unescape_string`, those of `completion_matches`, and the one of the
completion string (`el_malloc` in `escape_filename`, or `strdup`). -/
structure Allocs where
  unescape : Bool
  match_list : Bool
  completion : Bool
  deriving DecidableEq, Repr

/-- What a call of the `attempted_completion_function` leaves: the array it returns (NULL
is `none`), entries up to the NULL terminator, and the value it stored in the
variable `over` points to (readline's `rl_attempted_completion_over`), if it
stored one. -/
structure Attempt where
  list : Option (List CStr)
  over_set : Option Int

/-- The arguments of `fn_complete2` other than `el`.  `complete_func` and `app_func` are
the functions in effect after lines 682-685 (the caller's, or the defaults
`fn_filename_completion_function` and `append_char_function`); `over` is
`none` for a NULL pointer and the pointed value otherwise; `quote_match` is
`flags & FN_QUOTE_MATCH`; `fuel` bounds the number of generator calls. -/
structure Args where
  complete_func : CStr → Nat → Option CStr
  attempted_completion_function : Option (CStr → Int → Int → Attempt)
  word_break : List Char
  special_prefixes : Option (List Char)
  app_func : CStr → CStr
  query_items : Nat
  over : Option Int
  quote_match : Bool
  allocs : Allocs
  fuel : Nat

/-- What a call of `fn_complete2` leaves behind: the return value, the editor state,
`what_to_do` (stored through `completion_type`), the value left in `*over`,
and the offsets stored through `point` and `end` when they were stored. -/
structure Result where
  retval : CC
  el : EditLine
  what_to_do : Char
  over : Option Int
  point : Option Nat
  endp : Option Nat

/-- The listing branch of `fn_complete2` (lines 764-799): the newline, the confirmation
prompt when there are more than `query_items` matches, and the table. -/
def list_possible_matches (el : EditLine) (matches_ : List CStr) (query_items : Nat) :
    EditLine :=
  let maxlen := matches_.tail.foldl (fun m s => if s.length > m then s.length else m) 0
  let matches_num := matches_.tail.length
  let el1 := { el with outfile := el.outfile ++ [Output.newline] }
  let asked : EditLine × Bool :=
    if matches_num > query_items then
      let el2 := { el1 with outfile := el1.outfile ++ [Output.query matches_num] }
      match el2.stdin with
      | [] => ({ el2 with outfile := el2.outfile ++ [Output.newline] }, false)
      | c :: rest =>
        ({ el2 with outfile := el2.outfile ++ [Output.newline], stdin := rest }, c == 'y')
    else (el1, true)
  if asked.2 then
    { asked.1 with
      outfile := asked.1.outfile ++ [Output.match_list matches_ (matches_num + 1) maxlen] }
  else asked.1

/-- The part of `fn_complete2` after a non-NULL `matches` (lines 718-820): the return value
and the editor state.  `matches_` is the array up to its NULL terminator. -/
def fn_complete2_matches (el : EditLine) (a : Args) (what_to_do : Char) (len : Nat)
    (matches_ : List CStr) : CC × EditLine :=
  let matches0 := matches_.headD []
  let single_match : Bool :=
    (matches_.get? 2).isNone &&
      (match matches_.get? 1 with
       | none => true
       | some m1 => matches0 == m1)
  let finish (el' : EditLine) : CC × EditLine :=
    if !single_match ∧ (what_to_do = '!' ∨ what_to_do = '?') then
      (CC.CC_REDISPLAY, list_possible_matches el' matches_ a.query_items)
    else if matches0 ≠ [] then (CC.CC_REFRESH, el_beep el')
    else (CC.CC_NORM, el_beep el')
  if matches0 ≠ [] then
    let el1 := el_deletestr el (len : Int)
    let completion : Option CStr :=
      if a.quote_match then
        escape_filename a.allocs.completion el1 (some matches0) single_match (some a.app_func)
      else if a.allocs.completion then some matches0 else none
    match completion with
    | none => (CC.CC_REFRESH, el1)
    | some completion =>
      let el2 := el_winsertstr el1 completion
      let el3 :=
        if single_match ∧ a.attempted_completion_function.isSome ∧ !a.quote_match then
          el_winsertstr el2 (a.app_func completion)
        else el2
      finish el3
  else finish el

/-- The function `fn_complete2` (lines 657-825).  `none` only when the generator did not
finish within `a.fuel` calls. -/
def fn_complete2 (el : EditLine) (a : Args) : Option Result :=
  let what_to_do : Char := if el.lastcmd = el.thiscmd then '?' else '\t'
  let word := find_word_to_complete a.allocs.unescape el.cursor el.buffer a.word_break
    a.special_prefixes a.quote_match
  match word.1 with
  | none =>
    some { retval := CC.CC_NORM, el := el, what_to_do := what_to_do, over := a.over,
           point := none, endp := none }
  | some temp =>
    let len := word.2
    let cur_off : Int := (el.cursor : Int)
    let attempted : Attempt :=
      match a.attempted_completion_function with
      | some f => f temp (cur_off - (len : Int)) cur_off
      | none => { list := none, over_set := none }
    let over_now : Option Int :=
      match a.over, attempted.over_set with
      | some _, some v => some v
      | over, _ => over
    let gathered : Option (Option (List CStr)) :=
      if a.attempted_completion_function.isNone ∨
          (over_now = some 0 ∧ attempted.list.isNone) then
        completion_matches a.allocs.match_list temp a.complete_func a.fuel
      else some attempted.list
    match gathered with
    | none => none
    | some none =>
      some { retval := CC.CC_NORM, el := el, what_to_do := what_to_do,
             over := a.over.map (fun _ => 0), point := some el.cursor,
             endp := some el.buffer.length }
    | some (some matches_) =>
      let r := fn_complete2_matches el a what_to_do len matches_
      some { retval := r.1, el := r.2, what_to_do := what_to_do,
             over := a.over.map (fun _ => 0), point := some el.cursor,
             endp := some el.buffer.length }

/-- The word-break set that `_el_fn_complete` passes (line 52). -/
def break_chars : List Char := " \t\n\"\\'`@$><=;|&\x7b(".toList

/-! ## Vocabulary of the statements -/

/-- The string `completion_matches` stores in entry 0 for the candidates `cands`: the first
`max_equal` characters of the first candidate. -/
def common_part (cands : List CStr) : CStr :=
  match cands with
  | [] => []
  | prevstr :: rest => prevstr.take (least_denominator prevstr rest prevstr.length)

/-- The word and length that `fn_complete2` obtains from `find_word_to_complete` (lines 687-689). -/
def word_of (el : EditLine) (a : Args) : Option CStr × Nat :=
  find_word_to_complete a.allocs.unescape el.cursor el.buffer a.word_break
    a.special_prefixes a.quote_match

/-- The match list of this call comes from the generator (lines 700-710): either no
`attempted_completion_function` was given, or `over` is not NULL and the
function returned NULL for the word and left `*over` at 0. -/
def generator_consulted (el : EditLine) (a : Args) : Prop :=
  ∀ f, a.attempted_completion_function = some f →
    a.over = some 0 ∧
      ∀ temp, (word_of el a).1 = some temp →
        f temp ((el.cursor : Int) - ((word_of el a).2 : Int)) (el.cursor : Int)
          = { list := none, over_set := none }

/-- The quoting context `(s_quoted, d_quoted)` that `escape_filename` finds once the word of
length `len` before the cursor has been deleted. -/
def quote_context (el : EditLine) (len : Nat) : Bool × Bool :=
  quote_scan (el_deletestr el (len : Int)).buffer (el_deletestr el (len : Int)).cursor

/-- The text `fn_complete2` inserts for the common prefix `p` when it is not a single match
(lines 727-731): `p` escaped for the quoting context of the text before the
word when `FN_QUOTE_MATCH` is set, and `p` itself otherwise. -/
def inserted_text (el : EditLine) (a : Args) (p : CStr) : CStr :=
  if a.quote_match then
    escape_loop (quote_scan el.buffer (el.cursor - (word_of el a).2)).1
      (quote_scan el.buffer (el.cursor - (word_of el a).2)).2 p
  else p

/-- The editor state after the word before the cursor was replaced by `s`: the text
before the word and after the cursor is kept and the cursor stands after `s`. -/
def word_replaced (el : EditLine) (a : Args) (s : CStr) : EditLine :=
  { el with
    buffer := el.buffer.take (el.cursor - (word_of el a).2) ++ s ++ el.buffer.drop el.cursor
    cursor := el.cursor - (word_of el a).2 + s.length }

/-- What `escape_filename` writes after the file name (lines 294-311) in the quoting context
`q = (s_quoted, d_quoted)`: the suffix part when `single_match` is set and an
`app_func` is given, nothing otherwise. -/
def appended_text (q : Bool × Bool) (single_match : Bool) (app_func : Option (CStr → CStr))
    (filename : CStr) : List Char :=
  match single_match, app_func with
  | true, some f => escape_suffix q.1 q.2 (f filename)
  | _, _ => []

/-- The offset at which the backward walk of `find_word_to_complete` starts (lines 600-610):
one character before the cursor when that character is `\`, `'` or `"`. -/
def walk_start (cursor : Nat) (buffer : List Char) : Nat :=
  if cursor > 0 ∧ (buffer.getD (cursor - 1) NUL = '\\' ∨ buffer.getD (cursor - 1) NUL = '\''
      ∨ buffer.getD (cursor - 1) NUL = '"') then cursor - 1
  else cursor

/-- The offset at which the backward walk of `find_word_to_complete` stops (lines 612-625). -/
def walk_stop (cursor : Nat) (buffer word_break : List Char)
    (special_prefixes : Option (List Char)) : Nat :=
  find_word_loop buffer word_break special_prefixes (walk_start cursor buffer)
    (walk_start cursor buffer)

/-- The backward walk of `find_word_to_complete` (lines 612-625) with `ctemp - buffer` as a
signed offset, so that a step before the start of the buffer would show as a
negative value. -/
def find_word_loop_offset (buffer word_break : List Char)
    (special_prefixes : Option (List Char)) : Nat → Int → Int
  | 0, ctemp => ctemp
  | fuel + 1, ctemp =>
    if ctemp ≤ 0 then ctemp
    else if wcschr word_break (buffer.getD (ctemp - 1).toNat NUL) then
      if ctemp ≥ 2 ∧ buffer.getD (ctemp - 2).toNat NUL = '\\' then
        find_word_loop_offset buffer word_break special_prefixes fuel (ctemp - 2)
      else ctemp
    else if (match special_prefixes with
        | none => false
        | some sp => wcschr sp (buffer.getD (ctemp - 1).toNat NUL)) then ctemp
    else find_word_loop_offset buffer word_break special_prefixes fuel (ctemp - 1)

/-- The number of characters the suffix part of `escape_filename` (lines 294-311) stores with
`offset++`, for `single_match` set and an `app_func` given.  An empty
`append_char` stores its terminator (line 302). -/
def suffix_writes (s_quoted d_quoted : Bool) (append_char : CStr) : Nat :=
  match append_char with
  | [] => 1
  | c :: rest => (escape_suffix s_quoted d_quoted (c :: rest)).length

/-- The value of `offset` when `escape_filename` stores the final terminator (line 313):
the characters of the copy loop and those of the suffix part. -/
def final_offset (s_quoted d_quoted : Bool) (filename : CStr) (single_match : Bool)
    (app_func : Option (CStr → CStr)) : Nat :=
  (escape_loop s_quoted d_quoted filename).length +
    (match single_match, app_func with
     | true, some f => suffix_writes s_quoted d_quoted (f filename)
     | _, _ => 0)

/-! ## Concrete inputs -/

/-- An editor whose line is `line` with the cursor at its end, nothing printed yet. -/
def editor (line : String) (lastcmd thiscmd : Nat) (stdin : String) : EditLine :=
  { buffer := line.toList, cursor := line.length, lastcmd := lastcmd, thiscmd := thiscmd,
    outfile := [], stdin := stdin.toList }

/-- The arguments `_el_fn_complete` passes through `fn_complete` (lines 835-850): `break_chars`,
no special prefixes, no `attempted_completion_function`, `query_items`, NULL
out-parameters and `FN_QUOTE_MATCH`; the generator yields `cands` and the
suffix probe answers `suffix`. -/
def el_fn_complete_args (cands : List String) (suffix : String) (query_items : Nat)
    (allocs : Allocs) : Args :=
  { complete_func := gen_of_list (cands.map String.toList)
    attempted_completion_function := none
    word_break := break_chars
    special_prefixes := none
    app_func := fun _ => suffix.toList
    query_items := query_items
    over := none
    quote_match := true
    allocs := allocs
    fuel := cands.length + 1 }

/-! ## The spec's wording of the escaping rules -/

/-- The shell-metacharacter set as the spec lists it (section 4.6): whitespace (space, tab,
newline), the characters `"'()<>$#?;|{}&*[\` and the backtick. -/
def spec_shell_metacharacter (c : Char) : Bool :=
  [' ', '\t', '\n', '"', '\'', '(', ')', '<', '>', '$', '#', '?', ';', '`', '|', '{', '}',
    '&', '*', '[', '\\'].contains c

/-- One step of the spec's quote scanner (section 4.2) on the character `c` whose preceding
character, if any, is `prev`: a `'` toggles `singleQuoted` only when
`doubleQuoted` is false and the character is not preceded by a backslash; a
`"` toggles `doubleQuoted` only when `singleQuoted` is false; any other
character leaves both flags unchanged. -/
def spec_quote_step (q : Bool × Bool) (prev : Option Char) (c : Char) : Bool × Bool :=
  if c = '\'' then
    (if q.2 = false ∧ prev ≠ some '\\' then (!q.1, q.2) else q)
  else if c = '"' then
    (if q.1 = false then (q.1, !q.2) else q)
  else q

/-- The spec's quote scanner (section 4.2) as a fold over the characters before the cursor,
carrying `(singleQuoted, doubleQuoted)` and the preceding character. -/
def spec_quote_fold (q : Bool × Bool) (prev : Option Char) : List Char → Bool × Bool
  | [] => q
  | c :: rest => spec_quote_fold (spec_quote_step q prev c) (some c) rest

/-! ## Tilde expansion -/

/-- The user database as `fn_tilde_expand` reads it: the `pw_dir` of the entry that
`getpwuid(getuid())` finds and of the entry that `getpwnam(name)` finds, `none`
when the lookup fails (all three `HAVE_GETPW_R_*` variants give NULL then). -/
structure PasswdDb where
  getpwuid : Option CStr
  getpwnam : CStr → Option CStr

/-- The libc function `strchr(s, c)` for a character `c` other than NUL: the offset of the
first occurrence of `c` in `s`, NULL (`none`) when there is none. -/
def strchr : CStr → Char → Option Nat
  | [], _ => none
  | a :: s, c => if a = c then some 0 else (strchr s c).map (fun i => i + 1)

/-- The function `fn_tilde_expand` (lines 64-127).  `len` is 0 when `txt + 1` holds no slash and
`pos - txt + 1` otherwise; `temp` is the user name (`strlcpy` with size
`len - 1` copies `len - 2` characters).  NULL (`none`) when an allocation
fails. -/
def fn_tilde_expand (alloc_ok : Bool) (db : PasswdDb) (txt : CStr) : Option CStr :=
  if cget txt 0 ≠ '~' then (if alloc_ok then some txt else none)
  else if !alloc_ok then none
  else
    let pos := strchr (txt.drop 1) '/'
    let len : Nat :=
      match pos with
      | none => 0
      | some p => (p + 1) + 1
    let temp : CStr :=
      match pos with
      | none => txt.drop 1
      | some _ => (txt.drop 1).take (len - 1 - 1)
    let pass : Option CStr := if temp = [] then db.getpwuid else db.getpwnam temp
    match pass with
    | none => some txt
    | some pw_dir => some (pw_dir ++ ['/'] ++ txt.drop len)

/-- A user database with the single user `user`, whose home directory is `/home/user`; the
invoking user is that user. -/
def one_user_db : PasswdDb :=
  { getpwuid := some "/home/user".toList
    getpwnam := fun name => if name = "user".toList then some "/home/user".toList else none }

/-! ## The stores of completion_matches -/

/-- The stores `match_list[++matches] = retstr` of the generator loop of `completion_matches`
(lines 476-492, the allocations succeeding), each with the capacity
`match_list_len` in force when it is made: the pairs (index, capacity), and
the final values of `matches` and `match_list_len`. -/
def match_list_stores (text : CStr) (genfunc : CStr → Nat → Option CStr) :
    Nat → Nat → Nat → List (Nat × Nat) → Option (List (Nat × Nat) × Nat × Nat)
  | 0, _, _, _ => none
  | fuel + 1, nmatches, match_list_len, stores =>
    match genfunc text nmatches with
    | none => some (stores, nmatches, match_list_len)
    | some _ =>
      if nmatches + 3 ≥ match_list_len then
        match_list_stores text genfunc fuel (nmatches + 1)
          (grow_match_list_len nmatches (nmatches + 4) match_list_len)
          (stores ++ [(nmatches + 1,
            grow_match_list_len nmatches (nmatches + 4) match_list_len)])
      else
        match_list_stores text genfunc fuel (nmatches + 1) match_list_len
          (stores ++ [(nmatches + 1, match_list_len)])

/-- All the stores into `match_list` of one call of `completion_matches` that finds a
candidate: those of the loop, then `match_list[0]` (line 514) and the
terminator `match_list[matches + 1]` (line 517), with the capacity in force. -/
def completion_matches_stores (text : CStr) (genfunc : CStr → Nat → Option CStr)
    (fuel : Nat) : Option (List (Nat × Nat)) :=
  match match_list_stores text genfunc fuel 0 1 [] with
  | none => none
  | some (stores, nmatches, match_list_len) =>
    if nmatches = 0 then some []
    else some (stores ++ [(0, match_list_len), (nmatches + 1, match_list_len)])

/-! ## The file name generator -/

/-- The file system as `fn_filename_completion_function` reads it: `opendir(path)` fails
(`none`) or gives a stream, modelled by the entry names that the successive
`readdir` calls return, `.` and `..` included; and the user database. -/
structure FileSystem where
  opendir : CStr → Option (List CStr)
  db : PasswdDb

/-- The static variables of `fn_filename_completion_function` (lines 327-329).  The open
stream `dir` is the list of the entries still to be read. -/
structure GenState where
  dir : Option (List CStr)
  filename : Option CStr
  dirname : Option CStr
  dirpath : Option CStr
  filename_len : Nat
  deriving DecidableEq, Repr

/-- The libc function `strrchr(s, c)` for a character `c` other than NUL: the offset of the
last occurrence of `c` in `s`, NULL (`none`) when there is none. -/
def strrchr : CStr → Char → Option Nat
  | [], _ => none
  | a :: s, c =>
    match strrchr s c with
    | some i => some (i + 1)
    | none => if a = c then some 0 else none

/-- The libc test `strncmp(a, b, n) == 0` on C strings: the first `n` characters agree, or
both strings end before and are equal. -/
def strncmp_eq (a b : CStr) (n : Nat) : Bool := a.take n == b.take n

/-- The set-up part of `fn_filename_completion_function` (lines 335-400, the allocations
succeeding): the new static variables, and `false` when the function returns
NULL there (the directory path is NULL or cannot be opened). -/
def filename_completion_init (fs : FileSystem) (st : GenState) (text : CStr) :
    GenState × Bool :=
  let pos := strrchr text '/'
  let filename : Option CStr :=
    match pos with
    | some p => some (text.drop (p + 1))
    | none => if cget text 0 = NUL then none else some text
  let dirname0 : Option CStr :=
    match pos with
    | some p => some (text.take (p + 1))
    | none => none
  let dirname : CStr := dirname0.getD []
  let dirpath : Option CStr :=
    match dirname0 with
    | none => some "./".toList
    | some d => if cget d 0 = '~' then fn_tilde_expand true fs.db d else some d
  match dirpath with
  | none =>
    ({ dir := none, filename := filename, dirname := some dirname, dirpath := none,
       filename_len := st.filename_len }, false)
  | some path =>
    match fs.opendir path with
    | none =>
      ({ dir := none, filename := filename, dirname := some dirname, dirpath := some path,
         filename_len := st.filename_len }, false)
    | some stream =>
      ({ dir := some stream, filename := filename, dirname := some dirname,
         dirpath := some path,
         filename_len := match filename with
           | some f => f.length
           | none => 0 }, true)

/-- The `readdir` loop of `fn_filename_completion_function` (lines 403-421) on the entries still
to be read: the entry at which the loop is left (NULL when the stream ends)
and the entries left in the stream. -/
def readdir_loop (filename : Option CStr) (filename_len : Nat) :
    List CStr → Option CStr × List CStr
  | [] => (none, [])
  | d_name :: rest =>
    if cget d_name 0 = '.' ∧
        (cget d_name 1 = NUL ∨ (cget d_name 1 = '.' ∧ cget d_name 2 = NUL)) then
      readdir_loop filename filename_len rest
    else if filename_len = 0 then (some d_name, rest)
    else if cget d_name 0 = cget (filename.getD []) 0 ∧ d_name.length ≥ filename_len ∧
        strncmp_eq d_name (filename.getD []) filename_len = true then (some d_name, rest)
    else readdir_loop filename filename_len rest

/-- The function `fn_filename_completion_function` (lines 324-443), the allocations succeeding:
the returned string (NULL is `none`) and the static variables after the call. -/
def fn_filename_completion_function (fs : FileSystem) (st : GenState) (text : CStr)
    (state : Nat) : Option CStr × GenState :=
  let ready : GenState × Bool :=
    if state = 0 ∨ st.dir = none then filename_completion_init fs st text else (st, true)
  if ready.2 = false then (none, ready.1)
  else
    match ready.1.dir with
    | none => (none, ready.1)
    | some stream =>
      match readdir_loop ready.1.filename ready.1.filename_len stream with
      | (some d_name, rest) =>
        (some (ready.1.dirname.getD [] ++ d_name), { ready.1 with dir := some rest })
      | (none, _) => (none, { ready.1 with dir := none })

/-- The strings obtained by calling `fn_filename_completion_function` with the states `state`,
`state + 1`, ... until it returns NULL, and the static variables left; `none`
when the fuel runs out before. -/
def filename_completions (fs : FileSystem) (text : CStr) :
    Nat → Nat → GenState → Option (List CStr × GenState)
  | 0, _, _ => none
  | fuel + 1, state, st =>
    match fn_filename_completion_function fs st text state with
    | (none, st2) => some ([], st2)
    | (some c, st2) =>
      (filename_completions fs text fuel (state + 1) st2).map (fun r => (c :: r.1, r.2))

/-- A file system with the directory `/usr/` holding `.`, `..`, `share`, `sbin`, `lib` and
`shbin`, and no other directory. -/
def usr_fs : FileSystem :=
  { opendir := fun path =>
      if path = "/usr/".toList then
        some [".".toList, "..".toList, "share".toList, "sbin".toList, "lib".toList,
          "shbin".toList]
      else none
    db := one_user_db }

/-- The entries the spec has the generator return (section 4.4): every name other than `.`
and `..` whose first characters are the file name part of the text. -/
def wanted_entry (filePart : CStr) (name : CStr) : Bool :=
  decide (name ≠ ['.'] ∧ name ≠ ['.', '.'] ∧ filePart <+: name)

/-- The path that `fn_filename_completion_function` opens for the directory part `dirPart` of
the text (lines 382-389): `./` when it is empty, its tilde expansion when it
starts with `~`, and `dirPart` itself otherwise. -/
def completion_dirpath (fs : FileSystem) (dirPart : CStr) : Option CStr :=
  if dirPart = [] then some "./".toList
  else if cget dirPart 0 = '~' then fn_tilde_expand true fs.db dirPart
  else some dirPart

/-- The directory of the text as an ordered list of entry names: what `readdir` returns for
the path opened, nothing when the directory cannot be opened. -/
def directory_entries (fs : FileSystem) (dirPart : CStr) : List CStr :=
  match completion_dirpath fs dirPart with
  | none => []
  | some path => (fs.opendir path).getD []

/-! ## The match list display -/

/-- Modelled from the spec: `tolower` of the C library, which is not part of the sources, in
the C locale: the letters `A` to `Z` map to `a` to `z`, every other
character to itself. -/
def tolower (c : Char) : Char :=
  if 'A' ≤ c ∧ c ≤ 'Z' then Char.ofNat (c.toNat + 32) else c

/-- Modelled from the spec: `strcasecmp` of the C library, which is not part of the sources:
the case-insensitive comparison, the difference of the lower-cased
characters at the first position where they differ (the terminator counts
as 0). -/
def strcasecmp : CStr → CStr → Int
  | [], [] => 0
  | [], b :: _ => 0 - ((tolower b).toNat : Int)
  | a :: _, [] => ((tolower a).toNat : Int)
  | a :: s, b :: t =>
    if tolower a = tolower b then strcasecmp s t
    else ((tolower a).toNat : Int) - ((tolower b).toNat : Int)

/-- `_fn_qsort_string_compare` (lines 525-532): "Just wrapper around strcasecmp()". -/
def _fn_qsort_string_compare (s1 s2 : CStr) : Int :=
  strcasecmp s1 s2

/-- One cell of the display: the arguments of the two `fprintf` calls of lines 576-580, the
separator `col == 0 ? "" : " "`, the string `matches[thisguy]`, the result
of `app_func`, and the field width `width - strlen(matches[thisguy])` of the
padding `"%-*s"` (a negative field width pads by its absolute value). -/
structure Cell where
  sep : CStr
  name : CStr
  app : CStr
  pad : Nat
deriving DecidableEq, Repr

/-- The characters a cell puts on the output stream. -/
def Cell.text (c : Cell) : CStr :=
  c.sep ++ c.name ++ c.app ++ List.replicate c.pad ' '

/-- The number of columns (lines 559-561):
`cols = (size_t)screenwidth / (width + 2); if (cols == 0) cols = 1;`. -/
def display_cols (screenwidth width : Nat) : Nat :=
  let cols := screenwidth / (width + 2)
  if cols = 0 then 1 else cols

/-- The number of lines (line 564): `lines = (num + cols - 1) / cols;`. -/
def display_lines (num cols : Nat) : Nat :=
  (num + cols - 1) / cols

/-- The inner loop (lines 572-581) for one `line`, from column `col` on:
`thisguy = line + col * lines; if (thisguy >= num) break;` and otherwise
the cell of `matches[thisguy]`. -/
def display_line (sorted : List CStr) (num width lines cols line : Nat)
    (app_func : CStr → CStr) : Nat → Nat → List Cell
  | 0, _ => []
  | fuel + 1, col =>
    if col < cols then
      let thisguy := line + col * lines
      if thisguy ≥ num then []
      else
        let name := sorted.getD thisguy []
        { sep := if col = 0 then [] else [' '],
          name := name,
          app := app_func name,
          pad := ((width : Int) - (name.length : Int)).natAbs }
          :: display_line sorted num width lines cols line app_func fuel (col + 1)
    else []

/-- `fn_display_match_list` (lines 543-585): the lines of cells put on the output stream, each
followed by a newline. `matches_` is the array with `matches[0]`, `num`
counts `matches[0]` too; `qsort` is the sort of the C library called with
`_fn_qsort_string_compare`, `append_char_function` the default of
`app_func`. -/
def fn_display_match_list (screenwidth : Nat)
    (qsort : List CStr → (CStr → CStr → Int) → List CStr)
    (append_char_function : CStr → CStr)
    (matches_ : List CStr) (num width : Nat) (app_func : Option (CStr → CStr)) :
    List (List Cell) :=
  let app_func := app_func.getD append_char_function
  let matches_ := matches_.drop 1
  let num := num - 1
  let cols := display_cols screenwidth width
  let lines := display_lines num cols
  let sorted := qsort (matches_.take num) _fn_qsort_string_compare
  (List.range lines).map
    (fun line => display_line sorted num width lines cols line app_func cols 0)

/-- The characters `fn_display_match_list` puts on the output stream. -/
def display_text (rows : List (List Cell)) : CStr :=
  (rows.map (fun row => (row.map Cell.text).flatten ++ ['\n'])).flatten

/-- The names read column by column: each of the `cols` columns from top to bottom, the columns
from left to right. -/
def column_reading (rows : List (List Cell)) (cols : Nat) : List CStr :=
  (List.range cols).flatMap
    (fun col => rows.filterMap (fun row => (row.get? col).map Cell.name))

/-- A sort for the concrete inputs: insertion sort by `_fn_qsort_string_compare`. -/
def insertion_qsort (l : List CStr) (cmp : CStr → CStr → Int) : List CStr :=
  l.insertionSort (fun a b => cmp a b ≤ 0)

/-- The match list of five candidates, after the common part `a`. -/
def five_matches : List CStr :=
  ["a".toList, "ab".toList, "Ac".toList, "aa".toList, "AD".toList, "ae".toList]

/-- The candidates `matches[1 .. num-1]` that `fn_display_match_list` is given. -/
def display_candidates (matches_ : List CStr) (num : Nat) : List CStr :=
  (matches_.drop 1).take (num - 1)

/-- The candidates after the `qsort` call of line 567. -/
def display_sorted (qsort : List CStr → (CStr → CStr → Int) → List CStr)
    (matches_ : List CStr) (num : Nat) : List CStr :=
  qsort (display_candidates matches_ num) _fn_qsort_string_compare

end Filecomplete

/-! ## The interval tree shim -/

namespace IntervalTree

/-- The `struct interval_tree_node` without its tree linkage: `start` and `last`, both
inclusive. -/
structure interval_tree_node where
  start : Nat
  last : Nat
deriving DecidableEq, Repr

/-- `interval_tree_compare_nodes` (lines 51-66): by `start`, then by `last`. -/
def interval_tree_compare_nodes (na nb : interval_tree_node) : Int :=
  if na.start < nb.start then -1
  else if na.start > nb.start then 1
  else if na.last < nb.last then -1
  else if na.last > nb.last then 1
  else 0

/-- `interval_tree_compare_key` (lines 68-79): the node against a key, by `start` only. -/
def interval_tree_compare_key (n : interval_tree_node) (k : Nat) : Int :=
  if n.start < k then -1
  else if k < n.start then 1
  else 0

/-- Modelled from the spec: `rb_tree_find_node_geq` of the red-black tree library, which is
not part of the sources: of the stored nodes that do not compare below the
key, the least one in the order of the tree, NULL when there is none. The
tree is given by the list of its nodes. -/
def rb_tree_find_node_geq (tree : List interval_tree_node) (key : Nat) :
    Option interval_tree_node :=
  tree.foldl
    (fun best n =>
      if interval_tree_compare_key n key < 0 then best
      else
        match best with
        | none => some n
        | some b => if interval_tree_compare_nodes n b < 0 then some n else some b)
    none

/-- `interval_tree_iter_first` (lines 112-126); the `KASSERT` is not evaluated. -/
def interval_tree_iter_first (root : List interval_tree_node) (start last : Nat) :
    Option interval_tree_node :=
  match rb_tree_find_node_geq root start with
  | none => none
  | some node =>
    if last < node.start then none
    else some node

/-- The stored interval `n` and the query interval `[start, last]` have a point in common. -/
def intersects (n : interval_tree_node) (start last : Nat) : Prop :=
  n.start ≤ last ∧ start ≤ n.last

/-- The stored intervals are well formed and pairwise without a common point. -/
def nonoverlapping (tree : List interval_tree_node) : Prop :=
  (∀ n ∈ tree, n.start ≤ n.last) ∧
    tree.Pairwise (fun a b => a.last < b.start ∨ b.last < a.start)

/-- Two stored intervals, `[0, 10]` and `[20, 30]`. -/
def two_intervals : List interval_tree_node :=
  [⟨0, 10⟩, ⟨20, 30⟩]

end IntervalTree

/-! ## The thread-specific data stubs -/

namespace ThreadStub

/-- Modelled from the spec: the error number `EAGAIN` of `errno.h`, which is not part of the
sources; its value on NetBSD, not zero. -/
def EAGAIN : Nat := 35

/-- One element of `__libc_tsd` (the `struct __libc_tsd` of the header, which is not part of
the sources, with the three fields the stubs use): pointers are numbers with
NULL as `none`. -/
structure libc_tsd where
  tsd_val : Option Nat
  tsd_dtor : Option Nat
  tsd_inuse : Nat
deriving DecidableEq, Repr

/-- The static data of the stubs: the array `__libc_tsd[TSD_KEYS_MAX]` and
`__libc_tsd_nextkey`. -/
structure TsdState where
  __libc_tsd : List libc_tsd
  __libc_tsd_nextkey : Nat
deriving DecidableEq, Repr

/-- The read `__libc_tsd[i].tsd_inuse`. -/
def tsd_inuse_at (s : TsdState) (i : Nat) : Nat :=
  (s.__libc_tsd.getD i ⟨none, none, 0⟩).tsd_inuse

/-- One search loop of `__libc_thr_keycreate_stub` (lines 297-300 and 302-305):
`for (; i < stop; i++) if (__libc_tsd[i].tsd_inuse == 0) goto out;`, the
index at the `goto`, or `none` when the loop ends. -/
def find_free (s : TsdState) (stop : Nat) : Nat → Nat → Option Nat
  | 0, _ => none
  | fuel + 1, i =>
    if i < stop then
      if tsd_inuse_at s i = 0 then some i
      else find_free s stop fuel (i + 1)
    else none

/-- The label `out` of `__libc_thr_keycreate_stub` (lines 314-319): the slot `i` is marked in
use, `__libc_tsd_nextkey = (i + i) % TSD_KEYS_MAX`, the destructor is stored,
and `i` is the key; the sum `i + i` of an index below `TSD_KEYS_MAX` is
taken to fit an `int`. -/
def keycreate_out (TSD_KEYS_MAX : Nat) (s : TsdState) (d : Option Nat) (i : Nat) :
    Nat × Option Nat × TsdState :=
  (0, some i,
    { __libc_tsd := s.__libc_tsd.set i
        { s.__libc_tsd.getD i ⟨none, none, 0⟩ with tsd_inuse := 1, tsd_dtor := d },
      __libc_tsd_nextkey := (i + i) % TSD_KEYS_MAX })

/-- `__libc_thr_keycreate_stub(k, d)` (lines 292-320): the value returned, the key stored in
`*k` if any, and the static data after the call. `TSD_KEYS_MAX` is a
constant of a header that is not part of the sources. -/
def __libc_thr_keycreate_stub (TSD_KEYS_MAX : Nat) (s : TsdState) (d : Option Nat) :
    Nat × Option Nat × TsdState :=
  match find_free s TSD_KEYS_MAX TSD_KEYS_MAX s.__libc_tsd_nextkey with
  | some i => keycreate_out TSD_KEYS_MAX s d i
  | none =>
    match find_free s s.__libc_tsd_nextkey s.__libc_tsd_nextkey 0 with
    | some i => keycreate_out TSD_KEYS_MAX s d i
    | none => (EAGAIN, none, s)

/-- `__libc_thr_keydelete_stub(k)` (lines 338-349): only `__libc_tsd[k].tsd_dtor = NULL`, the
key is not recycled. -/
def __libc_thr_keydelete_stub (s : TsdState) (k : Nat) : Nat × TsdState :=
  (0, { __libc_tsd := s.__libc_tsd.set k
          { s.__libc_tsd.getD k ⟨none, none, 0⟩ with tsd_dtor := none },
        __libc_tsd_nextkey := s.__libc_tsd_nextkey })

/-- A call of one of the two stubs. -/
inductive TsdCall where
  | keycreate (d : Option Nat)
  | keydelete (k : Nat)
deriving DecidableEq, Repr

/-- The keys returned by the successful `keycreate` calls of a sequence of calls, in order,
and the static data after the sequence. -/
def run_calls (TSD_KEYS_MAX : Nat) : TsdState → List TsdCall → List Nat × TsdState
  | s, [] => ([], s)
  | s, TsdCall.keycreate d :: rest =>
    match __libc_thr_keycreate_stub TSD_KEYS_MAX s d with
    | (_, some k, s1) =>
      ((run_calls TSD_KEYS_MAX s1 rest).1.cons k, (run_calls TSD_KEYS_MAX s1 rest).2)
    | (_, none, s1) => run_calls TSD_KEYS_MAX s1 rest
  | s, TsdCall.keydelete k :: rest =>
    run_calls TSD_KEYS_MAX (__libc_thr_keydelete_stub s k).2 rest

/-- The static data as the stubs can find it: `TSD_KEYS_MAX` slots, at least one, and
`__libc_tsd_nextkey` an index of the array. -/
def tsd_wf (TSD_KEYS_MAX : Nat) (s : TsdState) : Prop :=
  s.__libc_tsd.length = TSD_KEYS_MAX ∧ s.__libc_tsd_nextkey < TSD_KEYS_MAX

/-- The static data at program start: all of it zero. -/
def tsd_start (TSD_KEYS_MAX : Nat) : TsdState :=
  { __libc_tsd := List.replicate TSD_KEYS_MAX ⟨none, none, 0⟩, __libc_tsd_nextkey := 0 }

end ThreadStub

namespace Filecomplete

/-! ## Lemmas on completion_matches -/

theorem completion_matches_loop_yields (text : CStr) (genfunc : CStr → Nat → Option CStr)
    (cands : List CStr) (h : yields genfunc text cands) :
    ∀ (fuel k len : Nat), k ≤ cands.length → cands.length - k < fuel →
      ∃ len', completion_matches_loop true text genfunc fuel k len (cands.take k)
        = some (some (cands, len')) := by
  intro fuel
  induction fuel with
  | zero => intro k len _ hf; omega
  | succ fuel ih =>
    intro k len hk hf
    rcases Nat.lt_or_ge k cands.length with hlt | hge
    · have hg : genfunc text k = some (cands.get ⟨k, hlt⟩) := by
        rw [h.1 k hlt]; exact List.get?_eq_get hlt
      have htake : cands.take k ++ [cands.get ⟨k, hlt⟩] = cands.take (k + 1) := by
        rw [List.take_succ, List.getElem?_eq_getElem hlt]; rfl
      unfold completion_matches_loop
      simp only [hg, if_true, htake]
      split
      · exact ih (k + 1) _ hlt (by omega)
      · exact ih (k + 1) _ hlt (by omega)
    · have hk' : k = cands.length := Nat.le_antisymm hk hge
      subst hk'
      unfold completion_matches_loop
      simp [h.2]

theorem equal_run_le (prevstr cand : CStr) (max_equal : Nat) :
    ∀ (fuel i : Nat), i ≤ max_equal → equal_run prevstr cand max_equal fuel i ≤ max_equal := by
  intro fuel
  induction fuel with
  | zero => intro i hi; simpa [equal_run] using hi
  | succ fuel ih =>
    intro i hi
    unfold equal_run
    split
    · rename_i hc; exact ih (i + 1) hc.1
    · exact hi

theorem equal_run_agree (prevstr cand : CStr) (max_equal : Nat) :
    ∀ (fuel i : Nat), (∀ j, j < i → cget prevstr j = cget cand j) →
      ∀ j, j < equal_run prevstr cand max_equal fuel i → cget prevstr j = cget cand j := by
  intro fuel
  induction fuel with
  | zero => intro i hi j hj; exact hi j (by simpa [equal_run] using hj)
  | succ fuel ih =>
    intro i hi j hj
    unfold equal_run at hj
    split at hj
    · rename_i hc
      refine ih (i + 1) ?_ j hj
      intro j' hj'
      rcases Nat.lt_or_ge j' i with h1 | h1
      · exact hi j' h1
      · have : j' = i := by omega
        subst this; exact hc.2
    · exact hi j hj

theorem equal_run_stop (prevstr cand : CStr) (max_equal : Nat) :
    ∀ (fuel i : Nat), max_equal ≤ i + fuel →
      equal_run prevstr cand max_equal fuel i < max_equal →
      cget prevstr (equal_run prevstr cand max_equal fuel i)
        ≠ cget cand (equal_run prevstr cand max_equal fuel i) := by
  intro fuel
  induction fuel with
  | zero => intro i hf hlt; simp [equal_run] at hlt; omega
  | succ fuel ih =>
    intro i hf
    unfold equal_run
    split
    · exact ih (i + 1) (by omega)
    · rename_i hc
      intro hlt heq
      exact hc ⟨hlt, heq⟩

theorem least_denominator_spec (prevstr : CStr) :
    ∀ (rest : List CStr) (max_equal : Nat),
      least_denominator prevstr rest max_equal ≤ max_equal ∧
      (∀ c ∈ rest, ∀ j, j < least_denominator prevstr rest max_equal →
        cget prevstr j = cget c j) ∧
      (least_denominator prevstr rest max_equal < max_equal →
        ∃ c ∈ rest, cget prevstr (least_denominator prevstr rest max_equal)
          ≠ cget c (least_denominator prevstr rest max_equal)) := by
  intro rest
  induction rest with
  | nil => intro m; simp [least_denominator]
  | cons cand rest ih =>
    intro m
    have hle := equal_run_le prevstr cand m m 0 (Nat.zero_le _)
    obtain ⟨h1, h2, h3⟩ := ih (equal_run prevstr cand m m 0)
    simp only [least_denominator]
    refine ⟨Nat.le_trans h1 hle, ?_, ?_⟩
    · intro c hc j hj
      rcases List.mem_cons.mp hc with rfl | hc
      · exact equal_run_agree prevstr c m m 0 (fun j h => absurd h (Nat.not_lt_zero j)) j
          (Nat.lt_of_lt_of_le hj h1)
      · exact h2 c hc j hj
    · intro hlt
      rcases Nat.lt_or_ge (least_denominator prevstr rest (equal_run prevstr cand m m 0))
          (equal_run prevstr cand m m 0) with h | h
      · obtain ⟨c, hc, hd⟩ := h3 h
        exact ⟨c, List.mem_cons_of_mem _ hc, hd⟩
      · have he : least_denominator prevstr rest (equal_run prevstr cand m m 0)
            = equal_run prevstr cand m m 0 := Nat.le_antisymm h1 h
        rw [he] at hlt ⊢
        exact ⟨cand, List.mem_cons_self _ _,
          equal_run_stop prevstr cand m m 0 (by omega) hlt⟩

theorem take_isPrefix_of_agree :
    ∀ (p c : CStr) (r : Nat), NUL ∉ p → r ≤ p.length →
      (∀ j, j < r → cget p j = cget c j) → p.take r <+: c := by
  intro p
  induction p with
  | nil => intro c r _ hr _; simp
  | cons a p ih =>
    intro c r hn hr hj
    cases r with
    | zero => simp
    | succ r =>
      have h0 := hj 0 (Nat.succ_pos r)
      cases c with
      | nil =>
        exfalso
        apply hn
        have : a = NUL := by simpa [cget] using h0
        simp [this]
      | cons b c =>
        have hab : a = b := by simpa [cget] using h0
        subst hab
        have hp : NUL ∉ p := fun h => hn (List.mem_cons_of_mem _ h)
        have := ih c r hp (by simpa using hr) (fun j hjr => by
          have := hj (j + 1) (by omega)
          simpa [cget] using this)
        simpa [List.take_succ_cons, List.cons_prefix_cons] using this

theorem cget_eq_of_isPrefix (q s : CStr) (h : q <+: s) (j : Nat) (hj : j < q.length) :
    cget s j = cget q j := by
  obtain ⟨t, rfl⟩ := h
  simp [cget, List.getD_eq_getElem?_getD, List.getElem?_append_left hj]

/-- C1. For every non-empty sequence of candidates yielded by the generator,
`completion_matches` returns the array whose entry 0 is a prefix of every
candidate, such that no strictly longer string is a prefix of every candidate;
with exactly one candidate, entry 0 is that candidate. -/
theorem completion_matches_longest_common (text : CStr) (genfunc : CStr → Nat → Option CStr)
    (cands : List CStr) (fuel : Nat) (hne : cands ≠ []) (hnul : ∀ c ∈ cands, NUL ∉ c)
    (hgen : yields genfunc text cands) (hfuel : cands.length < fuel) :
    ∃ p, completion_matches true text genfunc fuel = some (some (p :: cands)) ∧
      (∀ c ∈ cands, p <+: c) ∧
      (∀ q : CStr, (∀ c ∈ cands, q <+: c) → q.length ≤ p.length) ∧
      (∀ c, cands = [c] → p = c) := by
  obtain ⟨len, hloop⟩ := completion_matches_loop_yields text genfunc cands hgen fuel 0 1
    (Nat.zero_le _) (by omega)
  simp only [List.take_zero] at hloop
  cases cands with
  | nil => exact absurd rfl hne
  | cons prevstr rest =>
    obtain ⟨h1, h2, h3⟩ := least_denominator_spec prevstr rest prevstr.length
    have hp : NUL ∉ prevstr := hnul prevstr (List.mem_cons_self _ _)
    refine ⟨prevstr.take (least_denominator prevstr rest prevstr.length), ?_, ?_, ?_, ?_⟩
    · simp [completion_matches, hloop]
    · intro c hc
      rcases List.mem_cons.mp hc with rfl | hc
      · exact List.take_prefix _ _
      · exact take_isPrefix_of_agree prevstr c _ hp h1 (h2 c hc)
    · intro q hq
      rw [List.length_take, Nat.min_eq_left h1]
      by_contra hcon
      have hlt : least_denominator prevstr rest prevstr.length < q.length := by omega
      have hqp := hq prevstr (List.mem_cons_self _ _)
      have hql : q.length ≤ prevstr.length := hqp.length_le
      obtain ⟨c, hc, hd⟩ := h3 (by omega)
      apply hd
      rw [cget_eq_of_isPrefix q prevstr hqp _ hlt,
        cget_eq_of_isPrefix q c (hq c (List.mem_cons_of_mem _ hc)) _ hlt]
    · intro c hc
      injection hc with hc1 hc2
      subst hc1 hc2
      simp [least_denominator]

/-- Witness for C1: the candidates `/usr/share` and `/usr/shbin`. -/
theorem completion_matches_longest_common_witness :
    ∃ p, completion_matches true [] (gen_of_list ["/usr/share".toList, "/usr/shbin".toList]) 3
        = some (some (p :: ["/usr/share".toList, "/usr/shbin".toList])) ∧
      (∀ c ∈ ["/usr/share".toList, "/usr/shbin".toList], p <+: c) ∧
      (∀ q : CStr, (∀ c ∈ ["/usr/share".toList, "/usr/shbin".toList], q <+: c) →
        q.length ≤ p.length) ∧
      (∀ c, ["/usr/share".toList, "/usr/shbin".toList] = [c] → p = c) :=
  completion_matches_longest_common [] (gen_of_list ["/usr/share".toList, "/usr/shbin".toList])
    ["/usr/share".toList, "/usr/shbin".toList] 3 (by decide) (by decide)
    ⟨fun _ _ => rfl, rfl⟩ (by decide)

/-! ## Lemmas on strings and the word extractor -/

theorem cstr_eq_self (l : List Char) (h : NUL ∉ l) : cstr l = l := by
  unfold cstr
  rw [List.takeWhile_eq_self_iff]
  intro c hc
  have : c ≠ NUL := fun e => h (e ▸ hc)
  simpa using this

theorem find_word_loop_le (buffer word_break : List Char)
    (special_prefixes : Option (List Char)) :
    ∀ (fuel ctemp : Nat),
      find_word_loop buffer word_break special_prefixes fuel ctemp ≤ ctemp := by
  intro fuel
  induction fuel with
  | zero => intro c; simp [find_word_loop]
  | succ fuel ih =>
    intro c
    unfold find_word_loop
    split
    · exact Nat.le_refl _
    · split
      · split
        · exact Nat.le_trans (ih _) (Nat.sub_le _ _)
        · exact Nat.le_refl _
      · split
        · exact Nat.le_refl _
        · exact Nat.le_trans (ih _) (Nat.sub_le _ _)

theorem find_word_span_end (cursor : Nat) (buffer word_break : List Char)
    (special_prefixes : Option (List Char)) :
    (find_word_span cursor buffer word_break special_prefixes).1
      + (find_word_span cursor buffer word_break special_prefixes).2 = cursor := by
  unfold find_word_span
  simp only
  split
  · have := find_word_loop_le buffer word_break special_prefixes (cursor - 1) (cursor - 1)
    split
    · simp only; omega
    · simp only; omega
  · have := find_word_loop_le buffer word_break special_prefixes cursor cursor
    split
    · simp only; omega
    · simp only; omega

theorem find_word_loop_fuel_succ (buffer word_break : List Char)
    (special_prefixes : Option (List Char)) :
    ∀ (fuel ctemp : Nat), ctemp ≤ fuel →
      find_word_loop buffer word_break special_prefixes (fuel + 1) ctemp
        = find_word_loop buffer word_break special_prefixes fuel ctemp := by
  intro fuel
  induction fuel with
  | zero =>
    intro ctemp h
    have : ctemp = 0 := by omega
    subst this
    simp [find_word_loop]
  | succ fuel ih =>
    intro ctemp h
    have e1 : ∀ f, find_word_loop buffer word_break special_prefixes (f + 1) ctemp
        = if ctemp ≤ 0 then ctemp
          else if wcschr word_break (buffer.getD (ctemp - 1) NUL) then
            if ctemp ≥ 2 ∧ buffer.getD (ctemp - 2) NUL = '\\' then
              find_word_loop buffer word_break special_prefixes f (ctemp - 2)
            else ctemp
          else if (match special_prefixes with
              | none => false
              | some sp => wcschr sp (buffer.getD (ctemp - 1) NUL)) then ctemp
          else find_word_loop buffer word_break special_prefixes f (ctemp - 1) := by
      intro f; rfl
    rw [e1 (fuel + 1), e1 fuel]
    by_cases h0 : ctemp ≤ 0
    · simp [h0]
    · rw [if_neg h0, if_neg h0, ih (ctemp - 2) (by omega), ih (ctemp - 1) (by omega)]

/-- The backward walk does not depend on the fuel once the fuel covers the start offset: the
loop of `find_word_to_complete` always terminates. -/
theorem find_word_loop_fuel (buffer word_break : List Char)
    (special_prefixes : Option (List Char)) (ctemp : Nat) :
    ∀ (extra : Nat),
      find_word_loop buffer word_break special_prefixes (ctemp + extra) ctemp
        = find_word_loop buffer word_break special_prefixes ctemp ctemp := by
  intro extra
  induction extra with
  | zero => rfl
  | succ extra ih =>
    rw [← ih]
    exact find_word_loop_fuel_succ buffer word_break special_prefixes (ctemp + extra) ctemp
      (by omega)

theorem drop_take_eq_slice (buffer : List Char) (i n : Nat) :
    (buffer.drop i).take n = (buffer.take (i + n)).drop i := by
  rw [List.drop_take]
  simp

/-- C2. For every buffer and cursor within it, `find_word_to_complete` stores a length
`len <= cursor`, the word span is `buffer[cursor - len, cursor)` (it ends at the
cursor and has `len` characters), and `len` does not depend on the unescape
flag.  Without unescaping the returned text is that slice (the buffer holding
no NUL); with unescaping it is the slice without its backslashes, while `len`
stays the raw span length. -/
theorem find_word_to_complete_span_ends_at_cursor (alloc_ok : Bool) (cursor : Nat)
    (buffer word_break : List Char) (special_prefixes : Option (List Char))
    (do_unescape : Bool) (hc : cursor ≤ buffer.length) :
    (find_word_to_complete alloc_ok cursor buffer word_break special_prefixes do_unescape).2
        ≤ cursor ∧
      ((buffer.take cursor).drop (cursor -
        (find_word_to_complete alloc_ok cursor buffer word_break special_prefixes
          do_unescape).2)).length
        = (find_word_to_complete alloc_ok cursor buffer word_break special_prefixes
            do_unescape).2 ∧
      (find_word_to_complete alloc_ok cursor buffer word_break special_prefixes do_unescape).2
        = (find_word_to_complete alloc_ok cursor buffer word_break special_prefixes
            (!do_unescape)).2 ∧
      (do_unescape = false → NUL ∉ buffer →
        (find_word_to_complete alloc_ok cursor buffer word_break special_prefixes
            do_unescape).1
          = some ((buffer.take cursor).drop (cursor -
              (find_word_to_complete alloc_ok cursor buffer word_break special_prefixes
                do_unescape).2))) ∧
      (do_unescape = true →
        (find_word_to_complete alloc_ok cursor buffer word_break special_prefixes
            do_unescape).1
          = if alloc_ok then
              some (cstr (((buffer.take cursor).drop (cursor -
                (find_word_to_complete alloc_ok cursor buffer word_break special_prefixes
                  do_unescape).2)).filter (fun c => c != '\\')))
            else none) := by
  have hend := find_word_span_end cursor buffer word_break special_prefixes
  have hlen : ∀ d, (find_word_to_complete alloc_ok cursor buffer word_break special_prefixes
      d).2 = (find_word_span cursor buffer word_break special_prefixes).2 := by
    intro d; cases d <;> simp [find_word_to_complete]
  have hstart : (find_word_span cursor buffer word_break special_prefixes).1
      = cursor - (find_word_span cursor buffer word_break special_prefixes).2 := by omega
  have hslice : (buffer.drop (find_word_span cursor buffer word_break special_prefixes).1).take
      (find_word_span cursor buffer word_break special_prefixes).2
      = (buffer.take cursor).drop
          (cursor - (find_word_span cursor buffer word_break special_prefixes).2) := by
    rw [drop_take_eq_slice, hend, hstart]
  rw [hlen do_unescape, hlen (!do_unescape)]
  refine ⟨by omega, ?_, rfl, ?_, ?_⟩
  · simp only [List.length_drop, List.length_take]
    omega
  · intro hd hnul
    subst hd
    simp only [find_word_to_complete, Bool.false_eq_true, if_false]
    rw [hslice, cstr_eq_self]
    intro hmem
    exact hnul (List.mem_of_mem_take (List.mem_of_mem_drop hmem))
  · intro hd
    subst hd
    simp only [find_word_to_complete, if_true, unescape_string]
    rw [hslice]

/-- Witness for C2: the buffer `cd /usr/sh` with the cursor at its end. -/
theorem find_word_to_complete_span_ends_at_cursor_witness :
    (find_word_to_complete true 10 "cd /usr/sh".toList break_chars none false).2 ≤ 10 ∧
      (("cd /usr/sh".toList.take 10).drop (10 -
        (find_word_to_complete true 10 "cd /usr/sh".toList break_chars none false).2)).length
        = (find_word_to_complete true 10 "cd /usr/sh".toList break_chars none false).2 ∧
      (find_word_to_complete true 10 "cd /usr/sh".toList break_chars none false).2
        = (find_word_to_complete true 10 "cd /usr/sh".toList break_chars none (!false)).2 ∧
      (false = false → NUL ∉ "cd /usr/sh".toList →
        (find_word_to_complete true 10 "cd /usr/sh".toList break_chars none false).1
          = some (("cd /usr/sh".toList.take 10).drop (10 -
              (find_word_to_complete true 10 "cd /usr/sh".toList break_chars none
                false).2))) ∧
      (false = true →
        (find_word_to_complete true 10 "cd /usr/sh".toList break_chars none false).1
          = if true then
              some (cstr ((("cd /usr/sh".toList.take 10).drop (10 -
                (find_word_to_complete true 10 "cd /usr/sh".toList break_chars none
                  false).2)).filter (fun c => c != '\\')))
            else none) :=
  find_word_to_complete_span_ends_at_cursor true 10 "cd /usr/sh".toList break_chars none false
    (by decide)

/-! ## Escaping and unescaping -/

theorem filter_escape_loop (d_quoted : Bool) (x : CStr) :
    (escape_loop false d_quoted x).filter (fun c => c != '\\')
      = x.filter (fun c => c != '\\') := by
  induction x with
  | nil => simp [escape_loop]
  | cons c x ih =>
    simp only [escape_loop, List.filter_append, ih]
    by_cases hb : c = '\\'
    · subst hb
      simp [needs_escaping, needs_dquote_escaping]
    · have hne : (c != '\\') = true := by simpa using hb
      split_ifs <;> simp_all [List.filter_cons]

/-- C3, counterexample. The backslash belongs to the escape set, `escape_filename` outside quotes
turns the one-character string `\` into `\\`, and `unescape_string` strips both
backslashes: the round trip returns the empty string, not `\`. -/
theorem escape_unescape_backslash_counterexample :
    needs_escaping '\\' = true ∧
      quote_scan [] 0 = (false, false) ∧
      escape_filename true ⟨[], 0, 0, 1, [], []⟩ (some ['\\']) false none
        = some ['\\', '\\'] ∧
      unescape_string true ['\\', '\\'] 2 = some [] ∧
      unescape_string true ['\\', '\\'] 2 ≠ some ['\\'] := by
  decide

/-- C3, amended. For every string `x` made of escape-set characters other than the backslash,
`unescape_string` applied to the output of `escape_filename` for `x` (cursor
outside any quote, no suffix appended) returns exactly `x`. -/
theorem unescape_escape_round_trip (el : EditLine) (x : CStr) (single_match : Bool)
    (app_func : Option (CStr → CStr))
    (hx : ∀ c ∈ x, needs_escaping c = true ∧ c ≠ '\\')
    (hq : quote_scan el.buffer el.cursor = (false, false))
    (hs : single_match = false ∨ app_func = none) :
    ∃ e, escape_filename true el (some x) single_match app_func = some e ∧
      unescape_string true e e.length = some x := by
  have he : escape_filename true el (some x) single_match app_func
      = some (escape_loop false false x) := by
    rcases hs with hs | hs
    · subst hs; simp [escape_filename, hq]
    · subst hs; cases single_match <;> simp [escape_filename, hq]
  refine ⟨_, he, ?_⟩
  have hfx : x.filter (fun c => c != '\\') = x := by
    rw [List.filter_eq_self]
    intro c hc
    simpa using (hx c hc).2
  have hnul : NUL ∉ x := by
    intro h
    have := (hx NUL h).1
    revert this
    decide
  simp only [unescape_string, if_true, List.take_length, filter_escape_loop, hfx,
    cstr_eq_self x hnul]

/-- Witness for C3 (amended): the string of a space, `$` and `*`. -/
theorem unescape_escape_round_trip_witness :
    ∃ e, escape_filename true ⟨"ls ".toList, 3, 0, 1, [], []⟩ (some " $*".toList) false none
        = some e ∧
      unescape_string true e e.length = some " $*".toList :=
  unescape_escape_round_trip ⟨"ls ".toList, 3, 0, 1, [], []⟩ " $*".toList false none
    (by decide) (by decide) (Or.inl rfl)

/-! ## Lemmas on the completion controller -/

theorem completion_matches_of_yields (text : CStr) (genfunc : CStr → Nat → Option CStr)
    (cands : List CStr) (fuel : Nat) (hgen : yields genfunc text cands)
    (hfuel : cands.length < fuel) :
    completion_matches true text genfunc fuel
      = some (match cands with
          | [] => none
          | c :: rest => some (common_part (c :: rest) :: c :: rest)) := by
  obtain ⟨len, hloop⟩ := completion_matches_loop_yields text genfunc cands hgen fuel 0 1
    (Nat.zero_le _) (by omega)
  simp only [List.take_zero] at hloop
  cases cands with
  | nil => simp [completion_matches, hloop]
  | cons c rest => simp [completion_matches, hloop, common_part]

theorem completion_matches_alloc_fail (text : CStr) (genfunc : CStr → Nat → Option CStr)
    (cands : List CStr) (fuel : Nat) (hgen : yields genfunc text cands)
    (hfuel : cands.length < fuel) :
    completion_matches false text genfunc fuel = some none := by
  cases fuel with
  | zero => omega
  | succ fuel =>
    cases cands with
    | nil =>
      have h0 : genfunc text 0 = none := hgen.2
      simp [completion_matches, completion_matches_loop, h0]
    | cons c rest =>
      have h0 : genfunc text 0 = some c := by
        have := hgen.1 0 (by simp)
        simpa using this
      simp [completion_matches, completion_matches_loop, h0]

theorem fn_complete2_from_generator (el : EditLine) (a : Args) (temp : CStr)
    (hcons : generator_consulted el a) (hword : (word_of el a).1 = some temp) :
    fn_complete2 el a =
      match completion_matches a.allocs.match_list temp a.complete_func a.fuel with
      | none => none
      | some none =>
        some { retval := CC.CC_NORM, el := el,
               what_to_do := if el.lastcmd = el.thiscmd then '?' else '\t',
               over := a.over.map (fun _ => 0), point := some el.cursor,
               endp := some el.buffer.length }
      | some (some matches_) =>
        some { retval := (fn_complete2_matches el a
                 (if el.lastcmd = el.thiscmd then '?' else '\t') (word_of el a).2 matches_).1,
               el := (fn_complete2_matches el a
                 (if el.lastcmd = el.thiscmd then '?' else '\t') (word_of el a).2 matches_).2,
               what_to_do := if el.lastcmd = el.thiscmd then '?' else '\t',
               over := a.over.map (fun _ => 0), point := some el.cursor,
               endp := some el.buffer.length } := by
  unfold word_of at hword
  unfold fn_complete2
  simp only [hword]
  cases hf : a.attempted_completion_function with
  | none => simp [word_of]
  | some f =>
    obtain ⟨h1, h2⟩ := hcons f hf
    have h3 := h2 temp (by unfold word_of; exact hword)
    unfold word_of at h3
    simp [h3, h1, word_of]

theorem quote_step_congr (b1 b2 : List Char) (n : Nat)
    (h : ∀ j, j < n → b1.getD j NUL = b2.getD j NUL) (q : Bool × Bool) (i : Nat) (hi : i < n) :
    quote_step b1 q i = quote_step b2 q i := by
  unfold quote_step
  rw [h i hi, h (i - 1) (by omega)]

theorem quote_scan_congr (b1 b2 : List Char) (n : Nat)
    (h : ∀ j, j < n → b1.getD j NUL = b2.getD j NUL) :
    quote_scan b1 n = quote_scan b2 n := by
  unfold quote_scan
  have key : ∀ (m : Nat), m ≤ n → ∀ q,
      (List.range m).foldl (quote_step b1) q = (List.range m).foldl (quote_step b2) q := by
    intro m
    induction m with
    | zero => intro _ q; rfl
    | succ m ih =>
      intro hm q
      rw [List.range_succ, List.foldl_append, List.foldl_append, ih (by omega) q]
      simp only [List.foldl_cons, List.foldl_nil]
      exact quote_step_congr b1 b2 n h _ m (by omega)
  exact key n (Nat.le_refl _) _

theorem el_deletestr_eq (el : EditLine) (len : Nat) (hlen : len ≤ el.cursor) :
    el_deletestr el (len : Int)
      = { el with
          buffer := el.buffer.take (el.cursor - len) ++ el.buffer.drop el.cursor
          cursor := el.cursor - len } := by
  unfold el_deletestr
  by_cases h0 : len = 0
  · subst h0
    simp
  · have h1 : ¬ ((len : Int) ≤ 0) := by
      omega
    have h2 : ¬ (el.cursor < (len : Int).toNat) := by
      simp only [Int.toNat_ofNat]; omega
    rw [if_neg h1, if_neg h2]
    simp

theorem quote_context_eq (el : EditLine) (len : Nat) (hlen : len ≤ el.cursor)
    (hcur : el.cursor ≤ el.buffer.length) :
    quote_context el len = quote_scan el.buffer (el.cursor - len) := by
  unfold quote_context
  rw [el_deletestr_eq el len hlen]
  simp only
  apply quote_scan_congr
  intro j hj
  rw [List.getD_eq_getElem?_getD, List.getD_eq_getElem?_getD,
    List.getElem?_append_left (by simp; omega), List.getElem?_take_of_lt hj]

theorem replace_word_eq (el : EditLine) (len : Nat) (s : CStr) (hlen : len ≤ el.cursor)
    (hcur : el.cursor ≤ el.buffer.length) :
    el_winsertstr (el_deletestr el (len : Int)) s
      = { el with
          buffer := el.buffer.take (el.cursor - len) ++ s ++ el.buffer.drop el.cursor
          cursor := el.cursor - len + s.length } := by
  rw [el_deletestr_eq el len hlen]
  unfold el_winsertstr
  have hl : (el.buffer.take (el.cursor - len)).length = el.cursor - len := by
    simp; omega
  simp only [EditLine.mk.injEq, and_true, true_and]
  rw [List.take_left' hl, List.drop_left' hl]

theorem word_of_len_le (el : EditLine) (a : Args) : (word_of el a).2 ≤ el.cursor := by
  have h := find_word_span_end el.cursor el.buffer a.word_break a.special_prefixes
  have : (word_of el a).2
      = (find_word_span el.cursor el.buffer a.word_break a.special_prefixes).2 := by
    unfold word_of find_word_to_complete
    split <;> rfl
  omega

theorem escape_filename_no_suffix (el : EditLine) (a : Args) (p : CStr)
    (hcur : el.cursor ≤ el.buffer.length) (app_func : Option (CStr → CStr)) :
    escape_filename true (el_deletestr el (((word_of el a).2 : Int))) (some p) false app_func
      = some (escape_loop (quote_scan el.buffer (el.cursor - (word_of el a).2)).1
          (quote_scan el.buffer (el.cursor - (word_of el a).2)).2 p) := by
  have hq := quote_context_eq el (word_of el a).2 (word_of_len_le el a) hcur
  unfold quote_context at hq
  simp [escape_filename, hq]

theorem fn_complete2_matches_several (el : EditLine) (a : Args) (what_to_do : Char)
    (p c1 c2 : CStr) (rest : List CStr) (hcur : el.cursor ≤ el.buffer.length)
    (halloc : a.allocs.completion = true) :
    fn_complete2_matches el a what_to_do (word_of el a).2 (p :: c1 :: c2 :: rest)
      = if what_to_do = '!' ∨ what_to_do = '?' then
          (CC.CC_REDISPLAY,
            list_possible_matches
              (if p ≠ [] then word_replaced el a (inserted_text el a p) else el)
              (p :: c1 :: c2 :: rest) a.query_items)
        else if p ≠ [] then
          (CC.CC_REFRESH, el_beep (word_replaced el a (inserted_text el a p)))
        else (CC.CC_NORM, el_beep el) := by
  have hrep := fun s => replace_word_eq el (word_of el a).2 s (word_of_len_le el a) hcur
  have hesc := escape_filename_no_suffix el a p hcur (some a.app_func)
  unfold fn_complete2_matches
  by_cases hp : p = []
  · subst hp
    simp
  · simp only [List.headD_cons, List.get?_cons_succ, List.get?_cons_zero, Option.isNone_some,
      Bool.false_and, ne_eq, hp, not_false_eq_true, if_true, halloc, hesc, Bool.not_false,
      Bool.false_eq_true, false_and, if_false, true_and]
    cases hqm : a.quote_match
    · simp [hrep, word_replaced, inserted_text, hqm]
    · simp [hrep, word_replaced, inserted_text, hqm]

theorem fn_complete2_several (el : EditLine) (a : Args) (temp c1 c2 : CStr)
    (rest : List CStr) (hcur : el.cursor ≤ el.buffer.length)
    (hcons : generator_consulted el a) (hword : (word_of el a).1 = some temp)
    (hgen : yields a.complete_func temp (c1 :: c2 :: rest))
    (hfuel : (c1 :: c2 :: rest).length < a.fuel)
    (hml : a.allocs.match_list = true) (hcomp : a.allocs.completion = true) :
    ∃ r, fn_complete2 el a = some r ∧
      (r.retval, r.el) =
        if (if el.lastcmd = el.thiscmd then '?' else '\t') = '!'
            ∨ (if el.lastcmd = el.thiscmd then '?' else '\t') = '?' then
          (CC.CC_REDISPLAY,
            list_possible_matches
              (if common_part (c1 :: c2 :: rest) ≠ [] then
                word_replaced el a (inserted_text el a (common_part (c1 :: c2 :: rest)))
               else el)
              (common_part (c1 :: c2 :: rest) :: c1 :: c2 :: rest) a.query_items)
        else if common_part (c1 :: c2 :: rest) ≠ [] then
          (CC.CC_REFRESH,
            el_beep (word_replaced el a (inserted_text el a (common_part (c1 :: c2 :: rest)))))
        else (CC.CC_NORM, el_beep el) := by
  rw [fn_complete2_from_generator el a temp hcons hword, hml,
    completion_matches_of_yields temp a.complete_func _ a.fuel hgen hfuel]
  simp only
  refine ⟨_, rfl, ?_⟩
  simp only
  rw [fn_complete2_matches_several el a _ _ c1 c2 rest hcur hcomp]

theorem what_to_do_tab (el : EditLine) (h : el.lastcmd ≠ el.thiscmd) :
    ¬ ((if el.lastcmd = el.thiscmd then '?' else '\t') = '!'
        ∨ (if el.lastcmd = el.thiscmd then '?' else '\t') = '?') := by
  rw [if_neg h]
  decide

theorem what_to_do_list (el : EditLine) (h : el.lastcmd = el.thiscmd) :
    ((if el.lastcmd = el.thiscmd then '?' else '\t') = '!'
        ∨ (if el.lastcmd = el.thiscmd then '?' else '\t') = '?') := by
  rw [if_pos h]
  decide

theorem several_of_length (cands : List CStr) (h : 2 ≤ cands.length) :
    ∃ c1 c2 rest, cands = c1 :: c2 :: rest := by
  match cands, h with
  | c1 :: c2 :: rest, _ => exact ⟨c1, c2, rest, rfl⟩

theorem fn_complete2_matches_single (el : EditLine) (a : Args) (what_to_do : Char)
    (cand : CStr) (hcur : el.cursor ≤ el.buffer.length) (hne : cand ≠ [])
    (hq : a.quote_match = true) (halloc : a.allocs.completion = true) :
    fn_complete2_matches el a what_to_do (word_of el a).2 [cand, cand]
      = (CC.CC_REFRESH,
          el_beep (word_replaced el a
            (escape_loop (quote_scan el.buffer (el.cursor - (word_of el a).2)).1
                (quote_scan el.buffer (el.cursor - (word_of el a).2)).2 cand
              ++ escape_suffix (quote_scan el.buffer (el.cursor - (word_of el a).2)).1
                (quote_scan el.buffer (el.cursor - (word_of el a).2)).2 (a.app_func cand)))) := by
  have hrep := fun s => replace_word_eq el (word_of el a).2 s (word_of_len_le el a) hcur
  have hqc := quote_context_eq el (word_of el a).2 (word_of_len_le el a) hcur
  unfold quote_context at hqc
  unfold fn_complete2_matches
  simp [hne, hq, halloc, escape_filename, hqc, hrep, word_replaced]

theorem escape_suffix_char (s_quoted d_quoted : Bool) (ch : Char) (more : CStr) :
    escape_suffix s_quoted d_quoted (ch :: more)
      = [if ch = ' ' ∧ (s_quoted = true ∨ d_quoted = true) then
          (if s_quoted = true then '\'' else '"')
         else ch] := by
  unfold escape_suffix
  by_cases hc : ch = ' '
  · subst hc
    cases s_quoted <;> cases d_quoted <;> simp
  · simp [hc]

/-- C4, counterexample. With the line `ls "fo`, the single candidate `foo` and a suffix probe
reporting a space, `fn_complete2` leaves `ls "foo"`: inside the open double
quote the space is not inserted after the candidate, the quote is closed. -/
theorem single_match_space_in_quote_counterexample :
    (fn_complete2 (editor "ls \"fo" 0 1 "")
        (el_fn_complete_args ["foo"] " " 100 ⟨true, true, true⟩)).map
        (fun r => (r.retval, r.el.buffer))
      = some (CC.CC_REFRESH, "ls \"foo\"".toList) ∧
    "ls \"foo\"".toList ≠ "ls \"".toList ++ "foo".toList ++ " ".toList := by
  decide

/-- C4, amended. When the generator yields exactly one non-empty candidate and FN_QUOTE_MATCH
is set, `fn_complete2` replaces the word span before the cursor with the
escaped candidate followed by the character `ch` reported by the suffix probe
(by the closing quote character instead when `ch` is a space and a quote is
open before the word), keeps the text before the word and after the cursor, and
returns CC_REFRESH. -/
theorem single_match_replaces_word (el : EditLine) (a : Args) (temp cand : CStr) (ch : Char)
    (more : CStr) (hcur : el.cursor ≤ el.buffer.length)
    (hcons : generator_consulted el a) (hword : (word_of el a).1 = some temp)
    (hgen : yields a.complete_func temp [cand]) (hfuel : 1 < a.fuel)
    (hml : a.allocs.match_list = true) (hcomp : a.allocs.completion = true)
    (hne : cand ≠ []) (hq : a.quote_match = true) (happ : a.app_func cand = ch :: more) :
    ∃ r, fn_complete2 el a = some r ∧ r.retval = CC.CC_REFRESH ∧
      r.el.buffer
        = el.buffer.take (el.cursor - (word_of el a).2)
          ++ (escape_loop (quote_scan el.buffer (el.cursor - (word_of el a).2)).1
                (quote_scan el.buffer (el.cursor - (word_of el a).2)).2 cand
              ++ [if ch = ' ' ∧ ((quote_scan el.buffer (el.cursor - (word_of el a).2)).1 = true
                    ∨ (quote_scan el.buffer (el.cursor - (word_of el a).2)).2 = true) then
                    (if (quote_scan el.buffer (el.cursor - (word_of el a).2)).1 = true
                      then '\'' else '"')
                  else ch])
          ++ el.buffer.drop el.cursor := by
  rw [fn_complete2_from_generator el a temp hcons hword, hml,
    completion_matches_of_yields temp a.complete_func _ a.fuel hgen (by simpa using hfuel)]
  simp only
  refine ⟨_, rfl, ?_⟩
  have hp : common_part [cand] = cand := by simp [common_part, least_denominator]
  simp only [hp, fn_complete2_matches_single el a _ cand hcur hne hq hcomp, happ,
    escape_suffix_char, el_beep, word_replaced, and_self]

/-- Witness for C4 (amended): the line `cd /usr/sh`, the sole candidate `/usr/share`, a
directory, which gives `cd /usr/share/`. -/
theorem single_match_replaces_word_witness :
    ∃ r, fn_complete2 (editor "cd /usr/sh" 0 1 "")
        (el_fn_complete_args ["/usr/share"] "/" 100 ⟨true, true, true⟩) = some r ∧
      r.retval = CC.CC_REFRESH ∧ r.el.buffer = "cd /usr/share/".toList := by
  obtain ⟨r, h1, h2, h3⟩ := single_match_replaces_word (editor "cd /usr/sh" 0 1 "")
    (el_fn_complete_args ["/usr/share"] "/" 100 ⟨true, true, true⟩)
    "/usr/sh".toList "/usr/share".toList '/' [] (by decide) (fun f hf => nomatch hf)
    (by decide) ⟨fun _ _ => rfl, rfl⟩ (by decide) rfl rfl (by decide) rfl rfl
  refine ⟨r, h1, h2, ?_⟩
  rw [h3]
  decide

/-- C5, counterexample. With the line `ls fo`, the candidates `foobar` and `foobaz` (common prefix
`fooba`, longer than the word) and the current command equal to the last one,
`fn_complete2` replaces the word, lists the candidates without any alert and
returns CC_REDISPLAY. -/
theorem partial_completion_list_mode_counterexample :
    (fn_complete2 (editor "ls fo" 1 1 "")
        (el_fn_complete_args ["foobar", "foobaz"] " " 100 ⟨true, true, true⟩)).map
        (fun r => (r.retval, r.el.buffer, r.el.outfile))
      = some (CC.CC_REDISPLAY, "ls fooba".toList,
          [Output.newline,
           Output.match_list ["fooba".toList, "foobar".toList, "foobaz".toList] 3 6]) := by
  decide

/-- C5, amended. When the generator yields several candidates whose common prefix is strictly
longer than the original word and the current command differs from the last
one, the word span is replaced by the common prefix (escaped when
FN_QUOTE_MATCH is set) with no suffix, an alert is raised, nothing is listed
and the outcome is CC_REFRESH. -/
theorem partial_completion_refreshes (el : EditLine) (a : Args) (temp : CStr)
    (cands : List CStr) (hcur : el.cursor ≤ el.buffer.length)
    (hcons : generator_consulted el a) (hword : (word_of el a).1 = some temp)
    (hgen : yields a.complete_func temp cands) (hfuel : cands.length < a.fuel)
    (hml : a.allocs.match_list = true) (hcomp : a.allocs.completion = true)
    (hsev : 2 ≤ cands.length) (hlong : temp.length < (common_part cands).length)
    (hcmd : el.lastcmd ≠ el.thiscmd) :
    ∃ r, fn_complete2 el a = some r ∧ r.retval = CC.CC_REFRESH ∧
      r.el.buffer = el.buffer.take (el.cursor - (word_of el a).2)
        ++ inserted_text el a (common_part cands) ++ el.buffer.drop el.cursor ∧
      r.el.cursor = el.cursor - (word_of el a).2
        + (inserted_text el a (common_part cands)).length ∧
      r.el.outfile = el.outfile ++ [Output.beep] := by
  obtain ⟨c1, c2, rest, rfl⟩ := several_of_length cands hsev
  obtain ⟨r, hr, hres⟩ := fn_complete2_several el a temp c1 c2 rest hcur hcons hword hgen
    hfuel hml hcomp
  have hp : common_part (c1 :: c2 :: rest) ≠ [] := by
    intro h
    rw [h] at hlong
    simp at hlong
  rw [if_neg (what_to_do_tab el hcmd), if_pos hp] at hres
  have h1 := congrArg Prod.fst hres
  have h2 := congrArg Prod.snd hres
  simp only at h1 h2
  refine ⟨r, hr, h1, ?_, ?_, ?_⟩ <;> rw [h2] <;> rfl

/-- Witness for C5 (amended): the line `ls fo` with the candidates `foobar` and `foobaz`. -/
theorem partial_completion_refreshes_witness :
    ∃ r, fn_complete2 (editor "ls fo" 0 1 "")
        (el_fn_complete_args ["foobar", "foobaz"] " " 100 ⟨true, true, true⟩) = some r ∧
      r.retval = CC.CC_REFRESH ∧ r.el.buffer = "ls fooba".toList ∧
      r.el.outfile = [Output.beep] := by
  obtain ⟨r, h1, h2, h3, _, h5⟩ := partial_completion_refreshes (editor "ls fo" 0 1 "")
    (el_fn_complete_args ["foobar", "foobaz"] " " 100 ⟨true, true, true⟩)
    "fo".toList ["foobar".toList, "foobaz".toList] (by decide) (fun f hf => nomatch hf)
    (by decide) ⟨fun _ _ => rfl, rfl⟩ (by decide) rfl rfl (by decide) (by decide) (by decide)
  refine ⟨r, h1, h2, ?_, h5⟩
  rw [h3]
  decide

/-- C6. When the generator yields several candidates whose common prefix equals the
original word and the current command equals the last one, `fn_complete2`
returns CC_REDISPLAY; when moreover the candidate count exceeds `query_items`
and the keystroke read is not `y`, the outcome is the same and only the
newline, the prompt and a newline are printed: the table is not. -/
theorem list_mode_redisplays (el : EditLine) (a : Args) (temp : CStr)
    (cands : List CStr) (hcur : el.cursor ≤ el.buffer.length)
    (hcons : generator_consulted el a) (hword : (word_of el a).1 = some temp)
    (hgen : yields a.complete_func temp cands) (hfuel : cands.length < a.fuel)
    (hml : a.allocs.match_list = true) (hcomp : a.allocs.completion = true)
    (hsev : 2 ≤ cands.length) (hsame : common_part cands = temp)
    (hcmd : el.lastcmd = el.thiscmd) :
    ∃ r, fn_complete2 el a = some r ∧ r.retval = CC.CC_REDISPLAY ∧
      (cands.length > a.query_items → el.stdin.head? ≠ some 'y' →
        r.el.outfile
          = el.outfile ++ [Output.newline, Output.query cands.length, Output.newline]) ∧
      (cands.length ≤ a.query_items →
        r.el.outfile = el.outfile ++ [Output.newline,
          Output.match_list (temp :: cands) (cands.length + 1)
            (cands.foldl (fun m s => if s.length > m then s.length else m) 0)]) := by
  obtain ⟨c1, c2, rest, rfl⟩ := several_of_length cands hsev
  obtain ⟨r, hr, hres⟩ := fn_complete2_several el a temp c1 c2 rest hcur hcons hword hgen
    hfuel hml hcomp
  rw [if_pos (what_to_do_list el hcmd), hsame] at hres
  have h1 := congrArg Prod.fst hres
  have h2 := congrArg Prod.snd hres
  simp only at h1 h2
  have hout : (if temp ≠ [] then word_replaced el a (inserted_text el a temp) else el).outfile
      = el.outfile := by
    split <;> rfl
  have hin : (if temp ≠ [] then word_replaced el a (inserted_text el a temp) else el).stdin
      = el.stdin := by
    split <;> rfl
  refine ⟨r, hr, h1, ?_, ?_⟩
  · intro hmany hdecline
    rw [h2]
    unfold list_possible_matches
    simp only [List.tail_cons, if_pos hmany, hin, hout]
    cases hs : el.stdin with
    | nil => simp
    | cons c more =>
      have hc : c ≠ 'y' := by
        intro h
        apply hdecline
        rw [hs, h]
        rfl
      simp [hc]
  · intro hfew
    rw [h2]
    unfold list_possible_matches
    have : ¬ ((c1 :: c2 :: rest).length > a.query_items) := by omega
    simp only [List.tail_cons, if_neg this, hout, if_true]
    simp

/-- Witness for C6: the line `ls f`, the candidates `f`, `foo` and `fbar`, a threshold of
one, and the keystroke `n`. -/
theorem list_mode_redisplays_witness :
    ∃ r, fn_complete2 (editor "ls f" 1 1 "n")
        (el_fn_complete_args ["f", "foo", "fbar"] " " 1 ⟨true, true, true⟩) = some r ∧
      r.retval = CC.CC_REDISPLAY ∧
      r.el.outfile = [Output.newline, Output.query 3, Output.newline] := by
  obtain ⟨r, h1, h2, h3, _⟩ := list_mode_redisplays (editor "ls f" 1 1 "n")
    (el_fn_complete_args ["f", "foo", "fbar"] " " 1 ⟨true, true, true⟩)
    "f".toList ["f".toList, "foo".toList, "fbar".toList] (by decide)
    (fun f hf => nomatch hf) (by decide) ⟨fun _ _ => rfl, rfl⟩ (by decide) rfl rfl
    (by decide) (by decide) (by decide)
  exact ⟨r, h1, h2, h3 (by decide) (by decide)⟩

theorem take_slice_drop (b : List Char) (c l : Nat) :
    b.take (c - l) ++ (b.take c).drop (c - l) ++ b.drop c = b := by
  have h : b.take (c - l) = (b.take c).take (c - l) := by
    rw [List.take_take, Nat.min_eq_left (Nat.sub_le c l)]
  rw [h, List.take_append_drop, List.take_append_drop]

/-- C7, counterexample. With the line `cd /usr/sh`, the candidates `/usr/share` and `/usr/shbin`
(common prefix `/usr/sh`, the word itself) and the current command different
from the last one, `fn_complete2` returns CC_REFRESH, not CC_NORM. -/
theorem ambiguous_word_returns_refresh_counterexample :
    (fn_complete2 (editor "cd /usr/sh" 0 1 "")
        (el_fn_complete_args ["/usr/share", "/usr/shbin"] "/" 100 ⟨true, true, true⟩)).map
        (fun r => (r.retval, r.el.buffer, r.el.outfile))
      = some (CC.CC_REFRESH, "cd /usr/sh".toList, [Output.beep]) ∧
    (fn_complete2 (editor "cd /usr/sh" 0 1 "")
        (el_fn_complete_args ["/usr/share", "/usr/shbin"] "/" 100 ⟨true, true, true⟩)).map
        (fun r => r.retval)
      ≠ some CC.CC_NORM := by
  decide

/-- C7, amended. When the generator yields several candidates whose common prefix equals the
original word and the current command differs from the last one, `fn_complete2`
raises an alert and lists nothing.  For a non-empty word it writes the common
prefix (escaped when FN_QUOTE_MATCH is set) over the word span, which leaves
the buffer text as it was whenever that text equals the raw word, and returns
CC_REFRESH; for an empty word it leaves buffer and cursor alone and returns
CC_NORM. -/
theorem ambiguous_word_alerts (el : EditLine) (a : Args) (temp : CStr)
    (cands : List CStr) (hcur : el.cursor ≤ el.buffer.length)
    (hcons : generator_consulted el a) (hword : (word_of el a).1 = some temp)
    (hgen : yields a.complete_func temp cands) (hfuel : cands.length < a.fuel)
    (hml : a.allocs.match_list = true) (hcomp : a.allocs.completion = true)
    (hsev : 2 ≤ cands.length) (hsame : common_part cands = temp)
    (hcmd : el.lastcmd ≠ el.thiscmd) :
    ∃ r, fn_complete2 el a = some r ∧
      r.el.outfile = el.outfile ++ [Output.beep] ∧
      (temp ≠ [] →
        r.retval = CC.CC_REFRESH ∧
        r.el.buffer = el.buffer.take (el.cursor - (word_of el a).2)
          ++ inserted_text el a temp ++ el.buffer.drop el.cursor ∧
        (inserted_text el a temp = (el.buffer.take el.cursor).drop
            (el.cursor - (word_of el a).2) →
          r.el.buffer = el.buffer)) ∧
      (temp = [] → r.retval = CC.CC_NORM ∧ r.el.buffer = el.buffer ∧ r.el.cursor = el.cursor) := by
  obtain ⟨c1, c2, rest, rfl⟩ := several_of_length cands hsev
  obtain ⟨r, hr, hres⟩ := fn_complete2_several el a temp c1 c2 rest hcur hcons hword hgen
    hfuel hml hcomp
  rw [if_neg (what_to_do_tab el hcmd), hsame] at hres
  by_cases ht : temp = []
  · rw [if_neg (by simpa using ht)] at hres
    have h1 := congrArg Prod.fst hres
    have h2 := congrArg Prod.snd hres
    simp only at h1 h2
    refine ⟨r, hr, by rw [h2]; rfl, fun h => absurd ht h, fun _ => ⟨h1, ?_, ?_⟩⟩ <;>
      rw [h2] <;> rfl
  · rw [if_pos ht] at hres
    have h1 := congrArg Prod.fst hres
    have h2 := congrArg Prod.snd hres
    simp only at h1 h2
    have hb : r.el.buffer = el.buffer.take (el.cursor - (word_of el a).2)
        ++ inserted_text el a temp ++ el.buffer.drop el.cursor := by
      rw [h2]; rfl
    refine ⟨r, hr, by rw [h2]; rfl, fun _ => ⟨h1, hb, ?_⟩, fun h => absurd h ht⟩
    intro heq
    rw [hb, heq, take_slice_drop]

/-- Witness for C7 (amended): the line `cd /usr/sh` with the candidates `/usr/share` and
`/usr/shbin`. -/
theorem ambiguous_word_alerts_witness :
    ∃ r, fn_complete2 (editor "cd /usr/sh" 0 1 "")
        (el_fn_complete_args ["/usr/share", "/usr/shbin"] "/" 100 ⟨true, true, true⟩) = some r ∧
      r.el.outfile = [Output.beep] ∧ r.retval = CC.CC_REFRESH ∧
      r.el.buffer = "cd /usr/sh".toList := by
  obtain ⟨r, h1, h2, h3, _⟩ := ambiguous_word_alerts (editor "cd /usr/sh" 0 1 "")
    (el_fn_complete_args ["/usr/share", "/usr/shbin"] "/" 100 ⟨true, true, true⟩)
    "/usr/sh".toList ["/usr/share".toList, "/usr/shbin".toList] (by decide)
    (fun f hf => nomatch hf) (by decide) ⟨fun _ _ => rfl, rfl⟩ (by decide) rfl rfl
    (by decide) (by decide) (by decide)
  obtain ⟨h4, _, h6⟩ := h3 (by decide)
  exact ⟨r, h1, h2, h4, h6 (by decide)⟩

/-- C8, counterexample. With the line `cd /usr/sh` and a generator that yields nothing,
`fn_complete2` returns CC_NORM with the buffer unchanged and sends nothing to
the terminal: no alert is emitted. -/
theorem no_candidates_no_beep_counterexample :
    (fn_complete2 (editor "cd /usr/sh" 0 1 "")
        (el_fn_complete_args [] "/" 100 ⟨true, true, true⟩)).map
        (fun r => (r.retval, r.el.buffer, r.el.outfile))
      = some (CC.CC_NORM, "cd /usr/sh".toList, []) ∧
    (fn_complete2 (editor "cd /usr/sh" 0 1 "")
        (el_fn_complete_args [] "/" 100 ⟨true, true, true⟩)).map
        (fun r => decide (Output.beep ∈ r.el.outfile))
      ≠ some true := by
  decide

/-- C8, amended. When the generator yields no candidate at all, `fn_complete2` returns CC_NORM
and leaves the whole editor state as it was: the buffer and the cursor are
unchanged and nothing, no alert either, is sent to the terminal. -/
theorem no_candidates_no_change (el : EditLine) (a : Args) (temp : CStr)
    (hcons : generator_consulted el a) (hword : (word_of el a).1 = some temp)
    (hgen : yields a.complete_func temp []) (hfuel : 0 < a.fuel) :
    ∃ r, fn_complete2 el a = some r ∧ r.retval = CC.CC_NORM ∧ r.el = el := by
  rw [fn_complete2_from_generator el a temp hcons hword]
  cases hml : a.allocs.match_list
  · rw [completion_matches_alloc_fail temp a.complete_func [] a.fuel hgen (by simpa using hfuel)]
    exact ⟨_, rfl, rfl, rfl⟩
  · rw [completion_matches_of_yields temp a.complete_func [] a.fuel hgen (by simpa using hfuel)]
    exact ⟨_, rfl, rfl, rfl⟩

/-- Witness for C8 (amended): the line `cd /usr/sh` and a generator that yields nothing. -/
theorem no_candidates_no_change_witness :
    ∃ r, fn_complete2 (editor "cd /usr/sh" 0 1 "")
        (el_fn_complete_args [] "/" 100 ⟨true, true, true⟩) = some r ∧
      r.retval = CC.CC_NORM ∧ r.el = editor "cd /usr/sh" 0 1 "" :=
  no_candidates_no_change (editor "cd /usr/sh" 0 1 "")
    (el_fn_complete_args [] "/" 100 ⟨true, true, true⟩) "/usr/sh".toList
    (fun f hf => nomatch hf) (by decide) ⟨fun _ _ => rfl, rfl⟩ (by decide)

/-- C9, counterexample. With the line `ls foo`, the candidates `foo` and `foobar` (the common prefix
`foo` is the first candidate in full) and the current command equal to the
last one, `fn_complete2` prints the candidate table and returns CC_REDISPLAY:
the result is not handled as a single match. -/
theorem full_candidate_list_mode_counterexample :
    (fn_complete2 (editor "ls foo" 1 1 "")
        (el_fn_complete_args ["foo", "foobar"] " " 100 ⟨true, true, true⟩)).map
        (fun r => (r.retval, r.el.buffer, r.el.outfile))
      = some (CC.CC_REDISPLAY, "ls foo".toList,
          [Output.newline,
           Output.match_list ["foo".toList, "foo".toList, "foobar".toList] 3 6]) := by
  decide

/-- C9, amended. When several candidates are produced, their non-empty common prefix equals one
of the candidates in full and the current command differs from the last one,
the word span is replaced by the common prefix (escaped when FN_QUOTE_MATCH is
set) without suffix, the outcome is CC_REFRESH, an alert is raised and no
candidate table is displayed. -/
theorem full_candidate_refreshes (el : EditLine) (a : Args) (temp : CStr)
    (cands : List CStr) (hcur : el.cursor ≤ el.buffer.length)
    (hcons : generator_consulted el a) (hword : (word_of el a).1 = some temp)
    (hgen : yields a.complete_func temp cands) (hfuel : cands.length < a.fuel)
    (hml : a.allocs.match_list = true) (hcomp : a.allocs.completion = true)
    (hsev : 2 ≤ cands.length) (hfull : common_part cands ∈ cands)
    (hne : common_part cands ≠ []) (hcmd : el.lastcmd ≠ el.thiscmd) :
    ∃ r, fn_complete2 el a = some r ∧ r.retval = CC.CC_REFRESH ∧
      r.el.buffer = el.buffer.take (el.cursor - (word_of el a).2)
        ++ inserted_text el a (common_part cands) ++ el.buffer.drop el.cursor ∧
      r.el.outfile = el.outfile ++ [Output.beep] := by
  obtain ⟨c1, c2, rest, rfl⟩ := several_of_length cands hsev
  obtain ⟨r, hr, hres⟩ := fn_complete2_several el a temp c1 c2 rest hcur hcons hword hgen
    hfuel hml hcomp
  rw [if_neg (what_to_do_tab el hcmd), if_pos hne] at hres
  have h1 := congrArg Prod.fst hres
  have h2 := congrArg Prod.snd hres
  simp only at h1 h2
  refine ⟨r, hr, h1, ?_, ?_⟩ <;> rw [h2] <;> rfl

/-- Witness for C9 (amended): the line `ls fo` with the candidates `foo` and `foobar`. -/
theorem full_candidate_refreshes_witness :
    ∃ r, fn_complete2 (editor "ls fo" 0 1 "")
        (el_fn_complete_args ["foo", "foobar"] " " 100 ⟨true, true, true⟩) = some r ∧
      r.retval = CC.CC_REFRESH ∧ r.el.buffer = "ls foo".toList ∧
      r.el.outfile = [Output.beep] := by
  obtain ⟨r, h1, h2, h3, h4⟩ := full_candidate_refreshes (editor "ls fo" 0 1 "")
    (el_fn_complete_args ["foo", "foobar"] " " 100 ⟨true, true, true⟩)
    "fo".toList ["foo".toList, "foobar".toList] (by decide) (fun f hf => nomatch hf)
    (by decide) ⟨fun _ _ => rfl, rfl⟩ (by decide) rfl rfl (by decide) (by decide)
    (by decide) (by decide)
  refine ⟨r, h1, h2, ?_, h4⟩
  rw [h3]
  decide

theorem fn_complete2_matches_completion_fail (el : EditLine) (a : Args) (what_to_do : Char)
    (len : Nat) (p : CStr) (rest : List CStr) (hp : p ≠ [])
    (hcomp : a.allocs.completion = false) :
    fn_complete2_matches el a what_to_do len (p :: rest)
      = (CC.CC_REFRESH, el_deletestr el (len : Int)) := by
  unfold fn_complete2_matches
  cases hq : a.quote_match <;> simp [hp, hcomp, escape_filename]

/-- C10, counterexample. With the line `ls foo`, the candidates `foo` and `foobar`, and the
allocation of the completion string failing, `fn_complete2` returns with the
word already deleted: the buffer is `ls `, not the `ls foo` of entry. -/
theorem completion_alloc_failure_counterexample :
    (fn_complete2 (editor "ls foo" 0 1 "")
        (el_fn_complete_args ["foo", "foobar"] " " 100 ⟨true, true, false⟩)).map
        (fun r => (r.retval, r.el.buffer, r.el.cursor))
      = some (CC.CC_REFRESH, "ls ".toList, 3) ∧
    "ls ".toList ≠ (editor "ls foo" 0 1 "").buffer := by
  decide

/-- C10, amended. A failure before the replacement starts (`find_word_to_complete` returns
NULL, the generator yields nothing, or an allocation of `completion_matches`
fails) leaves the editor state identical to its state on entry, with CC_NORM.
When `escape_filename` or `strdup` returns NULL for the completion string,
`el_deletestr` has already run: the buffer is the one of entry without the
word span, nothing is inserted or printed, and CC_REFRESH is returned. -/
theorem failure_paths_buffer (el : EditLine) (a : Args) (cands : List CStr)
    (hcons : generator_consulted el a)
    (hgen : ∀ temp, (word_of el a).1 = some temp → yields a.complete_func temp cands)
    (hfuel : cands.length < a.fuel) :
    ∃ r, fn_complete2 el a = some r ∧
      ((word_of el a).1 = none ∨ cands = [] ∨ a.allocs.match_list = false →
        r.retval = CC.CC_NORM ∧ r.el = el) ∧
      ((word_of el a).1 ≠ none → a.allocs.match_list = true →
        common_part cands ≠ [] → a.allocs.completion = false →
        r.retval = CC.CC_REFRESH ∧
        r.el = { el with
                 buffer := el.buffer.take (el.cursor - (word_of el a).2)
                   ++ el.buffer.drop el.cursor
                 cursor := el.cursor - (word_of el a).2 }) := by
  cases hw : (word_of el a).1 with
  | none =>
    have hfc : fn_complete2 el a
        = some { retval := CC.CC_NORM, el := el,
                 what_to_do := if el.lastcmd = el.thiscmd then '?' else '\t',
                 over := a.over, point := none, endp := none } := by
      unfold word_of at hw
      unfold fn_complete2
      simp only [hw]
    exact ⟨_, hfc, fun _ => ⟨rfl, rfl⟩, fun h => absurd rfl h⟩
  | some temp =>
    have hy := hgen temp hw
    rw [fn_complete2_from_generator el a temp hcons hw]
    cases hml : a.allocs.match_list with
    | false =>
      rw [completion_matches_alloc_fail temp a.complete_func cands a.fuel hy hfuel]
      exact ⟨_, rfl, fun _ => ⟨rfl, rfl⟩, fun _ h => absurd h (by simp)⟩
    | true =>
      rw [completion_matches_of_yields temp a.complete_func cands a.fuel hy hfuel]
      cases cands with
      | nil =>
        refine ⟨_, rfl, fun _ => ⟨rfl, rfl⟩, fun _ _ h => absurd ?_ h⟩
        rfl
      | cons c rest =>
        refine ⟨_, rfl, ?_, ?_⟩
        · intro h
          rcases h with h | h | h
          · exact absurd h (by simp)
          · exact absurd h (by simp)
          · exact absurd h (by simp)
        · intro _ _ hp hcomp
          simp only
          rw [fn_complete2_matches_completion_fail el a _ _ _ _ hp hcomp,
            el_deletestr_eq el _ (word_of_len_le el a)]
          exact ⟨rfl, rfl⟩

/-- Witness for C10 (amended): the line `ls foo`, the candidates `foo` and `foobar`, the
allocation of the completion string failing. -/
theorem failure_paths_buffer_witness :
    ∃ r, fn_complete2 (editor "ls foo" 0 1 "")
        (el_fn_complete_args ["foo", "foobar"] " " 100 ⟨true, true, false⟩) = some r ∧
      r.retval = CC.CC_REFRESH ∧ r.el.buffer = "ls ".toList := by
  obtain ⟨r, h1, _, h3⟩ := failure_paths_buffer (editor "ls foo" 0 1 "")
    (el_fn_complete_args ["foo", "foobar"] " " 100 ⟨true, true, false⟩)
    ["foo".toList, "foobar".toList] (fun f hf => nomatch hf)
    (fun _ _ => ⟨fun _ _ => rfl, rfl⟩) (by decide)
  obtain ⟨h4, h5⟩ := h3 (by decide) rfl (by decide) rfl
  refine ⟨r, h1, h4, ?_⟩
  rw [h5]
  decide

/-! ## The escaping rules of escape_filename -/

theorem needs_escaping_iff (c : Char) :
    needs_escaping c = (spec_shell_metacharacter c || c == '@' || c == '=') := by
  unfold needs_escaping
  split <;> first | rfl | skip
  simp_all [spec_shell_metacharacter]

theorem escape_filename_eq (el : EditLine) (x : CStr) (single_match : Bool)
    (app_func : Option (CStr → CStr)) :
    escape_filename true el (some x) single_match app_func
      = some (escape_loop (quote_scan el.buffer el.cursor).1 (quote_scan el.buffer el.cursor).2 x
          ++ appended_text (quote_scan el.buffer el.cursor) single_match app_func x) := by
  simp [escape_filename, appended_text]

theorem escape_loop_unquoted (x : CStr) :
    escape_loop false false x
      = x.flatMap (fun c =>
          if spec_shell_metacharacter c = true ∨ c = '@' ∨ c = '=' then ['\\', c] else [c]) := by
  induction x with
  | nil => rfl
  | cons c x ih =>
    simp only [escape_loop, List.flatMap_cons, ih, needs_escaping_iff]
    by_cases h : spec_shell_metacharacter c = true ∨ c = '@' ∨ c = '='
    · have h' : (spec_shell_metacharacter c || c == '@' || c == '=') = true := by
        simpa [Bool.or_assoc] using h
      simp [h, h']
    · have h' : (spec_shell_metacharacter c || c == '@' || c == '=') = false := by
        simpa [Bool.or_assoc] using h
      simp [h, h']

theorem escape_loop_single_quoted (d_quoted : Bool) (x : CStr) :
    escape_loop true d_quoted x
      = x.flatMap (fun c => if c = '\'' then ['\'', '\\', '\'', '\''] else [c]) := by
  induction x with
  | nil => rfl
  | cons c x ih =>
    simp only [escape_loop, List.flatMap_cons, ih]
    by_cases h : c = '\''
    · subst h
      simp [needs_escaping]
    · simp [h]

theorem needs_dquote_escaping_iff (c : Char) :
    needs_dquote_escaping c = true ↔ (c = '"' ∨ c = '\\' ∨ c = '`' ∨ c = '$') := by
  unfold needs_dquote_escaping
  split <;> simp_all

theorem needs_escaping_of_dquote (c : Char) (h : needs_dquote_escaping c = true) :
    needs_escaping c = true := by
  rcases (needs_dquote_escaping_iff c).mp h with h | h | h | h <;> subst h <;> rfl

theorem escape_loop_double_quoted (x : CStr) :
    escape_loop false true x
      = x.flatMap (fun c =>
          if c = '"' ∨ c = '\\' ∨ c = '`' ∨ c = '$' then ['\\', c] else [c]) := by
  induction x with
  | nil => rfl
  | cons c x ih =>
    simp only [escape_loop, List.flatMap_cons, ih]
    by_cases h : needs_dquote_escaping c = true
    · have h1 := needs_escaping_of_dquote c h
      have h2 := (needs_dquote_escaping_iff c).mp h
      simp [h, h1, h2]
    · have h2 : ¬ (c = '"' ∨ c = '\\' ∨ c = '`' ∨ c = '$') :=
        fun hc => h ((needs_dquote_escaping_iff c).mpr hc)
      have h3 : needs_dquote_escaping c = false := by simpa using h
      simp [h3, h2]

theorem quote_scan_succ (buffer : List Char) (n : Nat) :
    quote_scan buffer (n + 1) = quote_step buffer (quote_scan buffer n) n := by
  simp [quote_scan, List.range_succ, List.foldl_append]

theorem quote_scan_not_both (buffer : List Char) (n : Nat) :
    ¬ ((quote_scan buffer n).1 = true ∧ (quote_scan buffer n).2 = true) := by
  induction n with
  | zero => simp [quote_scan]
  | succ n ih =>
    rw [quote_scan_succ]
    unfold quote_step
    simp only
    split
    · rename_i h
      simp [h.2.1]
    · split
      · rename_i h
        simp [h.2]
      · exact ih

/-- C11, counterexample. Outside quotes `escape_filename` turns the candidate `a@b` into `a\@b`: it
prefixes a backslash to `@`, a character outside the spec's metacharacter set,
so the output is not the one obtained by escaping that set only. -/
theorem escape_at_sign_counterexample :
    spec_shell_metacharacter '@' = false ∧
      quote_scan "ls ".toList 3 = (false, false) ∧
      escape_filename true ⟨"ls ".toList, 3, 0, 1, [], []⟩ (some "a@b".toList) false none
        = some "a\\@b".toList ∧
      escape_filename true ⟨"ls ".toList, 3, 0, 1, [], []⟩ (some "a@b".toList) false none
        ≠ some ("a@b".toList.flatMap (fun c =>
            if spec_shell_metacharacter c = true then ['\\', c] else [c])) := by
  decide

/-- C11, amended. When the cursor is outside any quote, `escape_filename` prefixes a backslash to
precisely the characters of the spec's shell-metacharacter set and to `@` and
`=`, and copies every other character of the candidate unchanged; what
follows the candidate is the suffix part. -/
theorem escape_outside_quotes (el : EditLine) (x : CStr) (single_match : Bool)
    (app_func : Option (CStr → CStr))
    (hq : quote_scan el.buffer el.cursor = (false, false)) :
    escape_filename true el (some x) single_match app_func
      = some (x.flatMap (fun c =>
            if spec_shell_metacharacter c = true ∨ c = '@' ∨ c = '=' then ['\\', c] else [c])
          ++ appended_text (false, false) single_match app_func x) := by
  rw [escape_filename_eq, hq, escape_loop_unquoted]

/-- Witness for C11 (amended): the candidate `a@b c` after the line `ls `. -/
theorem escape_outside_quotes_witness :
    escape_filename true ⟨"ls ".toList, 3, 0, 1, [], []⟩ (some "a@b c".toList) false none
      = some ("a@b c".toList.flatMap (fun c =>
            if spec_shell_metacharacter c = true ∨ c = '@' ∨ c = '=' then ['\\', c] else [c])
          ++ appended_text (false, false) false none "a@b c".toList) :=
  escape_outside_quotes ⟨"ls ".toList, 3, 0, 1, [], []⟩ "a@b c".toList false none (by decide)

/-- C12. When the quote scan ends inside single quotes, `escape_filename` writes every `'` of
the candidate as the four characters `'\''` and every other character
unchanged; what follows the candidate is the suffix part. -/
theorem escape_inside_single_quotes (el : EditLine) (x : CStr) (single_match : Bool)
    (app_func : Option (CStr → CStr))
    (hq : (quote_scan el.buffer el.cursor).1 = true) :
    escape_filename true el (some x) single_match app_func
      = some (x.flatMap (fun c => if c = '\'' then ['\'', '\\', '\'', '\''] else [c])
          ++ appended_text (quote_scan el.buffer el.cursor) single_match app_func x) := by
  rw [escape_filename_eq, hq, escape_loop_single_quoted]

/-- Witness for C12: the candidate `it's \"$` after the line `echo '`. -/
theorem escape_inside_single_quotes_witness :
    escape_filename true ⟨"echo '".toList, 6, 0, 1, [], []⟩ (some "it's \\\"$".toList) false none
        = some ("it's \\\"$".toList.flatMap
            (fun c => if c = '\'' then ['\'', '\\', '\'', '\''] else [c])
          ++ appended_text (quote_scan "echo '".toList 6) false none "it's \\\"$".toList) ∧
      "it's \\\"$".toList.flatMap (fun c => if c = '\'' then ['\'', '\\', '\'', '\''] else [c])
        = "it'\\''s \\\"$".toList :=
  ⟨escape_inside_single_quotes ⟨"echo '".toList, 6, 0, 1, [], []⟩ "it's \\\"$".toList false none
    (by decide), by decide⟩

/-- C13. When the quote scan ends inside double quotes, `escape_filename` prefixes a backslash
to exactly the characters `"`, `\`, backtick and `$` of the candidate and
writes every other character unchanged; what follows the candidate is the
suffix part. -/
theorem escape_inside_double_quotes (el : EditLine) (x : CStr) (single_match : Bool)
    (app_func : Option (CStr → CStr))
    (hq : (quote_scan el.buffer el.cursor).2 = true) :
    escape_filename true el (some x) single_match app_func
      = some (x.flatMap (fun c =>
            if c = '"' ∨ c = '\\' ∨ c = '`' ∨ c = '$' then ['\\', c] else [c])
          ++ appended_text (quote_scan el.buffer el.cursor) single_match app_func x) := by
  have hs : (quote_scan el.buffer el.cursor).1 = false := by
    cases h : (quote_scan el.buffer el.cursor).1
    · rfl
    · exact absurd ⟨h, hq⟩ (quote_scan_not_both el.buffer el.cursor)
  rw [escape_filename_eq, hq, hs, escape_loop_double_quoted]

/-- Witness for C13: the candidate `a'b "$c` after the line `echo "`. -/
theorem escape_inside_double_quotes_witness :
    escape_filename true ⟨"echo \"".toList, 6, 0, 1, [], []⟩ (some "a'b \"$c".toList) false none
        = some ("a'b \"$c".toList.flatMap (fun c =>
            if c = '"' ∨ c = '\\' ∨ c = '`' ∨ c = '$' then ['\\', c] else [c])
          ++ appended_text (quote_scan "echo \"".toList 6) false none "a'b \"$c".toList) ∧
      "a'b \"$c".toList.flatMap (fun c =>
            if c = '"' ∨ c = '\\' ∨ c = '`' ∨ c = '$' then ['\\', c] else [c])
        = "a'b \\\"\\$c".toList :=
  ⟨escape_inside_double_quotes ⟨"echo \"".toList, 6, 0, 1, [], []⟩ "a'b \"$c".toList false none
    (by decide), by decide⟩

/-- C14. After the escaped candidate `escape_filename` writes something only when
`single_match` is set and a suffix probe is given.  Then a non-space suffix
character is always written; a space is written when no quote is open, and
with a quote open the space is left out and the matching closing quote is
written instead. -/
theorem escape_suffix_rules (el : EditLine) (x : CStr) (single_match : Bool)
    (app_func : Option (CStr → CStr)) :
    escape_filename true el (some x) single_match app_func
        = some (escape_loop (quote_scan el.buffer el.cursor).1
              (quote_scan el.buffer el.cursor).2 x
            ++ appended_text (quote_scan el.buffer el.cursor) single_match app_func x) ∧
      (single_match = false ∨ app_func = none →
        appended_text (quote_scan el.buffer el.cursor) single_match app_func x = []) ∧
      (∀ (f : CStr → CStr) (ch : Char) (more : CStr),
        single_match = true → app_func = some f → f x = ch :: more →
          (ch ≠ ' ' →
            appended_text (quote_scan el.buffer el.cursor) single_match app_func x = [ch]) ∧
          (ch = ' ' → quote_scan el.buffer el.cursor = (false, false) →
            appended_text (quote_scan el.buffer el.cursor) single_match app_func x = [' ']) ∧
          (ch = ' ' → (quote_scan el.buffer el.cursor).1 = true →
            appended_text (quote_scan el.buffer el.cursor) single_match app_func x = ['\'']) ∧
          (ch = ' ' → (quote_scan el.buffer el.cursor).2 = true →
            appended_text (quote_scan el.buffer el.cursor) single_match app_func x = ['"'])) := by
  refine ⟨escape_filename_eq el x single_match app_func, ?_, ?_⟩
  · intro h
    rcases h with h | h
    · subst h; rfl
    · subst h; cases single_match <;> rfl
  · intro f ch more hs hf happ
    subst hs hf
    have hnb := quote_scan_not_both el.buffer el.cursor
    simp only [appended_text, happ, escape_suffix_char]
    refine ⟨?_, ?_, ?_, ?_⟩
    · intro hc; simp [hc]
    · intro hc hq; simp [hc, hq]
    · intro hc hq; simp [hc, hq]
    · intro hc hq
      have hs : (quote_scan el.buffer el.cursor).1 = false := by
        cases h : (quote_scan el.buffer el.cursor).1
        · rfl
        · exact absurd ⟨h, hq⟩ hnb
      simp [hc, hq, hs]

/-- Witness for C14: after the line `ls "` the single match `usr` with a probe reporting a space
gets the closing quote, with a probe reporting `/` it gets the `/`, and
without `single_match` it gets nothing. -/
theorem escape_suffix_rules_witness :
    appended_text (quote_scan "ls \"".toList 4) true (some (fun _ => " ".toList)) "usr".toList
        = ['"'] ∧
      appended_text (quote_scan "ls \"".toList 4) true (some (fun _ => "/".toList)) "usr".toList
        = ['/'] ∧
      appended_text (quote_scan "ls \"".toList 4) false (some (fun _ => "/".toList))
        "usr".toList = [] :=
  ⟨((escape_suffix_rules ⟨"ls \"".toList, 4, 0, 1, [], []⟩ "usr".toList true
      (some (fun _ => " ".toList))).2.2 (fun _ => " ".toList) ' ' [] rfl rfl rfl).2.2.2
      rfl (by decide),
    ((escape_suffix_rules ⟨"ls \"".toList, 4, 0, 1, [], []⟩ "usr".toList true
      (some (fun _ => "/".toList))).2.2 (fun _ => "/".toList) '/' [] rfl rfl rfl).1
      (by decide),
    (escape_suffix_rules ⟨"ls \"".toList, 4, 0, 1, [], []⟩ "usr".toList false
      (some (fun _ => "/".toList))).2.1 (Or.inl rfl)⟩

/-- C15, counterexample. With the double quote of `ls "` open, the single match `usr` and a probe
reporting the directory suffix `/`, `escape_filename` returns `usr/`: the quote
is not closed, no `"` occurs in the output. -/
theorem directory_suffix_leaves_quote_open_counterexample :
    quote_scan "ls \"".toList 4 = (false, true) ∧
      escape_filename true ⟨"ls \"".toList, 4, 0, 1, [], []⟩ (some "usr".toList) true
          (some (fun _ => "/".toList))
        = some "usr/".toList ∧
      '"' ∉ "usr/".toList := by
  decide

/-- C15, amended. For a single match with a quote open at the cursor, `escape_filename` writes a
non-space suffix such as the directory suffix `/` right after the escaped
candidate and leaves the quote open; it closes the quote, with the matching
quote character, only when the probe reports a space. -/
theorem suffix_in_open_quote (el : EditLine) (x : CStr) (f : CStr → CStr) (ch : Char)
    (more : CStr)
    (hopen : (quote_scan el.buffer el.cursor).1 = true ∨ (quote_scan el.buffer el.cursor).2 = true)
    (happ : f x = ch :: more) :
    (ch ≠ ' ' →
      escape_filename true el (some x) true (some f)
        = some (escape_loop (quote_scan el.buffer el.cursor).1
            (quote_scan el.buffer el.cursor).2 x ++ [ch])) ∧
    (ch = ' ' →
      escape_filename true el (some x) true (some f)
        = some (escape_loop (quote_scan el.buffer el.cursor).1
            (quote_scan el.buffer el.cursor).2 x
          ++ [if (quote_scan el.buffer el.cursor).1 = true then '\'' else '"'])) := by
  rw [escape_filename_eq]
  simp only [appended_text, happ, escape_suffix_char]
  refine ⟨?_, ?_⟩
  · intro hc; simp [hc]
  · intro hc; simp [hc, hopen]

/-- Witness for C15 (amended): the single match `usr`, a directory, after the line `ls "`. -/
theorem suffix_in_open_quote_witness :
    ('/' ≠ ' ' →
      escape_filename true ⟨"ls \"".toList, 4, 0, 1, [], []⟩ (some "usr".toList) true
          (some (fun _ => "/".toList))
        = some (escape_loop (quote_scan "ls \"".toList 4).1
            (quote_scan "ls \"".toList 4).2 "usr".toList ++ ['/'])) ∧
    ('/' = ' ' →
      escape_filename true ⟨"ls \"".toList, 4, 0, 1, [], []⟩ (some "usr".toList) true
          (some (fun _ => "/".toList))
        = some (escape_loop (quote_scan "ls \"".toList 4).1
            (quote_scan "ls \"".toList 4).2 "usr".toList
          ++ [if (quote_scan "ls \"".toList 4).1 = true then '\'' else '"'])) :=
  suffix_in_open_quote ⟨"ls \"".toList, 4, 0, 1, [], []⟩ "usr".toList (fun _ => "/".toList)
    '/' [] (by decide) rfl

/-! ## The quote scan as a fold -/

theorem quote_step_eq_spec (buffer : List Char) (q : Bool × Bool) (k : Nat) :
    quote_step buffer q k
      = spec_quote_step q (if k = 0 then none else some (buffer.getD (k - 1) NUL))
          (buffer.getD k NUL) := by
  unfold quote_step spec_quote_step
  generalize buffer.getD k NUL = c
  generalize buffer.getD (k - 1) NUL = p
  obtain ⟨s, d⟩ := q
  have hne : ('\'' : Char) ≠ '"' := by decide
  by_cases hk : k = 0 <;> by_cases h1 : c = '\'' <;> by_cases h2 : c = '"' <;>
    by_cases hp : p = '\\' <;> cases s <;> cases d <;> simp_all

theorem quote_fold_range (buffer : List Char) :
    ∀ (l : List Char) (k : Nat) (q : Bool × Bool),
      (∀ i, i < l.length → buffer.getD (k + i) NUL = l.getD i NUL) →
      (List.range' k l.length).foldl (quote_step buffer) q
        = spec_quote_fold q (if k = 0 then none else some (buffer.getD (k - 1) NUL)) l := by
  intro l
  induction l with
  | nil => intro k q _; rfl
  | cons c l ih =>
    intro k q h
    have h0 : buffer.getD k NUL = c := by simpa using h 0 (by simp)
    simp only [List.length_cons, List.range'_succ, List.foldl_cons, spec_quote_fold]
    rw [quote_step_eq_spec, h0, ih (k + 1) _ (fun i hi => by
      have := h (i + 1) (by simpa using hi)
      simpa [Nat.add_assoc, Nat.add_comm 1 i] using this)]
    rw [if_neg (Nat.succ_ne_zero k), Nat.add_sub_cancel, h0]

/-- C16. For every buffer and cursor within it, the quoting context computed by the scan of
`escape_filename` is the spec's fold over `buffer[0, cursor)` started from
(false, false): a `'` flips the single-quote flag iff the double-quote flag is
off and the character is the first one or is not preceded by a backslash, a
`"` flips the double-quote flag iff the single-quote flag is off, any other
character changes nothing. -/
theorem quote_scan_eq_spec_fold (buffer : List Char) (cursor : Nat)
    (hc : cursor ≤ buffer.length) :
    quote_scan buffer cursor = spec_quote_fold (false, false) none (buffer.take cursor) := by
  have h := quote_fold_range buffer (buffer.take cursor) 0 (false, false) (fun i hi => by
    have hi' : i < cursor := by
      rw [List.length_take] at hi; omega
    simp [List.getD_eq_getElem?_getD, List.getElem?_take_of_lt hi'])
  have hl : (buffer.take cursor).length = cursor := by
    rw [List.length_take]; omega
  rw [hl] at h
  simpa [quote_scan, List.range_eq_range'] using h

/-- Witness for C16: the line `a\'b"c'` scanned to its end. -/
theorem quote_scan_eq_spec_fold_witness :
    quote_scan "a\\'b\"c'".toList 7
        = spec_quote_fold (false, false) none ("a\\'b\"c'".toList.take 7) ∧
      quote_scan "a\\'b\"c'".toList 7 = (false, true) :=
  ⟨quote_scan_eq_spec_fold "a\\'b\"c'".toList 7 (by decide), by decide⟩

/-! ## The backward walk of find_word_to_complete -/

theorem find_word_loop_succ_eq (buffer word_break : List Char)
    (special_prefixes : Option (List Char)) (fuel ctemp : Nat) :
    find_word_loop buffer word_break special_prefixes (fuel + 1) ctemp
      = if ctemp ≤ 0 then ctemp
        else if wcschr word_break (buffer.getD (ctemp - 1) NUL) then
          if ctemp ≥ 2 ∧ buffer.getD (ctemp - 2) NUL = '\\' then
            find_word_loop buffer word_break special_prefixes fuel (ctemp - 2)
          else ctemp
        else if (match special_prefixes with
            | none => false
            | some sp => wcschr sp (buffer.getD (ctemp - 1) NUL)) then ctemp
        else find_word_loop buffer word_break special_prefixes fuel (ctemp - 1) := rfl

theorem find_word_loop_enough (buffer word_break : List Char)
    (special_prefixes : Option (List Char)) (fuel ctemp : Nat) (h : ctemp ≤ fuel) :
    find_word_loop buffer word_break special_prefixes fuel ctemp
      = find_word_loop buffer word_break special_prefixes ctemp ctemp := by
  have := find_word_loop_fuel buffer word_break special_prefixes ctemp (fuel - ctemp)
  rwa [Nat.add_sub_cancel' h] at this

theorem find_word_span_eq (cursor : Nat) (buffer word_break : List Char)
    (special_prefixes : Option (List Char)) :
    find_word_span cursor buffer word_break special_prefixes
      = if cursor - walk_stop cursor buffer word_break special_prefixes = 1 ∧
            (buffer.getD (walk_stop cursor buffer word_break special_prefixes) NUL = '\'' ∨
              buffer.getD (walk_stop cursor buffer word_break special_prefixes) NUL = '"') then
          (walk_stop cursor buffer word_break special_prefixes + 1, 0)
        else (walk_stop cursor buffer word_break special_prefixes,
          cursor - walk_stop cursor buffer word_break special_prefixes) := rfl

theorem walk_stops_unescaped (buffer word_break : List Char)
    (special_prefixes : Option (List Char)) :
    ∀ (fuel ctemp : Nat), ctemp ≤ fuel →
      ¬ (2 ≤ find_word_loop buffer word_break special_prefixes fuel ctemp ∧
          wcschr word_break (buffer.getD
            (find_word_loop buffer word_break special_prefixes fuel ctemp - 1) NUL) = true ∧
          buffer.getD (find_word_loop buffer word_break special_prefixes fuel ctemp - 2) NUL
            = '\\') := by
  intro fuel
  induction fuel with
  | zero =>
    intro ctemp h
    have : ctemp = 0 := by omega
    subst this
    simp [find_word_loop]
  | succ fuel ih =>
    intro ctemp h
    rw [find_word_loop_succ_eq]
    by_cases h0 : ctemp ≤ 0
    · rw [if_pos h0]; omega
    · rw [if_neg h0]
      by_cases hb : wcschr word_break (buffer.getD (ctemp - 1) NUL) = true
      · rw [if_pos hb]
        by_cases he : ctemp ≥ 2 ∧ buffer.getD (ctemp - 2) NUL = '\\'
        · rw [if_pos he]; exact ih (ctemp - 2) (by omega)
        · rw [if_neg he]
          intro hcon
          exact he ⟨hcon.1, hcon.2.2⟩
      · rw [if_neg hb]
        split
        · intro hcon; exact hb hcon.2.1
        · exact ih (ctemp - 1) (by omega)

/-- C17. In the backward walk of `find_word_to_complete`, at an offset whose preceding
character is a word-break character preceded by a backslash, the walk goes on
from before the pair, so it stops at or before the pair and both characters
are in the word; and the offset at which the walk stops is never preceded by
such an escaped word-break character. -/
theorem escaped_break_does_not_end_word (buffer word_break : List Char)
    (special_prefixes : Option (List Char)) (ctemp : Nat) (h2 : 2 ≤ ctemp)
    (hb : wcschr word_break (buffer.getD (ctemp - 1) NUL) = true)
    (he : buffer.getD (ctemp - 2) NUL = '\\') :
    find_word_loop buffer word_break special_prefixes ctemp ctemp
        = find_word_loop buffer word_break special_prefixes (ctemp - 2) (ctemp - 2) ∧
      find_word_loop buffer word_break special_prefixes ctemp ctemp ≤ ctemp - 2 ∧
      (∀ start : Nat,
        ¬ (2 ≤ find_word_loop buffer word_break special_prefixes start start ∧
            wcschr word_break (buffer.getD
              (find_word_loop buffer word_break special_prefixes start start - 1) NUL) = true ∧
            buffer.getD (find_word_loop buffer word_break special_prefixes start start - 2) NUL
              = '\\')) := by
  have hstep : find_word_loop buffer word_break special_prefixes ctemp ctemp
      = find_word_loop buffer word_break special_prefixes (ctemp - 2) (ctemp - 2) := by
    obtain ⟨f, rfl⟩ : ∃ f, ctemp = f + 1 := ⟨ctemp - 1, by omega⟩
    rw [find_word_loop_succ_eq, if_neg (by omega), if_pos hb, if_pos ⟨h2, he⟩]
    exact find_word_loop_enough buffer word_break special_prefixes f (f + 1 - 2) (by omega)
  refine ⟨hstep, ?_, fun start =>
    walk_stops_unescaped buffer word_break special_prefixes start start (Nat.le_refl _)⟩
  rw [hstep]
  exact find_word_loop_le buffer word_break special_prefixes _ _

/-- Witness for C17: the line `fo\ o` with the cursor at its end and `break_chars`: the escaped
space is skipped, the raw word is `fo\ o` with length 5 and the unescaped
word is `fo o`. -/
theorem escaped_break_does_not_end_word_witness :
    (find_word_loop "fo\\ o".toList break_chars none 4 4
        = find_word_loop "fo\\ o".toList break_chars none (4 - 2) (4 - 2) ∧
      find_word_loop "fo\\ o".toList break_chars none 4 4 ≤ 4 - 2 ∧
      (∀ start : Nat,
        ¬ (2 ≤ find_word_loop "fo\\ o".toList break_chars none start start ∧
            wcschr break_chars ("fo\\ o".toList.getD
              (find_word_loop "fo\\ o".toList break_chars none start start - 1) NUL) = true ∧
            "fo\\ o".toList.getD (find_word_loop "fo\\ o".toList break_chars none start start - 2)
              NUL = '\\'))) ∧
      find_word_to_complete true 5 "fo\\ o".toList break_chars none false
        = (some "fo\\ o".toList, 5) ∧
      find_word_to_complete true 5 "fo\\ o".toList break_chars none true
        = (some "fo o".toList, 5) :=
  ⟨escaped_break_does_not_end_word "fo\\ o".toList break_chars none 4 (by decide) (by decide)
    (by decide), by decide, by decide⟩

theorem special_inside_walk (buffer word_break sp : List Char) :
    ∀ (fuel ctemp : Nat), ctemp ≤ fuel →
      ∀ j, find_word_loop buffer word_break (some sp) fuel ctemp ≤ j → j < ctemp →
        wcschr sp (buffer.getD j NUL) = true →
        (wcschr word_break (buffer.getD j NUL) = true ∧ 1 ≤ j ∧
            buffer.getD (j - 1) NUL = '\\') ∨
          (buffer.getD j NUL = '\\' ∧ j + 1 < ctemp ∧
            wcschr word_break (buffer.getD (j + 1) NUL) = true) := by
  intro fuel
  induction fuel with
  | zero => intro ctemp h j _ hj; omega
  | succ fuel ih =>
    intro ctemp h j hs hj hsp
    rw [find_word_loop_succ_eq] at hs
    have h0 : ¬ ctemp ≤ 0 := by omega
    rw [if_neg h0] at hs
    by_cases hb : wcschr word_break (buffer.getD (ctemp - 1) NUL) = true
    · rw [if_pos hb] at hs
      by_cases he : ctemp ≥ 2 ∧ buffer.getD (ctemp - 2) NUL = '\\'
      · rw [if_pos he] at hs
        rcases Nat.lt_or_ge j (ctemp - 2) with hlt | hge
        · rcases ih (ctemp - 2) (by omega) j hs hlt hsp with h1 | h1
          · exact Or.inl h1
          · exact Or.inr ⟨h1.1, by omega, h1.2.2⟩
        · rcases Nat.eq_or_lt_of_le hge with heq | hgt
          · right
            have hj1 : j + 1 = ctemp - 1 := by omega
            have he2 := he.2
            rw [heq] at he2
            rw [hj1]
            exact ⟨he2, by omega, hb⟩
          · left
            have hj1 : j = ctemp - 1 := by omega
            have hj2 : j - 1 = ctemp - 2 := by omega
            rw [hj2, hj1]
            exact ⟨hb, by omega, he.2⟩
      · rw [if_neg he] at hs; omega
    · rw [if_neg hb] at hs
      by_cases hp : wcschr sp (buffer.getD (ctemp - 1) NUL) = true
      · simp only [hp, if_true] at hs; omega
      · simp only [hp] at hs
        rcases Nat.lt_or_ge j (ctemp - 1) with hlt | hge
        · rcases ih (ctemp - 1) (by omega) j (by simpa using hs) hlt hsp with h1 | h1
          · exact Or.inl h1
          · exact Or.inr ⟨h1.1, by omega, h1.2.2⟩
        · have hj1 : j = ctemp - 1 := by omega
          rw [hj1] at hsp
          exact absurd hsp hp

/-- C18, counterexample. With `break_chars` (which holds `$`) as word-break set and `$` as special
prefix, the walk over `echo a\$b` skips the pair `\$` and returns the word
`a\$b`: it does not stop at the special-prefix character, and the text before
it is part of the word. -/
theorem escaped_special_char_counterexample :
    wcschr "$".toList '$' = true ∧
      find_word_to_complete true 9 "echo a\\$b".toList break_chars (some "$".toList) false
        = (some "a\\$b".toList, 4) ∧
      find_word_to_complete true 9 "echo a\\$b".toList break_chars (some "$".toList) false
        ≠ (some "b".toList, 1) := by
  decide

/-- C18, amended. When a special-prefix set is supplied, a special-prefix character examined by
the backward walk ends the scan there, whether or not a backslash precedes it,
unless it is also a word-break character preceded by a backslash (that pair is
skipped).  So every special-prefix character inside the span the walk covers
is such an escaped word-break character or the backslash of a skipped pair;
no other special-prefix character, and nothing before it, gets into the word. -/
theorem special_char_ends_walk (buffer word_break sp : List Char) (start : Nat) :
    (∀ (fuel ctemp : Nat), 0 < ctemp →
      wcschr sp (buffer.getD (ctemp - 1) NUL) = true →
      ¬ (wcschr word_break (buffer.getD (ctemp - 1) NUL) = true ∧ 2 ≤ ctemp ∧
          buffer.getD (ctemp - 2) NUL = '\\') →
      find_word_loop buffer word_break (some sp) (fuel + 1) ctemp = ctemp) ∧
    (∀ j, find_word_loop buffer word_break (some sp) start start ≤ j → j < start →
      wcschr sp (buffer.getD j NUL) = true →
      (wcschr word_break (buffer.getD j NUL) = true ∧ 1 ≤ j ∧
          buffer.getD (j - 1) NUL = '\\') ∨
        (buffer.getD j NUL = '\\' ∧ j + 1 < start ∧
          wcschr word_break (buffer.getD (j + 1) NUL) = true)) := by
  refine ⟨?_, special_inside_walk buffer word_break sp start start (Nat.le_refl _)⟩
  intro fuel ctemp hpos hsp hne
  rw [find_word_loop_succ_eq, if_neg (by omega)]
  by_cases hb : wcschr word_break (buffer.getD (ctemp - 1) NUL) = true
  · rw [if_pos hb, if_neg (fun he => hne ⟨hb, he.1, he.2⟩)]
  · rw [if_neg hb]
    simp only [hsp, if_true]

/-- Witness for C18 (amended): with the space as only word-break character and `$` as special
prefix, the walk over `echo a\$b` stops at the `$` although a backslash
precedes it: the word is `b`. -/
theorem special_char_ends_walk_witness :
    find_word_loop "echo a\\$b".toList " ".toList (some "$".toList) (0 + 1) 8 = 8 ∧
      find_word_to_complete true 9 "echo a\\$b".toList " ".toList (some "$".toList) false
        = (some "b".toList, 1) :=
  ⟨(special_char_ends_walk "echo a\\$b".toList " ".toList "$".toList 9).1 0 8 (by decide)
    (by decide) (by decide), by decide⟩

theorem find_word_loop_offset_eq (buffer word_break : List Char)
    (special_prefixes : Option (List Char)) :
    ∀ (fuel ctemp : Nat),
      find_word_loop_offset buffer word_break special_prefixes fuel (ctemp : Int)
        = ((find_word_loop buffer word_break special_prefixes fuel ctemp : Nat) : Int) := by
  intro fuel
  induction fuel with
  | zero => intro ctemp; rfl
  | succ fuel ih =>
    intro ctemp
    have e : find_word_loop_offset buffer word_break special_prefixes (fuel + 1) (ctemp : Int)
        = if (ctemp : Int) ≤ 0 then (ctemp : Int)
          else if wcschr word_break (buffer.getD ((ctemp : Int) - 1).toNat NUL) then
            if (ctemp : Int) ≥ 2 ∧ buffer.getD ((ctemp : Int) - 2).toNat NUL = '\\' then
              find_word_loop_offset buffer word_break special_prefixes fuel ((ctemp : Int) - 2)
            else (ctemp : Int)
          else if (match special_prefixes with
              | none => false
              | some sp => wcschr sp (buffer.getD ((ctemp : Int) - 1).toNat NUL)) then
            (ctemp : Int)
          else find_word_loop_offset buffer word_break special_prefixes fuel
            ((ctemp : Int) - 1) := rfl
    rw [e, find_word_loop_succ_eq]
    by_cases h0 : ctemp ≤ 0
    · have h0' : (ctemp : Int) ≤ 0 := by omega
      rw [if_pos h0, if_pos h0']
    · have h0' : ¬ (ctemp : Int) ≤ 0 := by omega
      have t1 : ((ctemp : Int) - 1).toNat = ctemp - 1 := by omega
      have t2 : ((ctemp : Int) - 2).toNat = ctemp - 2 := by omega
      have c1 : (ctemp : Int) - 1 = ((ctemp - 1 : Nat) : Int) := by omega
      rw [if_neg h0, if_neg h0', t1, t2]
      by_cases h2 : ctemp ≥ 2
      · have h2' : (ctemp : Int) ≥ 2 := by omega
        have c2 : (ctemp : Int) - 2 = ((ctemp - 2 : Nat) : Int) := by omega
        rw [c1, c2, ih, ih]
        simp only [h2, h2', true_and]
        split_ifs <;> rfl
      · have h2' : ¬ (ctemp : Int) ≥ 2 := by omega
        rw [c1, ih]
        simp only [h2, h2', false_and, if_false]
        split_ifs <;> rfl

theorem walk_start_le (cursor : Nat) (buffer : List Char) : walk_start cursor buffer ≤ cursor := by
  unfold walk_start
  split <;> omega

/-- C19. If the span found by the backward walk of `find_word_to_complete` is one character
long and that character is `'` or `"`, the returned word is empty with length
0; with the cursor at the start of the buffer (an empty buffer included) the
returned word is empty with length 0.  The walk, followed with a signed
offset, never gets below 0, it ends after at most as many steps as the start
offset (more fuel changes nothing), and a word is always returned. -/
theorem find_word_edge_cases (cursor : Nat) (buffer word_break : List Char)
    (special_prefixes : Option (List Char)) (do_unescape : Bool) :
    (cursor - walk_stop cursor buffer word_break special_prefixes = 1 →
      (buffer.getD (walk_stop cursor buffer word_break special_prefixes) NUL = '\'' ∨
        buffer.getD (walk_stop cursor buffer word_break special_prefixes) NUL = '"') →
      find_word_to_complete true cursor buffer word_break special_prefixes do_unescape
        = (some [], 0)) ∧
    (cursor = 0 →
      find_word_to_complete true cursor buffer word_break special_prefixes do_unescape
        = (some [], 0)) ∧
    (0 ≤ find_word_loop_offset buffer word_break special_prefixes (walk_start cursor buffer)
          (walk_start cursor buffer : Int) ∧
      find_word_loop_offset buffer word_break special_prefixes (walk_start cursor buffer)
          (walk_start cursor buffer : Int)
        = (walk_stop cursor buffer word_break special_prefixes : Int)) ∧
    (∀ extra : Nat,
      find_word_loop buffer word_break special_prefixes (walk_start cursor buffer + extra)
          (walk_start cursor buffer)
        = walk_stop cursor buffer word_break special_prefixes) ∧
    walk_stop cursor buffer word_break special_prefixes ≤ cursor ∧
    (find_word_to_complete true cursor buffer word_break special_prefixes do_unescape).1.isSome
      = true := by
  have hoff := find_word_loop_offset_eq buffer word_break special_prefixes
    (walk_start cursor buffer) (walk_start cursor buffer)
  have hstop : walk_stop cursor buffer word_break special_prefixes ≤ cursor :=
    Nat.le_trans (find_word_loop_le buffer word_break special_prefixes _ _)
      (walk_start_le cursor buffer)
  refine ⟨?_, ?_, ⟨?_, hoff⟩, ?_, hstop, ?_⟩
  · intro h1 hq
    have hspan : find_word_span cursor buffer word_break special_prefixes
        = (walk_stop cursor buffer word_break special_prefixes + 1, 0) := by
      rw [find_word_span_eq, if_pos ⟨h1, hq⟩]
    cases do_unescape <;> simp [find_word_to_complete, hspan, unescape_string, cstr]
  · intro h0
    subst h0
    have hs : walk_stop 0 buffer word_break special_prefixes = 0 := by omega
    have hspan : find_word_span 0 buffer word_break special_prefixes = (0, 0) := by
      rw [find_word_span_eq, if_neg (fun h => by omega), hs]
    cases do_unescape <;> simp [find_word_to_complete, hspan, unescape_string, cstr]
  · rw [hoff]; omega
  · intro extra
    exact find_word_loop_fuel buffer word_break special_prefixes _ extra
  · cases do_unescape <;> simp [find_word_to_complete, unescape_string]

/-- Witness for C19: the line `ls "` with the cursor at its end (the span is the bare quote)
and the empty line. -/
theorem find_word_edge_cases_witness :
    find_word_to_complete true 4 "ls \"".toList " ".toList none true = (some [], 0) ∧
      find_word_to_complete true 0 [] break_chars none true = (some [], 0) :=
  ⟨(find_word_edge_cases 4 "ls \"".toList " ".toList none true).1 (by decide) (by decide),
    (find_word_edge_cases 0 [] break_chars none true).2.1 rfl⟩

/-! ## Tilde expansion -/

/-- C20, the code at the failing input. With the user `user` of home directory `/home/user`, the input
`~user/foo` expands to `/home/user/foo`, but for the inputs `~user` and `~`,
which hold no slash, `len` stays 0 and the whole input is kept as the
remainder: the results are `/home/user/~user` and `/home/user/~`. -/
theorem tilde_expand_without_slash :
    fn_tilde_expand true one_user_db "~user/foo".toList = some "/home/user/foo".toList ∧
      fn_tilde_expand true one_user_db "~user".toList = some "/home/user/~user".toList ∧
      fn_tilde_expand true one_user_db "~".toList = some "/home/user/~".toList := by
  decide

theorem strchr_none (s : CStr) (c : Char) (h : strchr s c = none) :
    s.takeWhile (fun x => x != c) = s := by
  induction s with
  | nil => rfl
  | cons a s ih =>
    unfold strchr at h
    by_cases hac : a = c
    · simp [hac] at h
    · rw [if_neg hac] at h
      have hs : strchr s c = none := by
        cases hh : strchr s c with
        | none => rfl
        | some i => rw [hh] at h; simp at h
      simp [List.takeWhile_cons, hac, ih hs]

theorem strchr_some (s : CStr) (c : Char) :
    ∀ p, strchr s c = some p → s.takeWhile (fun x => x != c) = s.take p := by
  induction s with
  | nil => intro p h; simp [strchr] at h
  | cons a s ih =>
    intro p h
    unfold strchr at h
    by_cases hac : a = c
    · rw [if_pos hac] at h
      injection h with h
      subst h
      simp [List.takeWhile_cons, hac]
    · rw [if_neg hac] at h
      cases hh : strchr s c with
      | none => rw [hh] at h; simp at h
      | some i =>
        rw [hh] at h
        simp only [Option.map_some'] at h
        injection h with h
        subst h
        simp [List.takeWhile_cons, hac, ih i hh]

/-- C21. `fn_tilde_expand` returns its input when the input does not start with `~`, and when it
starts with `~` but the lookup fails; the name looked up is the text between
the `~` and the first `/` or the end of the string, the current user being
looked up when that name is empty: the result is the input exactly when that
lookup finds nothing. -/
theorem tilde_expand_returns_input (db : PasswdDb) (txt : CStr) :
    (cget txt 0 ≠ '~' → fn_tilde_expand true db txt = some txt) ∧
    (cget txt 0 = '~' →
      (if (txt.drop 1).takeWhile (fun x => x != '/') = [] then db.getpwuid
        else db.getpwnam ((txt.drop 1).takeWhile (fun x => x != '/'))) = none →
      fn_tilde_expand true db txt = some txt) ∧
    (cget txt 0 = '~' →
      ∀ pw_dir,
        (if (txt.drop 1).takeWhile (fun x => x != '/') = [] then db.getpwuid
          else db.getpwnam ((txt.drop 1).takeWhile (fun x => x != '/'))) = some pw_dir →
        ∃ rest, fn_tilde_expand true db txt = some (pw_dir ++ ['/'] ++ rest)) := by
  have hname : (match strchr (txt.drop 1) '/' with
      | none => txt.drop 1
      | some _ => (txt.drop 1).take
          ((match strchr (txt.drop 1) '/' with
            | none => 0
            | some p => (p + 1) + 1) - 1 - 1))
      = (txt.drop 1).takeWhile (fun x => x != '/') := by
    cases h : strchr (txt.drop 1) '/' with
    | none => simp only [strchr_none _ _ h]
    | some p => simp only [strchr_some _ _ p h, Nat.add_sub_cancel]
  refine ⟨?_, ?_, ?_⟩
  · intro h
    simp [fn_tilde_expand, h]
  · intro h hl
    unfold fn_tilde_expand
    simp only [h, ne_eq, not_true_eq_false, if_false, Bool.not_true, Bool.false_eq_true]
    rw [hname, hl]
  · intro h pw_dir hl
    unfold fn_tilde_expand
    simp only [h, ne_eq, not_true_eq_false, if_false, Bool.not_true, Bool.false_eq_true]
    rw [hname, hl]
    exact ⟨_, rfl⟩

/-- Witness for C21: `abc` is returned as it is, `~nobody/foo` too since the user `nobody`
is unknown, and for `~user/foo` the name looked up is `user`. -/
theorem tilde_expand_returns_input_witness :
    fn_tilde_expand true one_user_db "abc".toList = some "abc".toList ∧
      fn_tilde_expand true one_user_db "~nobody/foo".toList = some "~nobody/foo".toList ∧
      ∃ rest, fn_tilde_expand true one_user_db "~user/foo".toList
        = some ("/home/user".toList ++ ['/'] ++ rest) :=
  ⟨(tilde_expand_returns_input one_user_db "abc".toList).1 (by decide),
    (tilde_expand_returns_input one_user_db "~nobody/foo".toList).2.1 (by decide) (by decide),
    (tilde_expand_returns_input one_user_db "~user/foo".toList).2.2 (by decide)
      "/home/user".toList (by decide)⟩

/-! ## The match list, the quoting scenario and the output size -/

/-- C23. For a generator that yields `cands` at the states 0, 1, 2, ... and then NULL,
`completion_matches` returns NULL exactly when `cands` is empty; otherwise it
returns the array with the common prefix in entry 0, the candidates in
generation order in the entries 1 to n, and the NULL terminator in entry n+1.
Only the generator's answers for the states 0 to n matter. -/
theorem completion_matches_array (text : CStr) (genfunc : CStr → Nat → Option CStr)
    (cands : List CStr) (fuel : Nat) (hgen : yields genfunc text cands)
    (hfuel : cands.length < fuel) :
    ∃ result, completion_matches true text genfunc fuel = some result ∧
      (result = none ↔ cands = []) ∧
      (∀ m, result = some m →
        m.get? 0 = some (common_part cands) ∧
        (∀ i, i < cands.length → m.get? (i + 1) = cands.get? i) ∧
        m.get? (cands.length + 1) = none) ∧
      (∀ genfunc2 : CStr → Nat → Option CStr,
        (∀ i, i ≤ cands.length → genfunc2 text i = genfunc text i) →
        completion_matches true text genfunc2 fuel = some result) := by
  have h := completion_matches_of_yields text genfunc cands fuel hgen hfuel
  refine ⟨_, h, ?_, ?_, ?_⟩
  · cases cands <;> simp
  · intro m hm
    cases cands with
    | nil => simp at hm
    | cons c rest =>
      simp only [Option.some.injEq] at hm
      subst hm
      refine ⟨rfl, fun i _ => rfl, ?_⟩
      simp
  · intro g hg
    have hy : yields g text cands :=
      ⟨fun i hi => by rw [hg i (Nat.le_of_lt hi)]; exact hgen.1 i hi,
        by rw [hg _ (Nat.le_refl _)]; exact hgen.2⟩
    have h2 := completion_matches_of_yields text g cands fuel hy hfuel
    cases cands with
    | nil => exact h2
    | cons c rest => exact h2

/-- Witness for C23: the candidates `/usr/share` and `/usr/shbin`. -/
theorem completion_matches_array_witness :
    completion_matches true [] (gen_of_list ["/usr/share".toList, "/usr/shbin".toList]) 3
        = some (some ["/usr/sh".toList, "/usr/share".toList, "/usr/shbin".toList]) ∧
      ∃ result, completion_matches true []
          (gen_of_list ["/usr/share".toList, "/usr/shbin".toList]) 3 = some result ∧
        (result = none ↔ ["/usr/share".toList, "/usr/shbin".toList] = []) :=
  ⟨by decide,
    (completion_matches_array [] (gen_of_list ["/usr/share".toList, "/usr/shbin".toList])
      ["/usr/share".toList, "/usr/shbin".toList] 3 ⟨fun _ _ => rfl, rfl⟩ (by decide)).imp
      (fun _ h => ⟨h.1, h.2.1⟩)⟩

/-- C25, counterexample. For the buffer `echo 'it's` with the cursor at its end, the second `'`
closes the quote that the first one opened: the scan ends outside quotes and
`escape_filename` returns `it\'s_file` for the candidate `it's_file`, not
`it'\''s_file`. -/
theorem quote_scenario_counterexample :
    quote_scan "echo 'it's".toList 10 = (false, false) ∧
      escape_filename true ⟨"echo 'it's".toList, 10, 0, 1, [], []⟩ (some "it's_file".toList)
          false none
        = some "it\\'s_file".toList ∧
      escape_filename true ⟨"echo 'it's".toList, 10, 0, 1, [], []⟩ (some "it's_file".toList)
          false none
        ≠ some "it'\\''s_file".toList := by
  decide

/-- C25, amended. For the buffer `echo 'it's` with the cursor at its end and the candidate
`it's_file`, `escape_filename` operates outside quotes and writes the embedded
quote as `\'`; with the quote still open at the cursor, as in `echo 'it`, it
operates in a single-quote context and writes `it'\''s_file`. -/
theorem quote_scenario :
    escape_filename true ⟨"echo 'it's".toList, 10, 0, 1, [], []⟩ (some "it's_file".toList)
          false none
        = some "it\\'s_file".toList ∧
      quote_scan "echo 'it".toList 8 = (true, false) ∧
      escape_filename true ⟨"echo 'it".toList, 8, 0, 1, [], []⟩ (some "it's_file".toList)
          false none
        = some "it'\\''s_file".toList := by
  decide

theorem escape_loop_length (s_quoted d_quoted : Bool) (x : CStr) :
    (escape_loop s_quoted d_quoted x).length
      ≤ x.length + escaped_character_count s_quoted d_quoted x := by
  induction x with
  | nil => simp [escape_loop, escaped_character_count]
  | cons c x ih =>
    simp only [escape_loop, escaped_character_count, List.length_append, List.length_cons]
    have hstep : (if (!needs_escaping c) = true then [c]
        else if c = '\'' ∧ s_quoted = true then ['\'', '\\', '\'', '\'']
        else if s_quoted = true then [c]
        else if d_quoted = true ∧ (!needs_dquote_escaping c) = true then [c]
        else ['\\', c]).length
        ≤ 1 + (if s_quoted = true ∧ c = '\'' then 3
          else if d_quoted = true ∧ needs_dquote_escaping c = true then 1
          else if (!s_quoted) = true ∧ (!d_quoted) = true ∧ needs_escaping c = true then 1
          else 0) := by
      cases s_quoted <;> cases d_quoted <;> cases hn : needs_escaping c <;>
        cases hd : needs_dquote_escaping c <;> by_cases hq : c = '\'' <;> simp [hq]
    omega

theorem suffix_writes_le (s_quoted d_quoted : Bool) (append_char : CStr) :
    suffix_writes s_quoted d_quoted append_char
      ≤ 1 + (if s_quoted = true ∨ d_quoted = true then 1 else 0) := by
  cases append_char with
  | nil => simp [suffix_writes]
  | cons c rest =>
    simp only [suffix_writes, escape_suffix_char, List.length_singleton]
    omega

/-- C28. The characters `escape_filename` stores, the terminating NUL included, never exceed
the size `newlen` allocated beforehand, for every buffer, cursor, candidate,
`single_match` flag and suffix probe; the output string has the length
`offset` at most, and the quote scan never sets both quote flags. -/
theorem escape_filename_fits (el : EditLine) (x : CStr) (single_match : Bool)
    (app_func : Option (CStr → CStr)) :
    final_offset (quote_scan el.buffer el.cursor).1 (quote_scan el.buffer el.cursor).2 x
          single_match app_func + 1
        ≤ escape_newlen (quote_scan el.buffer el.cursor).1 (quote_scan el.buffer el.cursor).2 x
            single_match app_func.isSome ∧
      (∀ out, escape_filename true el (some x) single_match app_func = some out →
        out.length ≤ final_offset (quote_scan el.buffer el.cursor).1
          (quote_scan el.buffer el.cursor).2 x single_match app_func) ∧
      ¬ ((quote_scan el.buffer el.cursor).1 = true ∧ (quote_scan el.buffer el.cursor).2 = true) := by
  have hbody := escape_loop_length (quote_scan el.buffer el.cursor).1
    (quote_scan el.buffer el.cursor).2 x
  refine ⟨?_, ?_, quote_scan_not_both el.buffer el.cursor⟩
  · unfold final_offset escape_newlen
    cases single_match with
    | false => simp only [Bool.false_eq_true, false_and, if_false]; omega
    | true =>
      cases app_func with
      | none => simp only [Option.isSome_none, Bool.false_eq_true, and_false, if_false]; omega
      | some f =>
        have hs := suffix_writes_le (quote_scan el.buffer el.cursor).1
          (quote_scan el.buffer el.cursor).2 (f x)
        simp only [Option.isSome_some, and_self, if_true]
        omega
  · intro out hout
    rw [escape_filename_eq] at hout
    injection hout with hout
    subst hout
    unfold final_offset appended_text
    rw [List.length_append]
    cases single_match with
    | false => simp
    | true =>
      cases app_func with
      | none => simp
      | some f =>
        simp only
        cases hf : f x with
        | nil => simp [escape_suffix, suffix_writes]
        | cons c rest => simp [suffix_writes]

/-! ## The capacity of match_list -/

theorem grow_match_list_len_gt (nmatches : Nat) :
    ∀ (fuel len : Nat), nmatches + 3 < len * 2 ^ fuel →
      nmatches + 3 < grow_match_list_len nmatches fuel len := by
  intro fuel
  induction fuel with
  | zero => intro len h; simpa [grow_match_list_len] using h
  | succ fuel ih =>
    intro len h
    unfold grow_match_list_len
    split
    · apply ih
      rw [Nat.shiftLeft_eq, Nat.pow_one]
      rw [Nat.pow_succ] at h
      calc nmatches + 3 < len * (2 ^ fuel * 2) := h
        _ = len * 2 * 2 ^ fuel := by ring
    · omega

theorem grow_match_list_len_pow (nmatches : Nat) :
    ∀ (fuel len : Nat), (∃ j, len = 2 ^ j) →
      ∃ j, grow_match_list_len nmatches fuel len = 2 ^ j := by
  intro fuel
  induction fuel with
  | zero => intro len h; simpa [grow_match_list_len] using h
  | succ fuel ih =>
    intro len h
    unfold grow_match_list_len
    split
    · apply ih
      obtain ⟨j, rfl⟩ := h
      exact ⟨j + 1, by rw [Nat.shiftLeft_eq, Nat.pow_one, Nat.pow_succ]⟩
    · exact h

theorem grow_from_capacity (nmatches len : Nat) (hlen : 1 ≤ len) :
    nmatches + 3 < grow_match_list_len nmatches (nmatches + 4) len := by
  apply grow_match_list_len_gt
  have h1 : nmatches + 4 < 2 ^ (nmatches + 4) := Nat.lt_two_pow _
  calc nmatches + 3 < 2 ^ (nmatches + 4) := by omega
    _ ≤ len * 2 ^ (nmatches + 4) := Nat.le_mul_of_pos_left _ hlen

theorem match_list_stores_spec (text : CStr) (genfunc : CStr → Nat → Option CStr)
    (cands : List CStr) (hgen : yields genfunc text cands) :
    ∀ (fuel k len : Nat) (stores : List (Nat × Nat)),
      k ≤ cands.length → cands.length - k < fuel → (∃ j, len = 2 ^ j) →
      (0 < k → k + 2 < len) →
      (∀ p ∈ stores, p.1 + 2 < p.2 ∧ ∃ j, p.2 = 2 ^ j) →
      ∃ stores2 len2,
        match_list_stores text genfunc fuel k len stores = some (stores2, cands.length, len2) ∧
        (∃ j, len2 = 2 ^ j) ∧ (0 < cands.length → cands.length + 2 < len2) ∧
        (∀ p ∈ stores2, p.1 + 2 < p.2 ∧ ∃ j, p.2 = 2 ^ j) ∧
        stores2.map Prod.fst
          = stores.map Prod.fst ++ List.range' (k + 1) (cands.length - k) := by
  intro fuel
  induction fuel with
  | zero => intro k len stores _ hf; omega
  | succ fuel ih =>
    intro k len stores hk hf hpow hcap hst
    rcases Nat.lt_or_ge k cands.length with hlt | hge
    · have hg : genfunc text k = some (cands.get ⟨k, hlt⟩) := by
        rw [hgen.1 k hlt]; exact List.get?_eq_get hlt
      have hlen1 : 1 ≤ len := by
        obtain ⟨j, rfl⟩ := hpow
        exact Nat.one_le_two_pow
      have hr : cands.length - k = (cands.length - (k + 1)) + 1 := by omega
      unfold match_list_stores
      simp only [hg]
      split
      · have hgt := grow_from_capacity k len hlen1
        obtain ⟨s2, l2, h1, h2, h3, h4, h5⟩ := ih (k + 1)
          (grow_match_list_len k (k + 4) len)
          (stores ++ [(k + 1, grow_match_list_len k (k + 4) len)]) hlt (by omega)
          (grow_match_list_len_pow k _ len hpow) (fun _ => by omega)
          (fun p hp => by
            rcases List.mem_append.mp hp with hp | hp
            · exact hst p hp
            · simp only [List.mem_singleton] at hp
              subst hp
              exact ⟨by simp only; omega, grow_match_list_len_pow k _ len hpow⟩)
        refine ⟨s2, l2, h1, h2, h3, h4, ?_⟩
        rw [h5, hr, List.range'_succ]
        simp
      · rename_i hno
        obtain ⟨s2, l2, h1, h2, h3, h4, h5⟩ := ih (k + 1) len
          (stores ++ [(k + 1, len)]) hlt (by omega) hpow (fun _ => by omega)
          (fun p hp => by
            rcases List.mem_append.mp hp with hp | hp
            · exact hst p hp
            · simp only [List.mem_singleton] at hp
              subst hp
              exact ⟨by simp only; omega, hpow⟩)
        refine ⟨s2, l2, h1, h2, h3, h4, ?_⟩
        rw [h5, hr, List.range'_succ]
        simp
    · have hk2 : k = cands.length := Nat.le_antisymm hk hge
      subst hk2
      unfold match_list_stores
      simp only [hgen.2]
      exact ⟨stores, len, rfl, hpow, hcap, hst, by simp⟩

theorem match_list_stores_capacity (text : CStr) (genfunc : CStr → Nat → Option CStr) :
    ∀ (fuel k len : Nat) (match_list : List CStr) (stores : List (Nat × Nat)),
      (completion_matches_loop true text genfunc fuel k len match_list).map
          (fun r => r.map Prod.snd)
        = (match_list_stores text genfunc fuel k len stores).map (fun r => some r.2.2) := by
  intro fuel
  induction fuel with
  | zero => intro k len l s; rfl
  | succ fuel ih =>
    intro k len l s
    unfold completion_matches_loop match_list_stores
    cases hg : genfunc text k with
    | none => rfl
    | some c =>
      simp only
      split
      · simp only [if_true]
        exact ih _ _ _ _
      · exact ih _ _ _ _

/-- C29. For a generator that yields n candidates, every store into `match_list` (the slots
1 to n in the loop, then slot 0 and the terminator slot n+1) uses an index
strictly below the capacity `match_list_len` in force; the capacity starts at
1, is only doubled, and at each store of the loop exceeds the number of
candidates stored before plus 3. -/
theorem match_list_stores_in_bounds (text : CStr) (genfunc : CStr → Nat → Option CStr)
    (cands : List CStr) (fuel : Nat) (hgen : yields genfunc text cands)
    (hfuel : cands.length < fuel) (hne : cands ≠ []) :
    ∃ stores, completion_matches_stores text genfunc fuel = some stores ∧
      (∀ p ∈ stores, p.1 < p.2 ∧ ∃ j, p.2 = 2 ^ j) ∧
      stores.map Prod.fst = List.range' 1 cands.length ++ [0, cands.length + 1] ∧
      (∀ i, i < cands.length → ∀ p, stores.get? i = some p → p.1 = i + 1 ∧ i + 3 < p.2) := by
  have hpos : 0 < cands.length := List.length_pos.mpr hne
  obtain ⟨s2, l2, h1, h2, h3, h4, h5⟩ := match_list_stores_spec text genfunc cands hgen fuel 0 1
    [] (Nat.zero_le _) (by omega) ⟨0, rfl⟩ (fun h => absurd h (Nat.lt_irrefl 0))
    (fun p hp => by simp at hp)
  have hcap := h3 hpos
  have hlen : s2.length = cands.length := by
    have := congrArg List.length h5
    simpa using this
  refine ⟨s2 ++ [(0, l2), (cands.length + 1, l2)], ?_, ?_, ?_, ?_⟩
  · unfold completion_matches_stores
    rw [h1]
    simp only [if_neg (Nat.pos_iff_ne_zero.mp hpos)]
  · intro p hp
    rcases List.mem_append.mp hp with hp | hp
    · exact ⟨by have := (h4 p hp).1; omega, (h4 p hp).2⟩
    · simp only [List.mem_cons, List.mem_singleton, List.not_mem_nil, or_false] at hp
      rcases hp with hp | hp
      · subst hp; exact ⟨by simp only; omega, h2⟩
      · subst hp; exact ⟨by simp only; omega, h2⟩
  · rw [List.map_append, h5]
    simp
  · intro i hi p hp
    have hi2 : i < s2.length := by omega
    rw [List.get?_eq_getElem?, List.getElem?_append_left hi2] at hp
    have hmem : p ∈ s2 := List.getElem?_mem hp
    have hfst : (s2.map Prod.fst)[i]? = some p.1 := by
      rw [List.getElem?_map, hp]; rfl
    rw [h5] at hfst
    simp only [List.map_nil, List.nil_append, Nat.sub_zero] at hfst
    rw [List.getElem?_range' _ _ hi] at hfst
    injection hfst with hfst
    have := (h4 p hmem).1
    omega

/-- Witness for C29: three candidates; the stores are 1, 2, 3 with capacity 4, 8, 8, then
slot 0 and the terminator slot 4 with capacity 8. -/
theorem match_list_stores_in_bounds_witness :
    completion_matches_stores [] (gen_of_list ["a".toList, "b".toList, "c".toList]) 4
        = some [(1, 4), (2, 8), (3, 8), (0, 8), (4, 8)] ∧
      ∃ stores, completion_matches_stores []
          (gen_of_list ["a".toList, "b".toList, "c".toList]) 4 = some stores ∧
        (∀ p ∈ stores, p.1 < p.2 ∧ ∃ j, p.2 = 2 ^ j) :=
  ⟨by decide,
    (match_list_stores_in_bounds [] (gen_of_list ["a".toList, "b".toList, "c".toList])
      ["a".toList, "b".toList, "c".toList] 4 ⟨fun _ _ => rfl, rfl⟩ (by decide) (by decide)).imp
      (fun _ h => ⟨h.1, h.2.1⟩)⟩

/-! ## A second completion on the completed buffer -/

theorem list_possible_matches_buffer (el : EditLine) (matches_ : List CStr)
    (query_items : Nat) :
    (list_possible_matches el matches_ query_items).buffer = el.buffer ∧
      (list_possible_matches el matches_ query_items).cursor = el.cursor := by
  unfold list_possible_matches
  simp only
  split_ifs <;> (try split) <;> exact ⟨rfl, rfl⟩

theorem fn_complete2_several_buffer (el : EditLine) (a : Args) (temp : CStr)
    (cands : List CStr) (hcur : el.cursor ≤ el.buffer.length)
    (hcons : generator_consulted el a) (hword : (word_of el a).1 = some temp)
    (hgen : yields a.complete_func temp cands) (hfuel : cands.length < a.fuel)
    (hml : a.allocs.match_list = true) (hcomp : a.allocs.completion = true)
    (hsev : 2 ≤ cands.length) :
    ∃ r, fn_complete2 el a = some r ∧
      r.el.buffer = (if common_part cands ≠ [] then
          word_replaced el a (inserted_text el a (common_part cands)) else el).buffer ∧
      r.el.cursor = (if common_part cands ≠ [] then
          word_replaced el a (inserted_text el a (common_part cands)) else el).cursor := by
  obtain ⟨c1, c2, rest, rfl⟩ := several_of_length cands hsev
  obtain ⟨r, hr, hres⟩ := fn_complete2_several el a temp c1 c2 rest hcur hcons hword hgen
    hfuel hml hcomp
  have h2 := congrArg Prod.snd hres
  simp only at h2
  refine ⟨r, hr, ?_⟩
  rw [h2]
  by_cases hw : (if el.lastcmd = el.thiscmd then '?' else '\t') = '!'
      ∨ (if el.lastcmd = el.thiscmd then '?' else '\t') = '?'
  · rw [if_pos hw]
    exact list_possible_matches_buffer _ _ _
  · rw [if_neg hw]
    by_cases hp : common_part (c1 :: c2 :: rest) ≠ []
    · rw [if_pos hp, if_pos hp]
      exact ⟨rfl, rfl⟩
    · rw [if_neg hp, if_neg hp]
      exact ⟨rfl, rfl⟩

/-- C26, counterexample. With the candidates `it'x` and `it'y` a first completion of `ls i` replaces
the word by the escaped common prefix, giving `ls it\'`.  A second completion
on that buffer, cursor after the inserted text, same generator and same
candidates, finds the empty word behind the trailing quote and inserts the
prefix again: the buffer becomes `ls it\'it\'`. -/
theorem second_completion_counterexample :
    (fn_complete2 (editor "ls i" 0 1 "")
        (el_fn_complete_args ["it'x", "it'y"] " " 100 ⟨true, true, true⟩)).map
        (fun r => (r.el.buffer, r.el.cursor))
      = some ("ls it\\'".toList, 7) ∧
    ((fn_complete2 (editor "ls i" 0 1 "")
        (el_fn_complete_args ["it'x", "it'y"] " " 100 ⟨true, true, true⟩)).bind
        (fun r => fn_complete2 { r.el with lastcmd := r.el.thiscmd }
          (el_fn_complete_args ["it'x", "it'y"] " " 100 ⟨true, true, true⟩))).map
        (fun r => r.el.buffer)
      = some "ls it\\'it\\'".toList ∧
    "ls it\\'it\\'".toList ≠ "ls it\\'".toList := by
  decide

/-- C26, amended. If one invocation of `fn_complete2` with several candidates replaced the word
by their common prefix, and a second invocation on the resulting buffer, with
the cursor after the inserted text and the same candidates, finds as its word
span exactly the text that was inserted, then it leaves the buffer text and
the cursor unchanged. -/
theorem second_completion_fixed_point (el el2 : EditLine) (a : Args) (temp temp2 : CStr)
    (cands : List CStr) (r1 : Result) (hcur : el.cursor ≤ el.buffer.length)
    (hcons : generator_consulted el a) (hword : (word_of el a).1 = some temp)
    (hgen : yields a.complete_func temp cands) (hfuel : cands.length < a.fuel)
    (hml : a.allocs.match_list = true) (hcomp : a.allocs.completion = true)
    (hsev : 2 ≤ cands.length) (hne : common_part cands ≠ [])
    (hfirst : fn_complete2 el a = some r1)
    (hbuf : el2.buffer = r1.el.buffer) (hcursor : el2.cursor = r1.el.cursor)
    (hcons2 : generator_consulted el2 a) (hword2 : (word_of el2 a).1 = some temp2)
    (hgen2 : yields a.complete_func temp2 cands)
    (hspan : (word_of el2 a).2 = (inserted_text el a (common_part cands)).length) :
    r1.el.buffer = el.buffer.take (el.cursor - (word_of el a).2)
        ++ inserted_text el a (common_part cands) ++ el.buffer.drop el.cursor ∧
      ∃ r2, fn_complete2 el2 a = some r2 ∧ r2.el.buffer = el2.buffer ∧
        r2.el.cursor = el2.cursor := by
  obtain ⟨r, hr, hb1, hc1⟩ := fn_complete2_several_buffer el a temp cands hcur hcons hword
    hgen hfuel hml hcomp hsev
  rw [hfirst] at hr
  injection hr with hr
  subst hr
  rw [if_pos hne] at hb1 hc1
  simp only [word_replaced] at hb1 hc1
  have hl1 := word_of_len_le el a
  have hpre : (el.buffer.take (el.cursor - (word_of el a).2)).length
      = el.cursor - (word_of el a).2 := by
    rw [List.length_take]; omega
  have hcur2 : el2.cursor ≤ el2.buffer.length := by
    rw [hbuf, hcursor, hb1, hc1]
    simp only [List.length_append, hpre]
    omega
  obtain ⟨r2, hr2, hb2, hc2⟩ := fn_complete2_several_buffer el2 a temp2 cands hcur2 hcons2
    hword2 hgen2 hfuel hml hcomp hsev
  rw [if_pos hne] at hb2 hc2
  simp only [word_replaced] at hb2 hc2
  have hstart : el2.cursor - (word_of el2 a).2 = el.cursor - (word_of el a).2 := by
    rw [hcursor, hc1, hspan]; omega
  have hins : inserted_text el2 a (common_part cands)
      = inserted_text el a (common_part cands) := by
    unfold inserted_text
    rw [hstart]
    have hq : quote_scan el2.buffer (el.cursor - (word_of el a).2)
        = quote_scan el.buffer (el.cursor - (word_of el a).2) := by
      apply quote_scan_congr
      intro j hj
      rw [hbuf, hb1, List.getD_eq_getElem?_getD, List.getD_eq_getElem?_getD,
        List.append_assoc, List.getElem?_append_left (by rw [hpre]; exact hj),
        List.getElem?_take_of_lt hj]
    rw [hq]
  refine ⟨hb1, r2, hr2, ?_, ?_⟩
  · rw [hb2, hstart, hins, hbuf, hb1, hcursor, hc1]
    have e1 : List.take (el.cursor - (word_of el a).2)
        (List.take (el.cursor - (word_of el a).2) el.buffer
          ++ inserted_text el a (common_part cands) ++ List.drop el.cursor el.buffer)
        = List.take (el.cursor - (word_of el a).2) el.buffer := by
      rw [List.append_assoc, List.take_left' hpre]
    have e2 : List.drop (el.cursor - (word_of el a).2
          + (inserted_text el a (common_part cands)).length)
        (List.take (el.cursor - (word_of el a).2) el.buffer
          ++ inserted_text el a (common_part cands) ++ List.drop el.cursor el.buffer)
        = List.drop el.cursor el.buffer := by
      apply List.drop_left'
      rw [List.length_append, hpre]
    rw [e1, e2]
  · rw [hc2, hstart, hins, hcursor, hc1]

/-- Witness for C26 (amended): `ls fo` with the candidates `foobar` and `foobaz` becomes
`ls fooba`, and a second completion on `ls fooba` leaves it as it is. -/
theorem second_completion_fixed_point_witness :
    ∃ r2, fn_complete2 ⟨"ls fooba".toList, 8, 1, 1, [Output.beep], []⟩
        (el_fn_complete_args ["foobar", "foobaz"] " " 100 ⟨true, true, true⟩) = some r2 ∧
      r2.el.buffer = "ls fooba".toList ∧ r2.el.cursor = 8 :=
  (second_completion_fixed_point (editor "ls fo" 0 1 "")
    ⟨"ls fooba".toList, 8, 1, 1, [Output.beep], []⟩
    (el_fn_complete_args ["foobar", "foobaz"] " " 100 ⟨true, true, true⟩)
    "fo".toList "fooba".toList ["foobar".toList, "foobaz".toList]
    { retval := CC.CC_REFRESH
      el := ⟨"ls fooba".toList, 8, 0, 1, [Output.beep], []⟩
      what_to_do := '\t', over := none, point := some 5, endp := some 5 }
    (by decide) (fun f hf => nomatch hf) (by decide) ⟨fun _ _ => rfl, rfl⟩ (by decide) rfl rfl
    (by decide) (by decide) (by rfl) rfl rfl (fun f hf => nomatch hf) (by decide)
    ⟨fun _ _ => rfl, rfl⟩ (by decide)).2

/-! ## The file name generator -/

theorem strrchr_not_mem (s : CStr) (c : Char) (h : c ∉ s) : strrchr s c = none := by
  induction s with
  | nil => rfl
  | cons a s ih =>
    have h1 : c ∉ s := fun hm => h (List.mem_cons_of_mem _ hm)
    have h2 : a ≠ c := fun e => h (e ▸ List.mem_cons_self _ _)
    simp [strrchr, ih h1, h2]

theorem strrchr_last (d f : CStr) (c : Char) (h : c ∉ f) :
    strrchr (d ++ [c] ++ f) c = some d.length := by
  induction d with
  | nil => simp [strrchr, strrchr_not_mem f c h]
  | cons a d ih =>
    have : a :: d ++ [c] ++ f = a :: (d ++ [c] ++ f) := by simp
    rw [this, strrchr, ih]
    rfl

theorem dot_entry_iff (d : CStr) (h : NUL ∉ d) :
    (cget d 0 = '.' ∧ (cget d 1 = NUL ∨ (cget d 1 = '.' ∧ cget d 2 = NUL)))
      ↔ (d = ['.'] ∨ d = ['.', '.']) := by
  have hdot : ('.' : Char) ≠ NUL := by decide
  match d, h with
  | [], _ => simp [cget, NUL]
  | [a], h =>
    have ha : a ≠ NUL := fun e => h (by simp [e])
    simp [cget]
  | [a, b], h =>
    have hb : b ≠ NUL := fun e => h (by simp [e])
    simp [cget, hb]
  | a :: b :: c :: rest, h =>
    have hb : b ≠ NUL := fun e => h (by simp [e])
    have hc : c ≠ NUL := fun e => h (by simp [e])
    simp [cget, hb, hc]

theorem filename_match_iff (d f : CStr) (hf : f ≠ []) :
    (cget d 0 = cget f 0 ∧ d.length ≥ f.length ∧ strncmp_eq d f f.length = true) ↔ f <+: d := by
  unfold strncmp_eq
  rw [List.take_length]
  constructor
  · rintro ⟨_, _, h⟩
    have h' : d.take f.length = f := by simpa using h
    rw [← h']
    exact List.take_prefix _ _
  · intro h
    obtain ⟨t, rfl⟩ := h
    cases f with
    | nil => exact absurd rfl hf
    | cons a f => simp [cget]

theorem readdir_loop_spec (fopt : Option CStr) :
    ∀ stream : List CStr, (∀ e ∈ stream, NUL ∉ e) →
      (∀ d rest, readdir_loop fopt (fopt.getD []).length stream = (some d, rest) →
        stream.filter (wanted_entry (fopt.getD []))
          = d :: rest.filter
              (wanted_entry (fopt.getD [])) ∧
        rest.length < stream.length ∧ (∀ e ∈ rest, NUL ∉ e)) ∧
      (∀ rest, readdir_loop fopt (fopt.getD []).length stream = (none, rest) →
        stream.filter (wanted_entry (fopt.getD []))
          = []) := by
  intro stream
  induction stream with
  | nil =>
    intro _
    exact ⟨fun d rest h => by simp [readdir_loop] at h, fun _ _ => rfl⟩
  | cons e stream ih =>
    intro hnul
    have he : NUL ∉ e := hnul e (List.mem_cons_self _ _)
    have hrest : ∀ x ∈ stream, NUL ∉ x := fun x hx => hnul x (List.mem_cons_of_mem _ hx)
    obtain ⟨ih1, ih2⟩ := ih hrest
    have hdot := dot_entry_iff e he
    unfold readdir_loop
    by_cases hd : e = ['.'] ∨ e = ['.', '.']
    · have hskip : ¬ (e ≠ ['.'] ∧ e ≠ ['.', '.'] ∧ fopt.getD [] <+: e) := by
        rintro ⟨h1, h2, _⟩
        rcases hd with hd | hd
        · exact h1 hd
        · exact h2 hd
      rw [if_pos (hdot.mpr hd)]
      rw [List.filter_cons_of_neg (by simpa [wanted_entry] using hskip)]
      refine ⟨fun d rest h => ?_, ih2⟩
      obtain ⟨a, b, c⟩ := ih1 d rest h
      exact ⟨a, by simp only [List.length_cons]; omega, c⟩
    · have hnd : e ≠ ['.'] ∧ e ≠ ['.', '.'] := by
        constructor
        · exact fun h => hd (Or.inl h)
        · exact fun h => hd (Or.inr h)
      rw [if_neg (fun h => hd (hdot.mp h))]
      by_cases h0 : (fopt.getD []).length = 0
      · have hf : fopt.getD [] = [] := List.length_eq_zero.mp h0
        have hkeep : e ≠ ['.'] ∧ e ≠ ['.', '.'] ∧ fopt.getD [] <+: e :=
          ⟨hnd.1, hnd.2, by rw [hf]; exact List.nil_prefix⟩
        rw [if_pos h0]
        rw [List.filter_cons_of_pos (show wanted_entry (fopt.getD []) e = true from decide_eq_true hkeep)]
        refine ⟨fun d rest h => ?_, fun rest h => by simp at h⟩
        simp only [Prod.mk.injEq, Option.some.injEq] at h
        obtain ⟨h1, h2⟩ := h
        subst h1 h2
        exact ⟨rfl, by simp, hrest⟩
      · have hf : fopt.getD [] ≠ [] := fun h => h0 (by rw [h]; rfl)
        have hm := filename_match_iff e (fopt.getD []) hf
        rw [if_neg h0]
        by_cases hp : fopt.getD [] <+: e
        · have hkeep : e ≠ ['.'] ∧ e ≠ ['.', '.'] ∧ fopt.getD [] <+: e := ⟨hnd.1, hnd.2, hp⟩
          rw [if_pos (hm.mpr hp)]
          rw [List.filter_cons_of_pos (show wanted_entry (fopt.getD []) e = true from decide_eq_true hkeep)]
          refine ⟨fun d rest h => ?_, fun rest h => by simp at h⟩
          simp only [Prod.mk.injEq, Option.some.injEq] at h
          obtain ⟨h1, h2⟩ := h
          subst h1 h2
          exact ⟨rfl, by simp, hrest⟩
        · have hskip : ¬ (e ≠ ['.'] ∧ e ≠ ['.', '.'] ∧ fopt.getD [] <+: e) :=
            fun h => hp h.2.2
          rw [if_neg (fun h => hp (hm.mp h))]
          rw [List.filter_cons_of_neg (by simpa [wanted_entry] using hskip)]
          refine ⟨fun d rest h => ?_, ih2⟩
          obtain ⟨a, b, c⟩ := ih1 d rest h
          exact ⟨a, by simp only [List.length_cons]; omega, c⟩

theorem filename_completion_init_split (fs : FileSystem) (st : GenState)
    (dirPart filePart : CStr) (hfile : '/' ∉ filePart) (hnulf : NUL ∉ filePart)
    (hdir : dirPart = [] ∨ ∃ d, dirPart = d ++ ['/']) :
    ∃ fopt : Option CStr, fopt.getD [] = filePart ∧
      filename_completion_init fs st (dirPart ++ filePart)
        = match completion_dirpath fs dirPart with
          | none =>
            ({ dir := none, filename := fopt, dirname := some dirPart, dirpath := none,
               filename_len := st.filename_len }, false)
          | some path =>
            match fs.opendir path with
            | none =>
              ({ dir := none, filename := fopt, dirname := some dirPart,
                 dirpath := some path, filename_len := st.filename_len }, false)
            | some stream =>
              ({ dir := some stream, filename := fopt, dirname := some dirPart,
                 dirpath := some path, filename_len := filePart.length }, true) := by
  rcases hdir with hd | ⟨d, hd⟩
  · subst hd
    have hpos : strrchr filePart '/' = none := strrchr_not_mem filePart '/' hfile
    have hpath : completion_dirpath fs [] = some "./".toList := rfl
    rw [hpath, List.nil_append]
    cases filePart with
    | nil =>
      refine ⟨none, rfl, ?_⟩
      have h0 : cget ([] : CStr) 0 = NUL := rfl
      unfold filename_completion_init
      simp only [hpos, h0, if_true, Option.getD_none]
      cases fs.opendir "./".toList <;> rfl
    | cons c f =>
      have hc : cget (c :: f) 0 ≠ NUL := fun e => hnulf (by
        have : c = NUL := e
        simp [this])
      refine ⟨some (c :: f), rfl, ?_⟩
      unfold filename_completion_init
      simp only [hpos, hc, if_false, Option.getD_none, Option.getD_some]
  · subst hd
    have hpos : strrchr (d ++ ['/'] ++ filePart) '/' = some d.length := strrchr_last d filePart '/' hfile
    have hne : d ++ ['/'] ≠ [] := by simp
    have htake : (d ++ ['/'] ++ filePart).take (d.length + 1) = d ++ ['/'] := by
      apply List.take_left'
      simp
    have hdrop : (d ++ ['/'] ++ filePart).drop (d.length + 1) = filePart := by
      apply List.drop_left'
      simp
    refine ⟨some filePart, rfl, ?_⟩
    unfold filename_completion_init completion_dirpath
    simp only [hpos, htake, hdrop, hne, if_false, Option.getD_some]

theorem filename_completion_call (fs : FileSystem) (text : CStr) (st : GenState)
    (state : Nat) (stream : List CStr) (hs : state ≠ 0) (hdir : st.dir = some stream) :
    fn_filename_completion_function fs st text state
      = match readdir_loop st.filename st.filename_len stream with
        | (some d_name, rest) => (some (st.dirname.getD [] ++ d_name), { st with dir := some rest })
        | (none, _) => (none, { st with dir := none }) := by
  unfold fn_filename_completion_function
  have hc : ¬ (state = 0 ∨ st.dir = none) := by
    rintro (h | h)
    · exact hs h
    · rw [hdir] at h; exact absurd h (by simp)
  rw [if_neg hc]
  simp only [hdir]
  simp

theorem filename_completions_drain (fs : FileSystem) (text dirPart filePart : CStr) :
    ∀ (fuel state : Nat) (st : GenState) (stream : List CStr),
      state ≠ 0 → st.dir = some stream → (∀ e ∈ stream, NUL ∉ e) →
      st.filename.getD [] = filePart → st.filename_len = filePart.length →
      st.dirname = some dirPart → stream.length < fuel →
      ∃ st2, filename_completions fs text fuel state st
          = some ((stream.filter (wanted_entry filePart)).map (fun n => dirPart ++ n), st2) ∧
        st2.dir = none := by
  intro fuel
  induction fuel with
  | zero => intro _ _ _ _ _ _ _ _ _ hf; omega
  | succ fuel ih =>
    intro state st stream hs hdir hnul hfn hlen hdn hf
    obtain ⟨sp1, sp2⟩ := readdir_loop_spec st.filename stream hnul
    rw [hfn] at sp1 sp2
    rw [← hlen] at sp1 sp2
    unfold filename_completions
    rw [filename_completion_call fs text st state stream hs hdir]
    cases hr : readdir_loop st.filename st.filename_len stream with
    | mk found rest =>
      cases found with
      | none =>
        simp only
        exact ⟨_, by rw [sp2 rest hr]; rfl, rfl⟩
      | some d =>
        obtain ⟨hfil, hlt, hnul2⟩ := sp1 d rest hr
        simp only
        obtain ⟨st2, h2, h3⟩ := ih (state + 1) { st with dir := some rest } rest
          (Nat.succ_ne_zero _) rfl hnul2 hfn hlen hdn (by omega)
        refine ⟨st2, ?_, h3⟩
        rw [h2, hfil, hdn]
        rfl

theorem filename_completion_first_call (fs : FileSystem) (text : CStr) (st st1 : GenState)
    (stream : List CStr) (hinit : filename_completion_init fs st text = (st1, true))
    (hdir : st1.dir = some stream) :
    fn_filename_completion_function fs st text 0
      = match readdir_loop st1.filename st1.filename_len stream with
        | (some d_name, rest) =>
          (some (st1.dirname.getD [] ++ d_name), { st1 with dir := some rest })
        | (none, _) => (none, { st1 with dir := none }) := by
  unfold fn_filename_completion_function
  rw [if_pos (Or.inl rfl), hinit]
  simp only [hdir]
  simp

/-- C22. With a directory given by the ordered list of its entry names, for every text, split
as `dirPart ++ filePart` at its last `/`, and every prior value of the static
variables, the calls of `fn_filename_completion_function` with the states 0,
1, 2, ... until NULL return, in directory order, `dirPart ++ name` for exactly
the entries `name` other than `.` and `..` that start with `filePart`; the
sequence is empty when the directory cannot be opened. -/
theorem filename_generator_sequence (fs : FileSystem) (st0 : GenState)
    (dirPart filePart : CStr) (fuel : Nat)
    (hnul : ∀ e ∈ directory_entries fs dirPart, NUL ∉ e)
    (hfile : '/' ∉ filePart) (hnulf : NUL ∉ filePart)
    (hdir : dirPart = [] ∨ ∃ d, dirPart = d ++ ['/'])
    (hfuel : (directory_entries fs dirPart).length < fuel) :
    ∃ st2, filename_completions fs (dirPart ++ filePart) fuel 0 st0
        = some (((directory_entries fs dirPart).filter (wanted_entry filePart)).map
            (fun n => dirPart ++ n), st2) ∧
      st2.dir = none := by
  obtain ⟨fopt, hfopt, hinit⟩ := filename_completion_init_split fs st0 dirPart filePart hfile
    hnulf hdir
  cases fuel with
  | zero => omega
  | succ fuel =>
    unfold filename_completions
    unfold directory_entries at hnul hfuel ⊢
    cases hp : completion_dirpath fs dirPart with
    | none =>
      rw [hp] at hinit
      simp only at hinit
      have hcall : fn_filename_completion_function fs st0 (dirPart ++ filePart) 0
          = (none, { dir := none, filename := fopt, dirname := some dirPart, dirpath := none,
                     filename_len := st0.filename_len }) := by
        unfold fn_filename_completion_function
        rw [if_pos (Or.inl rfl), hinit]
        rfl
      rw [hcall]
      exact ⟨_, rfl, rfl⟩
    | some path =>
      rw [hp] at hinit hnul hfuel
      simp only at hinit hnul hfuel ⊢
      cases ho : fs.opendir path with
      | none =>
        rw [ho] at hinit
        simp only at hinit
        have hcall : fn_filename_completion_function fs st0 (dirPart ++ filePart) 0
            = (none, { dir := none, filename := fopt, dirname := some dirPart,
                       dirpath := some path, filename_len := st0.filename_len }) := by
          unfold fn_filename_completion_function
          rw [if_pos (Or.inl rfl), hinit]
          rfl
        rw [hcall]
        exact ⟨_, rfl, rfl⟩
      | some stream =>
        rw [ho] at hinit hnul hfuel
        simp only [Option.getD_some] at hinit hnul hfuel ⊢
        rw [filename_completion_first_call fs _ st0 _ stream hinit rfl]
        simp only
        obtain ⟨sp1, sp2⟩ := readdir_loop_spec fopt stream hnul
        rw [hfopt] at sp1 sp2
        cases hr : readdir_loop fopt filePart.length stream with
        | mk found rest =>
          cases found with
          | none =>
            simp only
            exact ⟨_, by rw [sp2 rest hr]; rfl, rfl⟩
          | some d =>
            obtain ⟨hfil, hlt, hnul2⟩ := sp1 d rest hr
            simp only
            obtain ⟨st2, h2, h3⟩ := filename_completions_drain fs (dirPart ++ filePart)
              dirPart filePart fuel (0 + 1)
              { dir := some rest, filename := fopt, dirname := some dirPart,
                dirpath := some path, filename_len := filePart.length } rest
              (Nat.succ_ne_zero _) rfl hnul2 hfopt rfl rfl (by omega)
            refine ⟨st2, ?_, h3⟩
            rw [h2, hfil]
            rfl

/-- Witness for C22: the text `/usr/sh` in a file system whose `/usr/` holds `.`, `..`,
`share`, `sbin`, `lib` and `shbin`, with stale static variables: the sequence
is `/usr/share`, `/usr/shbin`. -/
theorem filename_generator_sequence_witness :
    ∃ st2, filename_completions usr_fs ("/usr/".toList ++ "sh".toList) 7 0
          ⟨some ["x".toList], some "zz".toList, none, none, 7⟩
        = some (["/usr/share".toList, "/usr/shbin".toList], st2) ∧
      st2.dir = none := by
  obtain ⟨st2, h1, h2⟩ := filename_generator_sequence usr_fs
    ⟨some ["x".toList], some "zz".toList, none, none, 7⟩ "/usr/".toList "sh".toList 7
    (by decide) (by decide) (by decide) (Or.inr ⟨"/usr".toList, rfl⟩) (by decide)
  have hlist : ((directory_entries usr_fs "/usr/".toList).filter
      (wanted_entry "sh".toList)).map (fun n => "/usr/".toList ++ n)
      = ["/usr/share".toList, "/usr/shbin".toList] := by decide
  rw [hlist] at h1
  exact ⟨st2, h1, h2⟩

/-! ## The match list display -/

theorem display_cols_pos (screenwidth width : Nat) : 0 < display_cols screenwidth width := by
  unfold display_cols
  simp only
  generalize screenwidth / (width + 2) = q
  split_ifs with h <;> omega

theorem display_cols_eq (screenwidth width : Nat) :
    display_cols screenwidth width = max 1 (screenwidth / (width + 2)) := by
  unfold display_cols
  simp only
  split_ifs with h
  · rw [h]; rfl
  · rw [max_eq_right (Nat.one_le_iff_ne_zero.mpr h)]

theorem display_lines_ceil (num cols : Nat) (hc : 0 < cols) :
    num ≤ display_lines num cols * cols ∧ (display_lines num cols - 1) * cols < num + 1 ∧
      (0 < num → (display_lines num cols - 1) * cols < num) ∧
      (0 < num → 0 < display_lines num cols) := by
  unfold display_lines
  have h1 := Nat.div_add_mod (num + cols - 1) cols
  have h2 := Nat.mod_lt (num + cols - 1) hc
  have h3 : cols * ((num + cols - 1) / cols) = (num + cols - 1) / cols * cols := Nat.mul_comm _ _
  have h4 : ((num + cols - 1) / cols - 1) * cols = (num + cols - 1) / cols * cols - cols := by
    rw [Nat.sub_mul, Nat.one_mul]
  have h5 : 0 < num → 0 < (num + cols - 1) / cols := by
    intro hn
    exact Nat.div_pos (by omega) hc
  refine ⟨by omega, by omega, ?_, h5⟩
  intro hn
  have := h5 hn
  have h6 : cols ≤ (num + cols - 1) / cols * cols := Nat.le_mul_of_pos_left _ this
  omega

/-- The cell of column `col` on line `line`. -/
theorem display_line_get (sorted : List CStr) (num width lines cols line : Nat)
    (app_func : CStr → CStr) :
    ∀ (fuel col k : Nat), cols ≤ col + fuel →
      (display_line sorted num width lines cols line app_func fuel col)[k]?
        = if col + k < cols ∧ line + (col + k) * lines < num then
            some { sep := if col + k = 0 then [] else [' '],
                   name := sorted.getD (line + (col + k) * lines) [],
                   app := app_func (sorted.getD (line + (col + k) * lines) []),
                   pad := ((width : Int)
                     - ((sorted.getD (line + (col + k) * lines) []).length : Int)).natAbs }
          else none := by
  intro fuel
  induction fuel with
  | zero =>
    intro col k h
    rw [if_neg (by omega)]
    rfl
  | succ fuel ih =>
    intro col k h
    unfold display_line
    by_cases hc : col < cols
    · rw [if_pos hc]
      simp only
      by_cases hb : line + col * lines ≥ num
      · rw [if_pos hb, if_neg]
        · rfl
        · intro hh
          have : col * lines ≤ (col + k) * lines := Nat.mul_le_mul_right _ (by omega)
          omega
      · rw [if_neg hb]
        cases k with
        | zero =>
          rw [List.getElem?_cons_zero]
          simp only [Nat.add_zero]
          rw [if_pos (show col < cols ∧ line + col * lines < num from ⟨hc, by omega⟩)]
        | succ k =>
          rw [List.getElem?_cons_succ, ih (col + 1) k (by omega)]
          have e : col + 1 + k = col + (k + 1) := by omega
          rw [e]
    · rw [if_neg hc, if_neg (by omega)]
      rfl

theorem range_filterMap_getElem (l : List CStr) (off : Nat) :
    ∀ m, (List.range m).filterMap (fun i => l[i + off]?) = (l.drop off).take m := by
  intro m
  induction m with
  | zero => rfl
  | succ m ih =>
    rw [List.range_succ, List.filterMap_append, ih, List.take_succ, List.getElem?_drop,
      Nat.add_comm off m]
    congr 1

theorem range_flatMap_chunks (l : List CStr) (m : Nat) :
    ∀ k, (List.range k).flatMap (fun c => (l.drop (c * m)).take m) = l.take (k * m) := by
  intro k
  induction k with
  | zero => simp
  | succ k ih =>
    rw [List.range_succ, List.flatMap_append, ih, Nat.succ_mul, List.take_add]
    simp

/-- The names of one column of the display are a chunk of the sorted array. -/
theorem display_column (sorted : List CStr) (width lines cols col : Nat)
    (app_func : CStr → CStr) (hcol : col < cols) :
    ((List.range lines).map (fun line =>
        display_line sorted sorted.length width lines cols line app_func cols 0)).filterMap
      (fun row => (row.get? col).map Cell.name)
      = (sorted.drop (col * lines)).take lines := by
  rw [List.filterMap_map, ← range_filterMap_getElem]
  apply List.filterMap_congr
  intro line _
  simp only [Function.comp, List.get?_eq_getElem?]
  rw [display_line_get sorted sorted.length width lines cols line app_func cols 0 col
    (by omega)]
  simp only [Nat.zero_add]
  by_cases h : line + col * lines < sorted.length
  · rw [if_pos ⟨hcol, h⟩, List.getElem?_eq_getElem h]
    simp [List.getD_eq_getElem?_getD, List.getElem?_eq_getElem h]
  · rw [if_neg (fun hh => h hh.2), List.getElem?_eq_none (by omega)]
    rfl

theorem fn_display_match_list_eq (screenwidth width num : Nat)
    (qsort : List CStr → (CStr → CStr → Int) → List CStr) (acf : CStr → CStr)
    (matches_ : List CStr) (app_func : Option (CStr → CStr)) :
    fn_display_match_list screenwidth qsort acf matches_ num width app_func
      = (List.range (display_lines (num - 1) (display_cols screenwidth width))).map
          (fun line => display_line (display_sorted qsort matches_ num) (num - 1) width
            (display_lines (num - 1) (display_cols screenwidth width))
            (display_cols screenwidth width) line (app_func.getD acf)
            (display_cols screenwidth width) 0) := rfl

/-- C24. For every array of `num - 1 >= 1` candidates after `matches[0]`, every screen width
and every `width`, with a `qsort` that returns the candidates ordered by
`strcasecmp`: `fn_display_match_list` uses `cols = max(1, screenwidth /
(width + 2))` columns and `lines = ceil((num - 1) / cols)` lines; the cell of
line `line` and column `col` exists exactly when `col < cols` and
`line + col * lines < num - 1` and then shows the sorted candidate of that
index; reading the columns top to bottom, left to right, gives the sorted
candidates, each candidate once. -/
theorem display_match_list_layout (screenwidth width num : Nat)
    (qsort : List CStr → (CStr → CStr → Int) → List CStr) (acf : CStr → CStr)
    (matches_ : List CStr) (app_func : Option (CStr → CStr))
    (hnum : num ≤ matches_.length) (hn : 2 ≤ num)
    (hperm : (display_sorted qsort matches_ num).Perm (display_candidates matches_ num))
    (hsort : (display_sorted qsort matches_ num).Pairwise
      (fun a b => _fn_qsort_string_compare a b ≤ 0)) :
    ∃ cols lines, cols = max 1 (screenwidth / (width + 2)) ∧
      (num - 1 ≤ lines * cols ∧ (lines - 1) * cols < num - 1) ∧
      (fn_display_match_list screenwidth qsort acf matches_ num width app_func).length
        = lines ∧
      (∀ line col, line < lines →
        ((fn_display_match_list screenwidth qsort acf matches_ num width app_func).getD
            line [])[col]?
          = if col < cols ∧ line + col * lines < num - 1 then
              some { sep := if col = 0 then [] else [' '],
                     name := (display_sorted qsort matches_ num).getD (line + col * lines) [],
                     app := (app_func.getD acf)
                       ((display_sorted qsort matches_ num).getD (line + col * lines) []),
                     pad := ((width : Int) - (((display_sorted qsort matches_ num).getD
                       (line + col * lines) []).length : Int)).natAbs }
            else none) ∧
      column_reading (fn_display_match_list screenwidth qsort acf matches_ num width app_func)
          cols = display_sorted qsort matches_ num ∧
      (column_reading (fn_display_match_list screenwidth qsort acf matches_ num width app_func)
          cols).Perm (display_candidates matches_ num) ∧
      (column_reading (fn_display_match_list screenwidth qsort acf matches_ num width app_func)
          cols).Pairwise (fun a b => strcasecmp a b ≤ 0) := by
  have hlen : (display_sorted qsort matches_ num).length = num - 1 := by
    rw [hperm.length_eq]
    unfold display_candidates
    rw [List.length_take, List.length_drop]
    omega
  have hcpos := display_cols_pos screenwidth width
  obtain ⟨c1, _, c3, c4⟩ := display_lines_ceil (num - 1) (display_cols screenwidth width) hcpos
  have hread : column_reading
      (fn_display_match_list screenwidth qsort acf matches_ num width app_func)
      (display_cols screenwidth width) = display_sorted qsort matches_ num := by
    unfold column_reading
    rw [fn_display_match_list_eq, ← hlen]
    have hcongr : ∀ col ∈ List.range (display_cols screenwidth width),
        ((List.range (display_lines (display_sorted qsort matches_ num).length
            (display_cols screenwidth width))).map (fun line =>
          display_line (display_sorted qsort matches_ num)
            (display_sorted qsort matches_ num).length width
            (display_lines (display_sorted qsort matches_ num).length
              (display_cols screenwidth width))
            (display_cols screenwidth width) line (app_func.getD acf)
            (display_cols screenwidth width) 0)).filterMap
          (fun row => (row.get? col).map Cell.name)
        = ((display_sorted qsort matches_ num).drop (col * display_lines
            (display_sorted qsort matches_ num).length (display_cols screenwidth width))).take
            (display_lines (display_sorted qsort matches_ num).length
              (display_cols screenwidth width)) := by
      intro col hcol
      exact display_column _ width _ _ col _ (List.mem_range.mp hcol)
    rw [List.flatMap_congr hcongr, range_flatMap_chunks, List.take_of_length_le]
    rw [hlen, Nat.mul_comm]
    exact c1
  refine ⟨display_cols screenwidth width, display_lines (num - 1) (display_cols screenwidth width),
    display_cols_eq screenwidth width, ⟨c1, c3 (by omega)⟩, ?_, ?_, hread, ?_, ?_⟩
  · rw [fn_display_match_list_eq, List.length_map, List.length_range]
  · intro line col hline
    rw [fn_display_match_list_eq, List.getD_eq_getElem?_getD, List.getElem?_map,
      List.getElem?_range hline]
    simp only [Option.map_some', Option.getD_some]
    rw [display_line_get _ _ _ _ _ _ _ _ 0 col (by omega)]
    simp only [Nat.zero_add]
  · rw [hread]; exact hperm
  · rw [hread]; exact hsort

/-- Witness for C24: five candidates on a screen of width 10 with `width = 2`: two columns and
three lines, the columns read `aa`, `ab`, `Ac` and then `AD`, `ae`. -/
theorem display_match_list_layout_witness :
    column_reading (fn_display_match_list 10 insertion_qsort (fun _ => [' ']) five_matches
        6 2 none) 2
      = ["aa".toList, "ab".toList, "Ac".toList, "AD".toList, "ae".toList] := by
  obtain ⟨cols, lines, hc, _, _, _, hread, _, _⟩ :=
    display_match_list_layout 10 2 6 insertion_qsort (fun _ => [' ']) five_matches none
      (by decide) (by decide) (List.perm_insertionSort _ _) (by decide)
  have h2 : cols = 2 := hc.trans (by decide)
  rw [h2] at hread
  rw [hread]
  decide

end Filecomplete

namespace IntervalTree

/-! ## The first interval of a query -/

theorem compare_key_neg (n : interval_tree_node) (k : Nat) :
    interval_tree_compare_key n k < 0 ↔ n.start < k := by
  unfold interval_tree_compare_key
  split_ifs <;> simp <;> omega

theorem compare_nodes_neg (a b : interval_tree_node) :
    (interval_tree_compare_nodes a b < 0 → a.start ≤ b.start) ∧
      (¬ interval_tree_compare_nodes a b < 0 → b.start ≤ a.start) := by
  unfold interval_tree_compare_nodes
  split_ifs <;> simp <;> omega

/-- The search keeps a stored node with the least start among those not below the key. -/
theorem find_node_geq_fold (key : Nat) :
    ∀ (tree seen : List interval_tree_node) (best : Option interval_tree_node),
      (match best with
        | none => ∀ n ∈ seen, n.start < key
        | some b => b ∈ seen ∧ key ≤ b.start ∧ ∀ n ∈ seen, key ≤ n.start → b.start ≤ n.start) →
      match tree.foldl
          (fun best n =>
            if interval_tree_compare_key n key < 0 then best
            else
              match best with
              | none => some n
              | some b => if interval_tree_compare_nodes n b < 0 then some n else some b)
          best with
      | none => ∀ n ∈ seen ++ tree, n.start < key
      | some b => b ∈ seen ++ tree ∧ key ≤ b.start ∧
          ∀ n ∈ seen ++ tree, key ≤ n.start → b.start ≤ n.start := by
  intro tree
  induction tree with
  | nil =>
    intro seen best h
    simpa using h
  | cons x rest ih =>
    intro seen best h
    rw [List.foldl_cons]
    have e : seen ++ x :: rest = (seen ++ [x]) ++ rest := by simp
    rw [e]
    apply ih (seen ++ [x])
    by_cases hx : interval_tree_compare_key x key < 0
    · rw [if_pos hx]
      have hx2 := (compare_key_neg x key).mp hx
      cases best with
      | none =>
        intro n hn
        rcases List.mem_append.mp hn with hn | hn
        · exact h n hn
        · rw [List.mem_singleton.mp hn]; exact hx2
      | some b =>
        obtain ⟨h1, h2, h3⟩ := h
        refine ⟨List.mem_append_left _ h1, h2, ?_⟩
        intro n hn hk
        rcases List.mem_append.mp hn with hn | hn
        · exact h3 n hn hk
        · rw [List.mem_singleton.mp hn] at hk; omega
    · rw [if_neg hx]
      have hx2 : key ≤ x.start := by
        have := (compare_key_neg x key).not.mp hx
        omega
      cases best with
      | none =>
        refine ⟨by simp, hx2, ?_⟩
        intro n hn hk
        rcases List.mem_append.mp hn with hn | hn
        · have := h n hn; omega
        · rw [List.mem_singleton.mp hn]
      | some b =>
        obtain ⟨h1, h2, h3⟩ := h
        simp only
        by_cases hc : interval_tree_compare_nodes x b < 0
        · rw [if_pos hc]
          have hle := (compare_nodes_neg x b).1 hc
          refine ⟨by simp, hx2, ?_⟩
          intro n hn hk
          rcases List.mem_append.mp hn with hn | hn
          · have := h3 n hn hk; omega
          · rw [List.mem_singleton.mp hn]
        · rw [if_neg hc]
          have hle := (compare_nodes_neg x b).2 hc
          refine ⟨List.mem_append_left _ h1, h2, ?_⟩
          intro n hn hk
          rcases List.mem_append.mp hn with hn | hn
          · exact h3 n hn hk
          · rw [List.mem_singleton.mp hn]; exact hle

/-- What `interval_tree_iter_first` does find: NULL exactly when no stored interval starts
inside the query interval, and otherwise a stored node that starts inside it. -/
theorem iter_first_start_inside (root : List interval_tree_node) (start last : Nat) :
    (interval_tree_iter_first root start last = none ↔
        ∀ n ∈ root, ¬ (start ≤ n.start ∧ n.start ≤ last)) ∧
      (∀ node, interval_tree_iter_first root start last = some node →
        node ∈ root ∧ start ≤ node.start ∧ node.start ≤ last) := by
  have h := find_node_geq_fold start root [] none (by simp)
  unfold interval_tree_iter_first rb_tree_find_node_geq
  cases hf : root.foldl
      (fun best n =>
        if interval_tree_compare_key n start < 0 then best
        else
          match best with
          | none => some n
          | some b => if interval_tree_compare_nodes n b < 0 then some n else some b)
      none with
  | none =>
    rw [hf] at h
    simp only [List.nil_append] at h
    refine ⟨⟨fun _ n hn hh => ?_, fun _ => rfl⟩, fun node hnode => by cases hnode⟩
    have := h n hn
    omega
  | some b =>
    rw [hf] at h
    simp only [List.nil_append] at h
    obtain ⟨h1, h2, h3⟩ := h
    simp only
    by_cases hl : last < b.start
    · rw [if_pos hl]
      refine ⟨⟨fun _ n hn hh => ?_, fun _ => rfl⟩, fun node hnode => by cases hnode⟩
      have := h3 n hn hh.1
      omega
    · rw [if_neg hl]
      refine ⟨⟨fun hh => (by cases hh), fun hall => absurd ⟨h2, by omega⟩ (hall b h1)⟩, ?_⟩
      intro node hnode
      cases hnode
      exact ⟨h1, h2, by omega⟩

/-- A node returned by `interval_tree_iter_first` has the least start among the stored nodes
that do not start before the query. -/
theorem iter_first_least (root : List interval_tree_node) (start last : Nat)
    (node : interval_tree_node) (h : interval_tree_iter_first root start last = some node) :
    ∀ n ∈ root, start ≤ n.start → node.start ≤ n.start := by
  have hfold := find_node_geq_fold start root [] none (by simp)
  unfold interval_tree_iter_first rb_tree_find_node_geq at h
  cases hf : root.foldl
      (fun best n =>
        if interval_tree_compare_key n start < 0 then best
        else
          match best with
          | none => some n
          | some b => if interval_tree_compare_nodes n b < 0 then some n else some b)
      none with
  | none =>
    rw [hf] at h
    cases h
  | some b =>
    rw [hf] at h hfold
    simp only [List.nil_append] at hfold
    simp only at h
    by_cases hl : last < b.start
    · rw [if_pos hl] at h
      cases h
    · rw [if_neg hl] at h
      cases h
      exact hfold.2.2

/-- C27, counterexample. With the stored intervals `[0, 10]` and `[20, 30]`, which are well formed
and do not overlap, the query `[5, 7]` intersects the stored `[0, 10]`, yet
`rb_tree_find_node_geq` finds `[20, 30]`, the only node whose start is at least
5, and `interval_tree_iter_first` returns NULL because `7 < 20`. -/
theorem iter_first_misses_interval :
    nonoverlapping two_intervals ∧
      (∃ n ∈ two_intervals, intersects n 5 7) ∧
      rb_tree_find_node_geq two_intervals 5 = some ⟨20, 30⟩ ∧
      interval_tree_iter_first two_intervals 5 7 = none := by
  refine ⟨⟨by decide, by decide⟩, ⟨⟨0, 10⟩, by decide, by decide, by decide⟩, by decide,
    by decide⟩

/-- C27, amended. For every set of stored intervals that are pairwise non-overlapping, each with
`start <= last`, `interval_tree_iter_first(root, start, last)` returns NULL
exactly when no stored interval starts inside `[start, last]`, and otherwise
returns a stored interval that starts inside `[start, last]`, hence
intersects it, the one with the least start among the stored intervals that
do not start before `start`. -/
theorem iter_first_finds_start_inside (root : List interval_tree_node) (start last : Nat)
    (hno : nonoverlapping root) :
    (interval_tree_iter_first root start last = none ↔
        ∀ n ∈ root, ¬ (start ≤ n.start ∧ n.start ≤ last)) ∧
      (∀ node, interval_tree_iter_first root start last = some node →
        node ∈ root ∧ start ≤ node.start ∧ node.start ≤ last ∧
          intersects node start last ∧
          ∀ n ∈ root, start ≤ n.start → node.start ≤ n.start) := by
  obtain ⟨h1, h2⟩ := iter_first_start_inside root start last
  refine ⟨h1, ?_⟩
  intro node hnode
  obtain ⟨hm, ha, hb⟩ := h2 node hnode
  have hwf := hno.1 node hm
  exact ⟨hm, ha, hb, ⟨hb, by omega⟩, iter_first_least root start last node hnode⟩

/-- Witness for C27 (amended): with `[0, 10]` and `[20, 30]` stored, the query `[15, 25]` returns
`[20, 30]`, which starts inside it. -/
theorem iter_first_finds_start_inside_witness :
    nonoverlapping two_intervals ∧
      interval_tree_iter_first two_intervals 15 25 = some ⟨20, 30⟩ ∧
      intersects ⟨20, 30⟩ 15 25 :=
  ⟨⟨by decide, by decide⟩, by decide,
    ((iter_first_finds_start_inside two_intervals 15 25 ⟨by decide, by decide⟩).2 ⟨20, 30⟩
      (by decide)).2.2.2.1⟩

end IntervalTree

namespace ThreadStub

/-! ## The thread-specific data stubs -/

theorem find_free_some (s : TsdState) (stop : Nat) :
    ∀ (fuel i k : Nat), find_free s stop fuel i = some k →
      i ≤ k ∧ k < stop ∧ tsd_inuse_at s k = 0 := by
  intro fuel
  induction fuel with
  | zero => intro i k h; simp [find_free] at h
  | succ fuel ih =>
    intro i k h
    unfold find_free at h
    by_cases h1 : i < stop
    · rw [if_pos h1] at h
      by_cases h2 : tsd_inuse_at s i = 0
      · rw [if_pos h2] at h
        cases h
        exact ⟨Nat.le_refl _, h1, h2⟩
      · rw [if_neg h2] at h
        obtain ⟨a, b, c⟩ := ih (i + 1) k h
        exact ⟨by omega, b, c⟩
    · rw [if_neg h1] at h
      cases h

theorem find_free_none (s : TsdState) (stop : Nat) :
    ∀ (fuel i : Nat), stop ≤ i + fuel → find_free s stop fuel i = none →
      ∀ j, i ≤ j → j < stop → tsd_inuse_at s j ≠ 0 := by
  intro fuel
  induction fuel with
  | zero => intro i hf _ j h1 h2; omega
  | succ fuel ih =>
    intro i hf h j h1 h2
    unfold find_free at h
    rw [if_pos (by omega)] at h
    by_cases h3 : tsd_inuse_at s i = 0
    · rw [if_pos h3] at h
      cases h
    · rw [if_neg h3] at h
      by_cases h4 : j = i
      · rw [h4]; exact h3
      · exact ih (i + 1) (by omega) h j (by omega) h2

theorem keycreate_out_inuse (M : Nat) (s : TsdState) (d : Option Nat) (i : Nat)
    (hi : i < s.__libc_tsd.length) :
    tsd_inuse_at (keycreate_out M s d i).2.2 i = 1 := by
  unfold keycreate_out tsd_inuse_at
  simp [List.getD_eq_getElem?_getD, List.getElem?_set, hi]

theorem keycreate_out_other (M : Nat) (s : TsdState) (d : Option Nat) (i j : Nat)
    (hij : j ≠ i) :
    tsd_inuse_at (keycreate_out M s d i).2.2 j = tsd_inuse_at s j := by
  unfold keycreate_out tsd_inuse_at
  simp [List.getD_eq_getElem?_getD, List.getElem?_set, Ne.symm hij]

theorem keycreate_out_wf (M : Nat) (s : TsdState) (d : Option Nat) (i : Nat)
    (hwf : tsd_wf M s) : tsd_wf M (keycreate_out M s d i).2.2 := by
  obtain ⟨h1, h2⟩ := hwf
  refine ⟨?_, ?_⟩
  · unfold keycreate_out
    simpa using h1
  · exact Nat.mod_lt _ (by omega)

theorem keydelete_inuse (s : TsdState) (k j : Nat) :
    tsd_inuse_at (__libc_thr_keydelete_stub s k).2 j = tsd_inuse_at s j := by
  unfold __libc_thr_keydelete_stub tsd_inuse_at
  by_cases h : k = j
  · subst h
    by_cases hk : k < s.__libc_tsd.length
    · simp [List.getD_eq_getElem?_getD, List.getElem?_set, hk]
    · simp [List.getD_eq_getElem?_getD, List.getElem?_set, hk,
        List.getElem?_eq_none (Nat.le_of_not_lt hk)]
  · simp [List.getD_eq_getElem?_getD, List.getElem?_set, h]

theorem keydelete_wf (M : Nat) (s : TsdState) (k : Nat) (hwf : tsd_wf M s) :
    tsd_wf M (__libc_thr_keydelete_stub s k).2 := by
  obtain ⟨h1, h2⟩ := hwf
  refine ⟨?_, h2⟩
  unfold __libc_thr_keydelete_stub
  simpa using h1

/-- The two outcomes of `__libc_thr_keycreate_stub` on well-formed static data. -/
theorem keycreate_cases (M : Nat) (s : TsdState) (d : Option Nat) (hwf : tsd_wf M s) :
    (__libc_thr_keycreate_stub M s d = (EAGAIN, none, s) ∧ ∀ i < M, tsd_inuse_at s i ≠ 0) ∨
    (∃ k, __libc_thr_keycreate_stub M s d = keycreate_out M s d k ∧ k < M ∧
      tsd_inuse_at s k = 0) := by
  obtain ⟨h1, h2⟩ := hwf
  unfold __libc_thr_keycreate_stub
  cases hA : find_free s M M s.__libc_tsd_nextkey with
  | some k =>
    obtain ⟨_, b, c⟩ := find_free_some s M M _ k hA
    exact Or.inr ⟨k, rfl, b, c⟩
  | none =>
    cases hB : find_free s s.__libc_tsd_nextkey s.__libc_tsd_nextkey 0 with
    | some k =>
      obtain ⟨_, b, c⟩ := find_free_some s _ _ _ k hB
      exact Or.inr ⟨k, rfl, by omega, c⟩
    | none =>
      refine Or.inl ⟨rfl, ?_⟩
      intro i hi
      by_cases hlt : i < s.__libc_tsd_nextkey
      · exact find_free_none s _ _ 0 (by omega) hB i (Nat.zero_le _) hlt
      · exact find_free_none s M M _ (by omega) hA i (by omega) hi

/-- Every key returned by a sequence of calls was free before the sequence, and no key is
returned twice. -/
theorem run_calls_keys (M : Nat) :
    ∀ (calls : List TsdCall) (s : TsdState), tsd_wf M s →
      (∀ k ∈ (run_calls M s calls).1, k < M ∧ tsd_inuse_at s k = 0) ∧
      (run_calls M s calls).1.Nodup := by
  intro calls
  induction calls with
  | nil =>
    intro s _
    exact ⟨fun k hk => by simp [run_calls] at hk, List.nodup_nil⟩
  | cons c rest ih =>
    intro s hwf
    cases c with
    | keycreate d =>
      unfold run_calls
      rcases keycreate_cases M s d hwf with ⟨he, _⟩ | ⟨k, he, hk, hfree⟩
      · rw [he]
        exact ih s hwf
      · rw [he]
        have hwf1 := keycreate_out_wf M s d k hwf
        obtain ⟨i1, i2⟩ := ih (keycreate_out M s d k).2.2 hwf1
        have hset : tsd_inuse_at (keycreate_out M s d k).2.2 k = 1 :=
          keycreate_out_inuse M s d k (by rw [hwf.1]; exact hk)
        have hnot : k ∉ (run_calls M (keycreate_out M s d k).2.2 rest).1 := by
          intro hmem
          have := (i1 k hmem).2
          omega
        simp only [keycreate_out] at i1 i2 hnot hset ⊢
        refine ⟨?_, List.nodup_cons.mpr ⟨hnot, i2⟩⟩
        intro j hj
        rcases List.mem_cons.mp hj with hjk | hj
        · rw [hjk]; exact ⟨hk, hfree⟩
        · have hne : j ≠ k := fun e => hnot (e ▸ hj)
          refine ⟨(i1 j hj).1, ?_⟩
          have := keycreate_out_other M s d k j hne
          simp only [keycreate_out] at this
          rw [← this]
          exact (i1 j hj).2
    | keydelete k =>
      unfold run_calls
      obtain ⟨i1, i2⟩ := ih _ (keydelete_wf M s k hwf)
      refine ⟨?_, i2⟩
      intro j hj
      rw [← keydelete_inuse s k j]
      exact i1 j hj

/-- C30. On static data with `TSD_KEYS_MAX` slots and `__libc_tsd_nextkey` an index of the
array, `__libc_thr_keycreate_stub` returns `EAGAIN` if and only if no slot has
`tsd_inuse == 0`, and then changes nothing; otherwise it returns 0 with a key
below `TSD_KEYS_MAX` whose slot was free before the call and is marked in use
after it, and `__libc_tsd_nextkey` stays below `TSD_KEYS_MAX`. The keys returned
by the successful calls of any sequence of `keycreate` and `keydelete` calls
are pairwise distinct. -/
theorem keycreate_keys_distinct (TSD_KEYS_MAX : Nat) (s : TsdState)
    (hwf : tsd_wf TSD_KEYS_MAX s) :
    (∀ d, ((__libc_thr_keycreate_stub TSD_KEYS_MAX s d).1 = EAGAIN
          ↔ ∀ i < TSD_KEYS_MAX, tsd_inuse_at s i ≠ 0) ∧
        ((__libc_thr_keycreate_stub TSD_KEYS_MAX s d).1 = EAGAIN →
          __libc_thr_keycreate_stub TSD_KEYS_MAX s d = (EAGAIN, none, s)) ∧
        ((__libc_thr_keycreate_stub TSD_KEYS_MAX s d).1 ≠ EAGAIN →
          ∃ k s1, __libc_thr_keycreate_stub TSD_KEYS_MAX s d = (0, some k, s1) ∧
            k < TSD_KEYS_MAX ∧ tsd_inuse_at s k = 0 ∧ tsd_inuse_at s1 k = 1 ∧
            s1.__libc_tsd_nextkey < TSD_KEYS_MAX)) ∧
      (∀ k j, (__libc_thr_keydelete_stub s k).1 = 0 ∧
        tsd_inuse_at (__libc_thr_keydelete_stub s k).2 j = tsd_inuse_at s j) ∧
      (∀ calls, (run_calls TSD_KEYS_MAX s calls).1.Nodup) := by
  refine ⟨?_, fun k j => ⟨rfl, keydelete_inuse s k j⟩,
    fun calls => (run_calls_keys TSD_KEYS_MAX calls s hwf).2⟩
  intro d
  rcases keycreate_cases TSD_KEYS_MAX s d hwf with ⟨he, hall⟩ | ⟨k, he, hk, hfree⟩
  · rw [he]
    refine ⟨⟨fun _ => hall, fun _ => rfl⟩, fun _ => rfl, fun h => absurd rfl h⟩
  · have hout : keycreate_out TSD_KEYS_MAX s d k
        = (0, some k, (keycreate_out TSD_KEYS_MAX s d k).2.2) := rfl
    have hne : (keycreate_out TSD_KEYS_MAX s d k).1 ≠ EAGAIN := by
      show (0 : Nat) ≠ 35
      decide
    rw [he]
    refine ⟨⟨fun h => absurd h hne, fun hall => absurd hfree (hall k hk)⟩,
      fun h => absurd h hne, fun _ => ⟨k, _, hout, hk, hfree, ?_, ?_⟩⟩
    · exact keycreate_out_inuse TSD_KEYS_MAX s d k (by rw [hwf.1]; exact hk)
    · exact (keycreate_out_wf TSD_KEYS_MAX s d k hwf).2

/-- Witness for C30: four slots, all free at program start; five `keycreate` calls with two
`keydelete` calls between them return the keys 0, 1, 2, 3. -/
theorem keycreate_keys_distinct_witness :
    tsd_wf 4 (tsd_start 4) ∧
      (run_calls 4 (tsd_start 4)
        [TsdCall.keycreate none, TsdCall.keycreate (some 1), TsdCall.keydelete 0,
         TsdCall.keycreate none, TsdCall.keycreate none, TsdCall.keydelete 2,
         TsdCall.keycreate none]).1 = [0, 1, 2, 3] ∧
      (run_calls 4 (tsd_start 4)
        [TsdCall.keycreate none, TsdCall.keycreate (some 1), TsdCall.keydelete 0,
         TsdCall.keycreate none, TsdCall.keycreate none, TsdCall.keydelete 2,
         TsdCall.keycreate none]).1.Nodup :=
  ⟨⟨rfl, by decide⟩, by decide,
    (keycreate_keys_distinct 4 (tsd_start 4) ⟨rfl, by decide⟩).2.2 _⟩

end ThreadStub
